import Mathlib

/-!
Verification of the shape-hierarchy reconstruction and spatial-bounds
resolution engine of the penai repository (src/penai/svg.py, src/penai/models.py).

The SVG document is modelled as a rose tree of elements (`XElem`).  Tags and
attribute keys are fully qualified strings, exactly as lxml represents them:
a name `n` in namespace `ns` is the string `{ns}n`.  A node of the tree is
addressed by its path from the root (`Path`, the list of child indices), which
plays the role of lxml element identity: two `PenpotShapeElement` wrappers are
equal in the source iff they wrap the same lxml element, i.e. the same
position in the same tree.

Numbers appearing in attribute values (view boxes, clip rectangles) are
modelled as `Int` instead of Python floats; none of the verified claims
depends on non-integral or floating-point behaviour.
-/

namespace Penai

/-- Namespace URI of the SVG namespace (the `svg` prefix of `SVG.NSMAP`). -/
def svgNamespaceURI : String := "http://www.w3.org/2000/svg"

/-- Namespace URI of the Penpot namespace (the `penpot` prefix of `SVG.NSMAP`). -/
def penpotNamespaceURI : String := "https://penpot.app/xmlns"

/-- Fully qualified name as used by lxml: `\x7bnamespace\x7dname`. -/
def qualName (ns n : String) : String := "\x7b" ++ ns ++ "\x7d" ++ n

/-- Qualified tag/attribute name in the SVG namespace. -/
def svgName (n : String) : String := qualName svgNamespaceURI n

/-- Qualified tag/attribute name in the Penpot namespace. -/
def penpotName (n : String) : String := qualName penpotNamespaceURI n

/-- An XML element: qualified tag, ordered attribute list, ordered children.
Models an lxml `ElementBase` node (text content is irrelevant to the verified
code paths and omitted). -/
inductive XElem where
  | node (tag : String) (attrs : List (String × String)) (children : List XElem)
deriving Repr, Inhabited

/-- The qualified tag of an element. -/
def XElem.tag : XElem → String
  | .node t _ _ => t

/-- The attribute list of an element. -/
def XElem.attrs : XElem → List (String × String)
  | .node _ a _ => a

/-- The child list of an element (lxml `getchildren`). -/
def XElem.children : XElem → List XElem
  | .node _ _ cs => cs

/-- Attribute lookup, `element.get(key)` / `element.attrib.get(key)`. -/
def XElem.getAttr (e : XElem) (k : String) : Option String :=
  (e.attrs.find? (fun kv => kv.1 == k)).map (·.2)

/-- Replace the value of key `k` in an attribute list, or append the pair at
the end if the key is absent — the behaviour of `element.attrib[k] = v`. -/
def setPairs : List (String × String) → String → String → List (String × String)
  | [], k, v => [(k, v)]
  | kv :: rest, k, v => if kv.1 == k then (k, v) :: rest else kv :: setPairs rest k v

/-- `element.attrib[k] = v`. -/
def XElem.setAttr (e : XElem) (k v : String) : XElem :=
  .node e.tag (setPairs e.attrs k v) e.children

/-- A path from the document root to an element: the list of child indices.
Plays the role of lxml element identity within a fixed tree. -/
abbrev Path := List Nat

/-- Look up the element at a path. -/
def get? : XElem → Path → Option XElem
  | e, [] => some e
  | .node _ _ cs, i :: p =>
    match cs[i]? with
    | some c => get? c p
    | none => none

/-- Remove the node at a (nonempty) path from the tree:
`node.getparent().remove(node)`.  On the empty path the tree is returned
unchanged (the source would crash; callers guard this case). -/
def removeAt : XElem → Path → XElem
  | e, [] => e
  | .node t a cs, [i] => .node t a (cs.eraseIdx i)
  | .node t a cs, i :: p =>
    match cs[i]? with
    | some c => .node t a (cs.set i (removeAt c p))
    | none => .node t a cs

/-- Apply a function to the node at a path (used for attribute mutation on a
single element).  Invalid paths leave the tree unchanged. -/
def modifyAt : XElem → Path → (XElem → XElem) → XElem
  | e, [], f => f e
  | .node t a cs, i :: p, f =>
    match cs[i]? with
    | some c => .node t a (cs.set i (modifyAt c p f))
    | none => .node t a cs

/-- `_el_is_penpot_shape`: the element is a `<penpot:shape>` element
(prefix `penpot`, local name `shape`, i.e. qualified tag
`\x7bhttps://penpot.app/xmlns\x7dshape`). -/
def elIsPenpotShape (e : XElem) : Bool :=
  e.tag == penpotName "shape"

/-- `_el_is_group`: the element is an `<svg:g>` element. -/
def elIsGroup (e : XElem) : Bool :=
  e.tag == svgName "g"

mutual

/-- `find_all_penpot_shapes`: the paths of all `<penpot:shape>` elements in
the subtree rooted at `e`, in document (preorder) order, the order in which
`root.iter()` visits them. -/
def findAllShapePaths : XElem → List Path
  | .node t _ cs => (if t == penpotName "shape" then [([] : Path)] else []) ++ shapePathsList 0 cs

/-- Shape paths of a list of children, starting at child index `i`. -/
def shapePathsList : Nat → List XElem → List Path
  | _, [] => []
  | i, c :: cs => (findAllShapePaths c).map (i :: ·) ++ shapePathsList (i + 1) cs

end

/-- Whether the element at `p` is a `<penpot:shape>` element. -/
def isShapeAt (t : XElem) (p : Path) : Bool :=
  match get? t p with
  | some e => elIsPenpotShape e
  | none => false

mutual

theorem mem_findAllShapePaths (e : XElem) (p : Path) :
    p ∈ findAllShapePaths e ↔ isShapeAt e p = true := by
  match e, p with
  | .node t a cs, [] =>
    simp only [findAllShapePaths, isShapeAt, get?, List.mem_append]
    constructor
    · rintro (h | h)
      · by_cases ht : (t == penpotName "shape") = true
        · simpa [elIsPenpotShape, XElem.tag] using ht
        · simp [ht] at h
      · obtain ⟨j, q, hjq, _⟩ := (mem_shapePathsList 0 cs []).1 h
        exact absurd hjq (by simp)
    · intro h
      left
      simp only [elIsPenpotShape, XElem.tag] at h
      simp [h]
  | .node t a cs, i :: p =>
    simp only [findAllShapePaths, isShapeAt, get?, List.mem_append]
    have hlist := mem_shapePathsList 0 cs (i :: p)
    constructor
    · rintro (h | h)
      · by_cases ht : (t == penpotName "shape") = true <;> simp [ht] at h
      · obtain ⟨j, q, hjq, hrest⟩ := hlist.1 h
        rw [Nat.zero_add] at hjq
        obtain ⟨rfl, rfl⟩ : i = j ∧ p = q :=
          ⟨(List.cons.injEq _ _ _ _ ▸ hjq).1, (List.cons.injEq _ _ _ _ ▸ hjq).2⟩
        cases hc : cs[i]? with
        | some c =>
          rw [hc] at hrest
          have := (mem_findAllShapePaths c p).1 hrest
          simpa [isShapeAt, hc] using this
        | none => rw [hc] at hrest; exact absurd hrest (by simp)
    · intro h
      right
      apply hlist.2
      refine ⟨i, p, by simp, ?_⟩
      cases hc : cs[i]? with
      | some c =>
        rw [hc] at h
        exact (mem_findAllShapePaths c p).2 (by simpa [isShapeAt] using h)
      | none =>
        rw [hc] at h
        simp at h

theorem mem_shapePathsList (k : Nat) (cs : List XElem) (p : Path) :
    p ∈ shapePathsList k cs ↔
      ∃ j q, p = (k + j) :: q ∧
        (match cs[j]? with
         | some c => q ∈ findAllShapePaths c
         | none => False) := by
  match cs with
  | [] => simp [shapePathsList]
  | c :: cs =>
    simp only [shapePathsList, List.mem_append, List.mem_map]
    constructor
    · rintro (⟨q, hq, rfl⟩ | h)
      · exact ⟨0, q, by simp, by simpa using hq⟩
      · obtain ⟨j, q, rfl, hrest⟩ := (mem_shapePathsList (k + 1) cs p).1 h
        refine ⟨j + 1, q, ?_, by simpa using hrest⟩
        have : k + 1 + j = k + (j + 1) := by omega
        rw [this]
    · rintro ⟨j, q, rfl, hrest⟩
      match j with
      | 0 =>
        left
        exact ⟨q, by simpa using hrest, by simp⟩
      | j + 1 =>
        right
        have heq : k + (j + 1) = k + 1 + j := by omega
        rw [heq]
        exact (mem_shapePathsList (k + 1) cs ((k + 1 + j) :: q)).2
          ⟨j, q, rfl, by simpa using hrest⟩

end

mutual

theorem nodup_findAllShapePaths (e : XElem) : (findAllShapePaths e).Nodup := by
  match e with
  | .node t a cs =>
    simp only [findAllShapePaths]
    by_cases ht : (t == penpotName "shape") = true <;> simp only [ht, if_true, if_false]
    · refine List.Nodup.cons ?_ (nodup_shapePathsList 0 cs)
      intro hmem
      obtain ⟨j, q, hjq, _⟩ := (mem_shapePathsList 0 cs []).1 hmem
      exact absurd hjq (by simp)
    · simpa using nodup_shapePathsList 0 cs

theorem nodup_shapePathsList (k : Nat) (cs : List XElem) : (shapePathsList k cs).Nodup := by
  match cs with
  | [] => simp [shapePathsList]
  | c :: cs =>
    simp only [shapePathsList]
    refine List.Nodup.append ?_ (nodup_shapePathsList (k + 1) cs) ?_
    · exact (nodup_findAllShapePaths c).map (fun x y h => by
        simpa using h)
    · intro p hp hq
      obtain ⟨q, _, rfl⟩ := List.mem_map.1 hp
      obtain ⟨j, r, hjr, _⟩ := (mem_shapePathsList (k + 1) cs _).1 hq
      have : k = k + 1 + j := (List.cons.injEq _ _ _ _ ▸ hjr).1
      omega

end

theorem get?_append (a : Path) : ∀ (t : XElem) (b : Path),
    get? t (a ++ b) = (get? t a).bind (fun s => get? s b) := by
  induction a with
  | nil => intro t b; simp [get?]
  | cons i a ih =>
    intro t b
    match t with
    | .node tg at_ cs =>
      simp only [List.cons_append, get?]
      cases hc : cs[i]? with
      | some c => exact ih c b
      | none => simp

/-- Number of `<penpot:shape>` elements in the subtree of a child list. -/
theorem length_shapePathsList (cs : List XElem) : ∀ (k : Nat),
    (shapePathsList k cs).length = (cs.map (fun c => (findAllShapePaths c).length)).sum := by
  induction cs with
  | nil => intro k; simp [shapePathsList]
  | cons c cs ih => intro k; simp [shapePathsList, ih (k + 1)]

theorem sum_map_eraseIdx (f : XElem → Nat) (cs : List XElem) : ∀ (i : Nat) (c : XElem),
    cs[i]? = some c →
    ((cs.eraseIdx i).map f).sum + f c = (cs.map f).sum := by
  induction cs with
  | nil => intro i c h; simp at h
  | cons d cs ih =>
    intro i c h
    match i with
    | 0 =>
      simp only [List.getElem?_cons_zero, Option.some.injEq] at h
      subst h
      simp [List.eraseIdx]
      omega
    | i + 1 =>
      simp only [List.getElem?_cons_succ] at h
      simp only [List.eraseIdx, List.map_cons, List.sum_cons]
      have := ih i c h
      omega

theorem sum_map_set (f : XElem → Nat) (cs : List XElem) : ∀ (i : Nat) (c x : XElem),
    cs[i]? = some c →
    ((cs.set i x).map f).sum + f c = (cs.map f).sum + f x := by
  induction cs with
  | nil => intro i c x h; simp at h
  | cons d cs ih =>
    intro i c x h
    match i with
    | 0 =>
      simp only [List.getElem?_cons_zero, Option.some.injEq] at h
      subst h
      simp [List.set]
      omega
    | i + 1 =>
      simp only [List.getElem?_cons_succ] at h
      simp only [List.set, List.map_cons, List.sum_cons]
      have := ih i c x h
      omega

/-- Removing the subtree at a nonempty path `q` removes exactly the shapes of
that subtree from the page's shape list. -/
theorem length_shapePaths_removeAt : ∀ (q : Path) (t s : XElem), q ≠ [] → get? t q = some s →
    (findAllShapePaths (removeAt t q)).length + (findAllShapePaths s).length =
      (findAllShapePaths t).length := by
  intro q
  induction q with
  | nil => intro t s h; exact absurd rfl h
  | cons i q ih =>
    intro t s _ hget
    match t with
    | .node tg a cs =>
      match q with
      | [] =>
        simp only [get?] at hget
        cases hc : cs[i]? with
        | some c =>
          rw [hc] at hget
          simp only [get?, Option.some.injEq] at hget
          subst hget
          simp only [removeAt, findAllShapePaths, List.length_append,
            length_shapePathsList]
          have := sum_map_eraseIdx (fun c => (findAllShapePaths c).length) cs i c hc
          dsimp only at this
          omega
        | none => rw [hc] at hget; simp at hget
      | j :: q' =>
        simp only [get?] at hget
        cases hc : cs[i]? with
        | some c =>
          rw [hc] at hget
          have hrec := ih c s (by simp) hget
          simp only [removeAt, hc, findAllShapePaths, List.length_append,
            length_shapePathsList]
          have := sum_map_set (fun c => (findAllShapePaths c).length) cs i c
            (removeAt c (j :: q')) hc
          dsimp only at this
          omega
        | none => rw [hc] at hget; simp at hget

/-! ## Logical parent/child resolution (`PenpotShapeElement.get_parent_shape` etc.) -/

/-- The chain of ancestors inspected by the `while` loop of `get_parent_shape`:
starting from the parent of the containing `<g>` element (i.e. the grandparent
of the shape-marker node) and walking up to the document root.  Empty when the
containing group is already the root (its `getparent()` is `None`). -/
def parentCandidates (p : Path) : List Path :=
  if p.dropLast = [] then [] else (p.dropLast.dropLast).inits.reverse

/-- One step of the walk of `get_parent_shape`: if the candidate ancestor is a
`<g>` element, return the path of its first `<penpot:shape>` child, if any. -/
def nodeShapeChildPath (t : XElem) (c : Path) : Option Path :=
  match get? t c with
  | some e =>
    if elIsGroup e then (e.children.findIdx? elIsPenpotShape).map (fun i => c ++ [i])
    else none
  | none => none

/-- `PenpotShapeElement.get_parent_shape`: walk up from the containing group's
parent; at the first group ancestor that directly contains a
`<penpot:shape>` child, return that child (the parent shape); `none` if the
walk reaches the document root without success. -/
def getParentShape (t : XElem) (p : Path) : Option Path :=
  (parentCandidates p).findSome? (nodeShapeChildPath t)

theorem findSome?_eq_some_exists {α β : Type} (l : List α) (f : α → Option β) (b : β)
    (h : l.findSome? f = some b) : ∃ a ∈ l, f a = some b := by
  induction l with
  | nil => simp [List.findSome?] at h
  | cons x l ih =>
    rw [List.findSome?_cons] at h
    cases hf : f x with
    | some y =>
      rw [hf] at h
      refine ⟨x, by simp, ?_⟩
      rw [hf]
      simpa using h
    | none =>
      rw [hf] at h
      obtain ⟨a, ha, hfa⟩ := ih (by simpa using h)
      exact ⟨a, by simp [ha], hfa⟩

theorem findSome?_eq_none_of_all {α β : Type} (l : List α) (f : α → Option β)
    (h : ∀ a ∈ l, f a = none) : l.findSome? f = none := by
  induction l with
  | nil => simp [List.findSome?]
  | cons x l ih =>
    rw [List.findSome?_cons, h x (by simp)]
    exact ih (fun a ha => h a (by simp [ha]))

theorem mem_parentCandidates_prefix {p c : Path} (h : c ∈ parentCandidates p) :
    c <+: p.dropLast.dropLast ∧ p.dropLast ≠ [] := by
  unfold parentCandidates at h
  by_cases hd : p.dropLast = []
  · simp [hd] at h
  · simp only [hd, if_false, List.mem_reverse, List.mem_inits] at h
    exact ⟨h, hd⟩

theorem length_lt_of_getParentShape {t : XElem} {p r : Path}
    (h : getParentShape t p = some r) : r.length < p.length := by
  obtain ⟨c, hc, hstep⟩ := findSome?_eq_some_exists _ _ _ h
  obtain ⟨hpre, hne⟩ := mem_parentCandidates_prefix hc
  unfold nodeShapeChildPath at hstep
  cases hget : get? t c with
  | none => rw [hget] at hstep; simp at hstep
  | some e =>
    rw [hget] at hstep
    by_cases hg : elIsGroup e = true
    · simp only [hg, if_true] at hstep
      cases hidx : e.children.findIdx? elIsPenpotShape with
      | none => rw [hidx] at hstep; simp at hstep
      | some i =>
      rw [hidx] at hstep
      simp at hstep
      subst hstep
      have h1 : c.length ≤ p.dropLast.dropLast.length := hpre.length_le
      have h2 : p.dropLast.length = p.length - 1 := List.length_dropLast p
      have h3 : p.dropLast.dropLast.length = p.dropLast.length - 1 :=
        List.length_dropLast _
      have h4 : 1 ≤ p.dropLast.length := List.length_pos.2 hne
      simp only [List.length_append, List.length_cons, List.length_nil]
      omega
    · simp [hg] at hstep

/-- `get_all_parent_shapes` with an explicit fuel argument (the recursion of
the source terminates because each parent path is strictly shorter). -/
def getAllParentShapesAux : Nat → XElem → Path → List Path
  | 0, _, _ => []
  | fuel + 1, t, p =>
    match getParentShape t p with
    | none => []
    | some r => r :: getAllParentShapesAux fuel t r

/-- `PenpotShapeElement.get_all_parent_shapes`. -/
def getAllParentShapes (t : XElem) (p : Path) : List Path :=
  getAllParentShapesAux p.length t p

theorem getAllParentShapesAux_fuel (f1 : Nat) : ∀ (f2 : Nat) (t : XElem) (p : Path),
    p.length ≤ f1 → p.length ≤ f2 →
    getAllParentShapesAux f1 t p = getAllParentShapesAux f2 t p := by
  induction f1 with
  | zero =>
    intro f2 t p h1 _
    have : p = [] := List.length_eq_zero.1 (Nat.le_zero.1 h1)
    subst this
    have hnone : getParentShape t [] = none := by
      simp [getParentShape, parentCandidates, List.findSome?]
    cases f2 with
    | zero => rfl
    | succ f2 => simp [getAllParentShapesAux, hnone]
  | succ f1 ih =>
    intro f2 t p h1 h2
    cases hp : p with
    | nil =>
      have hnone : getParentShape t [] = none := by
        simp [getParentShape, parentCandidates, List.findSome?]
      cases f2 with
      | zero => rfl
      | succ f2 => simp [getAllParentShapesAux, hnone]
    | cons x xs =>
      rw [← hp]
      have hpl : p.length = xs.length + 1 := by rw [hp]; simp
      cases f2 with
      | zero => omega
      | succ f2 =>
        simp only [getAllParentShapesAux]
        cases hpar : getParentShape t p with
        | none => rfl
        | some r =>
          have hlt := length_lt_of_getParentShape hpar
          dsimp only
          rw [ih f2 t r (by omega) (by omega)]

/-- `PenpotShapeElement.depth_in_shapes` (`len(self.get_all_parent_shapes())`). -/
def depthInShapes (t : XElem) (p : Path) : Nat :=
  (getAllParentShapes t p).length

/-- `PenpotShapeElement.get_all_children_shapes`: all shapes found in the
subtree of the containing group, except the shape itself. -/
def getAllChildrenShapes (t : XElem) (p : Path) : List Path :=
  match get? t p.dropLast with
  | some g => ((findAllShapePaths g).map (fun q => p.dropLast ++ q)).filter (fun c => !(c == p))
  | none => []

/-- `PenpotShapeElement.get_direct_children_shapes`: the children shapes whose
`get_parent_shape()` equals this shape. -/
def getDirectChildrenShapes (t : XElem) (p : Path) : List Path :=
  (getAllChildrenShapes t p).filter (fun c => getParentShape t c == some p)

/-- Claim C2 (spec §3 and §8 symmetry invariant): if `S.get_parent_shape()`
resolves to `P`, then `S` appears in `P.get_direct_children_shapes()`;
conversely every direct child `C` of `S` has `C.get_parent_shape() = S`; and a
shape whose upward walk finds no group ancestor with a shape-marker child has
no parent. -/
theorem C2_parent_child_symmetry (t : XElem) :
    (∀ p r, isShapeAt t p = true → getParentShape t p = some r →
        p ∈ getDirectChildrenShapes t r) ∧
    (∀ p c, c ∈ getDirectChildrenShapes t p → getParentShape t c = some p) ∧
    (∀ p, (∀ c ∈ parentCandidates p, nodeShapeChildPath t c = none) →
        getParentShape t p = none) := by
  refine ⟨?_, ?_, ?_⟩
  · intro p r hshape hpar
    obtain ⟨c, hc, hstep⟩ := findSome?_eq_some_exists _ _ _ hpar
    obtain ⟨hpre, hne⟩ := mem_parentCandidates_prefix hc
    unfold nodeShapeChildPath at hstep
    cases hget : get? t c with
    | none => rw [hget] at hstep; simp at hstep
    | some e =>
      rw [hget] at hstep
      by_cases hg : elIsGroup e = true
      · simp only [hg, if_true] at hstep
        cases hidx : e.children.findIdx? elIsPenpotShape with
        | none => rw [hidx] at hstep; simp at hstep
        | some i =>
        rw [hidx] at hstep
        simp at hstep
        subst hstep
        have hrd : (c ++ [i]).dropLast = c := by
          simp
        have hcp : c <+: p := hpre.trans ((List.dropLast_prefix _).trans (List.dropLast_prefix _))
        obtain ⟨q, rfl⟩ := hcp
        have hlen : (c ++ [i]).length < (c ++ q).length := by
          have h1 : c.length ≤ (c ++ q).dropLast.dropLast.length := hpre.length_le
          have h2 : (c ++ q).dropLast.length = (c ++ q).length - 1 :=
            List.length_dropLast _
          have h3 : (c ++ q).dropLast.dropLast.length = (c ++ q).dropLast.length - 1 :=
            List.length_dropLast _
          have h4 : 1 ≤ (c ++ q).dropLast.length := List.length_pos.2 hne
          simp only [List.length_append, List.length_cons, List.length_nil]
          simp only [List.length_append] at h1 h2
          omega
        unfold getDirectChildrenShapes
        rw [List.mem_filter]
        constructor
        · unfold getAllChildrenShapes
          rw [hrd, hget]
          rw [List.mem_filter]
          constructor
          · rw [List.mem_map]
            refine ⟨q, ?_, rfl⟩
            rw [mem_findAllShapePaths]
            unfold isShapeAt at hshape ⊢
            rw [get?_append] at hshape
            rw [hget] at hshape
            simpa using hshape
          · simp only [Bool.not_eq_eq_eq_not, Bool.not_true, beq_eq_false_iff_ne, ne_eq]
            intro hcontra
            have := congrArg List.length hcontra
            omega
        · simp [hpar]
      · simp [hg] at hstep
  · intro p c hmem
    unfold getDirectChildrenShapes at hmem
    rw [List.mem_filter] at hmem
    exact eq_of_beq hmem.2
  · intro p hall
    exact findSome?_eq_none_of_all _ _ hall

/-! ## Python exceptions -/

/-- The Python exception kinds raised by the verified code paths.  Messages are
carried verbatim where a claim depends on them and abridged otherwise. -/
inductive PyErr where
  | keyError (msg : String)
  | valueError (msg : String)
  | runtimeError (msg : String)
  | assertionError (msg : String)
  | attributeError (msg : String)
  | indexError (msg : String)
deriving Repr, DecidableEq

/-! ## Shape types (`PenpotShapeType`, `PenpotShapeType.get_by_type_literal`) -/

/-- `PenpotShapeTypeCategory`. -/
inductive PenpotShapeTypeCategory where
  | container
  | primitive
deriving Repr, DecidableEq

/-- `PenpotShapeType`: the closed enumeration of shape types, in the member
order of the source enum. -/
inductive PenpotShapeType where
  | group
  | frame
  | bool
  | circle
  | image
  | path
  | rect
  | text
deriving Repr, DecidableEq

/-- The category of each shape type (`PenpotShapeTypeDescription.category`). -/
def PenpotShapeType.category : PenpotShapeType → PenpotShapeTypeCategory
  | .group => .container
  | .frame => .container
  | .bool => .container
  | .circle => .primitive
  | .image => .primitive
  | .path => .primitive
  | .rect => .primitive
  | .text => .primitive

/-- The type literal of each shape type (`PenpotShapeTypeDescription.literal`). -/
def PenpotShapeType.literal : PenpotShapeType → String
  | .group => "group"
  | .frame => "frame"
  | .bool => "bool"
  | .circle => "circle"
  | .image => "image"
  | .path => "path"
  | .rect => "rect"
  | .text => "text"

/-- The enum members in declaration order. -/
def PenpotShapeType.members : List PenpotShapeType :=
  [.group, .frame, .bool, .circle, .image, .path, .rect, .text]

/-- `get_literal_type_to_shape_type_mapping`: literal → member, in member
(= Python dict insertion) order. -/
def literalToShapeType : List (String × PenpotShapeType) :=
  PenpotShapeType.members.map (fun m => (m.literal, m))

/-- `PenpotShapeType.get_by_type_literal`: resolve a type literal, raising a
`ValueError` naming the offending literal and listing the valid literals when
it is unknown. -/
def PenpotShapeType.getByTypeLiteral (typeStr : String) : Except PyErr PenpotShapeType :=
  match literalToShapeType.find? (fun kv => kv.1 == typeStr) with
  | some kv => .ok kv.2
  | none => .error (.valueError
      ("Unknown Penpot shape type literal: " ++ typeStr ++ ". Valid options are: " ++
        String.intercalate ", " (literalToShapeType.map (fun kv => kv.1)) ++ "."))

/-- `PenpotShapeElement.get_penpot_attr` (for an attribute that may be
absent the source raises `KeyError`; callers in the verified paths only read
attributes that are present). -/
def getPenpotAttr (t : XElem) (p : Path) (key : String) : Option String :=
  (get? t p).bind (fun e => e.getAttr (penpotName key))

/-- Resolution of `self._shape_type` in `PenpotShapeElement.__init__`:
look up the `penpot:type` attribute and resolve the literal. -/
def typeAt (t : XElem) (p : Path) : Except PyErr PenpotShapeType :=
  match getPenpotAttr t p "type" with
  | none => .error (.keyError (penpotName "type"))
  | some s => PenpotShapeType.getByTypeLiteral s

/-- `PenpotShapeElement`: a shallow wrapper around an lxml element.  The
element reference is modelled by the element's path; the style supplier and
the lazily-computed child cache are per-wrapper state that equality and
hashing ignore. -/
structure PenpotShapeElementW where
  lxml_element : Path
  style_supplier : Option String
  child_shapes_cache : List Path
deriving Repr, DecidableEq

/-- `PenpotShapeElement.__init__`: construction resolves the shape type
eagerly and fails on an unknown literal. -/
def mkPenpotShapeElement (t : XElem) (p : Path) (style : Option String) :
    Except PyErr PenpotShapeElementW :=
  match typeAt t p with
  | .error e => .error e
  | .ok _ => .ok ⟨p, style, []⟩

/-- Claim C9: constructing a shape succeeds exactly when the type literal is
one of the eight known literals; an unknown literal such as `blob` fails at
once with a `ValueError` naming the literal and listing the valid literals. -/
theorem C9_type_literal_schema_guard :
    (∀ s : String, (PenpotShapeType.getByTypeLiteral s).isOk = true ↔
        s ∈ ["group", "frame", "bool", "circle", "image", "path", "rect", "text"]) ∧
    PenpotShapeType.getByTypeLiteral "blob" = .error (.valueError
      ("Unknown Penpot shape type literal: blob. Valid options are: " ++
        "group, frame, bool, circle, image, path, rect, text.")) ∧
    (∀ (t : XElem) (p : Path) (st : Option String) (s : String),
        getPenpotAttr t p "type" = some s →
        (mkPenpotShapeElement t p st).isOk = (PenpotShapeType.getByTypeLiteral s).isOk) := by
  refine ⟨?_, by rfl, ?_⟩
  · intro s
    constructor
    · intro h
      by_contra hmem
      have hnone : literalToShapeType.find? (fun kv => kv.1 == s) = none := by
        rw [List.find?_eq_none]
        intro kv hkv
        simp only [literalToShapeType, PenpotShapeType.members, List.map_cons,
          List.map_nil, List.mem_cons, List.not_mem_nil, or_false] at hkv
        simp only [List.mem_cons, List.not_mem_nil, or_false] at hmem
        rcases hkv with h' | h' | h' | h' | h' | h' | h' | h' <;>
          (subst h'; simp only [beq_iff_eq, PenpotShapeType.literal]; intro hq; subst hq;
            simp at hmem)
      unfold PenpotShapeType.getByTypeLiteral at h
      rw [hnone] at h
      simp [Except.isOk, Except.toBool] at h
    · intro hmem
      fin_cases hmem <;> decide
  · intro t p st s hattr
    unfold mkPenpotShapeElement typeAt
    rw [hattr]
    dsimp only
    cases h : PenpotShapeType.getByTypeLiteral s <;> rfl

/-! ## Wrapper equality and hashing (`PenpotShapeElement.__eq__`, `__hash__`) -/

/-- A Python value that is not a `PenpotShapeElement` (for the `isinstance`
check of `__eq__`). -/
inductive PyVal where
  | pyStr (s : String)
  | pyInt (n : Int)
  | pyNone
deriving Repr, DecidableEq

/-- Any Python object that may be compared against a `PenpotShapeElement`. -/
inductive PyObject where
  | shapeElement (w : PenpotShapeElementW)
  | other (v : PyVal)
deriving Repr, DecidableEq

/-- `PenpotShapeElement.__eq__`: `False` unless the other object is also a
`PenpotShapeElement`, otherwise equality of the wrapped lxml elements. -/
def PenpotShapeElementW.eqPy (a : PenpotShapeElementW) : PyObject → Bool
  | .shapeElement b => a.lxml_element == b.lxml_element
  | .other _ => false

/-- Identity hash of an lxml element, modelled as a hash of its path. -/
def pathHash : Path → Nat
  | [] => 7
  | i :: p => pathHash p * 31 + i + 1

/-- `PenpotShapeElement.__hash__`: `hash(self._lxml_element)`. -/
def PenpotShapeElementW.hashPy (a : PenpotShapeElementW) : Nat :=
  pathHash a.lxml_element

/-- Claim C10: wrappers of the same metadata node are equal and hash equal,
regardless of per-wrapper state; a wrapper is never equal to a non-wrapper;
and equal wrappers are interchangeable in index membership tests and in the
parent-equality filter of `get_direct_children_shapes`. -/
theorem C10_wrapper_identity (e : Path) (s1 s2 : Option String) (c1 c2 : List Path) :
    PenpotShapeElementW.eqPy ⟨e, s1, c1⟩ (.shapeElement ⟨e, s2, c2⟩) = true ∧
    PenpotShapeElementW.hashPy ⟨e, s1, c1⟩ = PenpotShapeElementW.hashPy ⟨e, s2, c2⟩ ∧
    (∀ v : PyVal, PenpotShapeElementW.eqPy ⟨e, s1, c1⟩ (.other v) = false) ∧
    (∀ a b : PenpotShapeElementW, a.eqPy (.shapeElement b) = true →
        ∀ (t : XElem) (q : Path),
          (getDirectChildrenShapes t q).contains a.lxml_element =
            (getDirectChildrenShapes t q).contains b.lxml_element) ∧
    (∀ a b : PenpotShapeElementW, a.eqPy (.shapeElement b) = true →
        ∀ (t : XElem) (c : Path),
          (getParentShape t c == some a.lxml_element) =
            (getParentShape t c == some b.lxml_element)) := by
  refine ⟨by simp [PenpotShapeElementW.eqPy], rfl, fun v => rfl, ?_, ?_⟩
  · intro a b hab t q
    have : a.lxml_element = b.lxml_element := eq_of_beq hab
    rw [this]
  · intro a b hab t c
    have : a.lxml_element = b.lxml_element := eq_of_beq hab
    rw [this]

/-! ## Bounding boxes and view-box resolution -/

/-- Parse a nonempty run of decimal digits. -/
def parseNatChars? (cs : List Char) : Option Nat :=
  if cs = [] then none
  else cs.foldl
    (fun acc c =>
      match acc with
      | none => none
      | some n => if c.isDigit then some (n * 10 + (c.toNat - 48)) else none)
    (some 0)

/-- Parse an optionally negated integer (the integral fragment of Python
`float` parsing; the verified code only round-trips integral values). -/
def parseInt? (s : String) : Option Int :=
  match s.data with
  | '-' :: rest => (parseNatChars? rest).map (fun n => -(n : Int))
  | cs => (parseNatChars? cs).map (fun n => (n : Int))

/-- `BoundingBox`: a rectangle `(x, y, width, height)`; construction through
the validated entry points keeps `width`/`height` non-negative (pydantic
`NonNegativeFloat`). -/
structure BoundingBox where
  x : Int
  y : Int
  width : Int
  height : Int
deriving Repr, DecidableEq

/-- Split a string into whitespace-separated fields (`str.split()`),
with `cur` the reversed accumulator for the current field. -/
def splitFields : List Char → List Char → List (List Char)
  | [], cur => if cur = [] then [] else [cur.reverse]
  | c :: rest, cur =>
    if c = ' ' then
      if cur = [] then splitFields rest [] else cur.reverse :: splitFields rest []
    else splitFields rest (c :: cur)

/-- `BoundingBox.from_view_box_string`: parse four space-separated numbers.
Failures (wrong arity, unparsable number, negative width/height) are modelled
as `none`; the source raises for them. -/
def BoundingBox.fromViewBoxString? (s : String) : Option BoundingBox :=
  match splitFields s.data [] with
  | [a, b, c, d] =>
    match parseInt? (String.mk a), parseInt? (String.mk b),
        parseInt? (String.mk c), parseInt? (String.mk d) with
    | some x, some y, some w, some h =>
      if 0 ≤ w ∧ 0 ≤ h then some ⟨x, y, w, h⟩ else none
    | _, _, _, _ => none
  | _ => none

/-- `BoundingBox.to_view_box_string`: the four numbers, space-separated. -/
def BoundingBox.toViewBoxString (b : BoundingBox) : String :=
  toString b.x ++ " " ++ toString b.y ++ " " ++ toString b.width ++ " " ++ toString b.height

/-- The `_default_view_box` property getter: read and parse the `viewBox`
attribute cached on the `<penpot:shape>` node; an absent or empty attribute
yields `None`. -/
def defaultViewBoxAt (t : XElem) (p : Path) : Option BoundingBox :=
  match get? t p with
  | none => none
  | some e =>
    match e.getAttr "viewBox" with
    | none => none
    | some s => if s = "" then none else BoundingBox.fromViewBoxString? s

/-- The `_default_view_box` property setter: serialize the box onto the
`viewBox` attribute of the `<penpot:shape>` node. -/
def setViewBoxAttr (t : XElem) (p : Path) (b : BoundingBox) : XElem :=
  modifyAt t p (fun e => e.setAttr "viewBox" b.toViewBoxString)

/-- The renderer collaborator (a web driver session): it can lay out a
document fragment and report bounding rectangles, either for a whole
fragment (`compute_view_box_with_web_driver`) or per element id
(`document.getElementById(id).getBBox()`). -/
structure Renderer where
  computeViewBox : XElem → BoundingBox
  getBBoxById : String → BoundingBox

/-- First direct child with a given qualified tag (`element.find(tag)`). -/
def findChildByTag (e : XElem) (tag : String) : Option XElem :=
  e.children.find? (fun c => c.tag == tag)

/-- `re.match(r"url\(#(.*)\)", clip_path)` and extraction of the id group. -/
def matchUrlRef? (s : String) : Option String :=
  let cs := s.data
  if cs.take 5 = "url(#".data ∧ cs.getLast? = some ')' then
    some (String.mk ((cs.drop 5).dropLast))
  else none

/-- `BoundingBox.from_clip_rect`: parse the `x`, `y`, `width`, `height`
attributes of a clip `<rect>`/`<path>` element. -/
def BoundingBox.fromClipRect (e : XElem) : Except PyErr BoundingBox :=
  match e.getAttr "x", e.getAttr "y", e.getAttr "width", e.getAttr "height" with
  | some sx, some sy, some sw, some sh =>
    match parseInt? sx, parseInt? sy, parseInt? sw, parseInt? sh with
    | some x, some y, some w, some h =>
      if 0 ≤ w ∧ 0 ≤ h then .ok ⟨x, y, w, h⟩
      else .error (.valueError "BoundingBox validation failed: negative width or height")
    | _, _, _, _ => .error (.valueError "could not convert string to float")
  | _, _, _, _ => .error (.valueError "float() argument must be a string or a number")

/-- The body of the `for tag in ["rect", "path"]` loop of `get_clip_rect`:
`defs.find("./clipPath[@id=...]/tag")`, the first `tag` child of a
`<clipPath>` child of `<defs>` carrying the referenced id. -/
def findClipEl (defs : XElem) (clipId tag : String) : Option XElem :=
  ((defs.children.filter
      (fun c => c.tag == svgName "clipPath" && c.getAttr "id" == some clipId)).map
    (fun c => c.children.filter (fun ch => ch.tag == svgName tag))).flatten.head?

/-- The assertion and parse applied to a found clip element. -/
def clipElToBBox (clipEl : XElem) : Except PyErr (Option BoundingBox) :=
  if (clipEl.getAttr "x").isSome && (clipEl.getAttr "y").isSome &&
      (clipEl.getAttr "width").isSome && (clipEl.getAttr "height").isSome then
    match BoundingBox.fromClipRect clipEl with
    | .ok b => .ok (some b)
    | .error e => .error e
  else .error (.assertionError "Expected clip element to have attributes x, y, width, height")

/-- `PenpotShapeElement.get_clip_rect`: retrieve the bounding box of the clip
mask rect referenced from the shape's main child group, `none` if the shape
has no child group or the child group carries no `clip-path` attribute, and a
hard error when the reference is malformed or unresolvable. -/
def getClipRect (t : XElem) (p : Path) : Except PyErr (Option BoundingBox) :=
  match get? t p.dropLast with
  | none => .error (.attributeError "NoneType object has no attribute find")
  | some parentGroup =>
    match findChildByTag parentGroup (svgName "g") with
    | none => .ok none
    | some childGroup =>
      match childGroup.getAttr "clip-path" with
      | none => .ok none
      | some clipPath =>
        match matchUrlRef? clipPath with
        | none => .error (.assertionError
            ("Expected clip-path to be in the format url(#id), but got " ++ clipPath))
        | some clipPathId =>
          match findChildByTag parentGroup (svgName "defs") with
          | none => .error (.attributeError "NoneType object has no attribute find")
          | some defs =>
            match findClipEl defs clipPathId "rect" with
            | some clipEl => clipElToBBox clipEl
            | none =>
              match findClipEl defs clipPathId "path" with
              | some clipEl => clipElToBBox clipEl
              | none => .error (.assertionError
                  ("Expected to find clipPath with containing rect or path element with id "
                    ++ clipPathId ++ " as it was referenced in the main group element"))

/-- `PenpotShapeElement.set_default_view_box`: write an explicit box, or
derive one through the renderer collaborator; with neither, a `ValueError`. -/
def setDefaultViewBox (t : XElem) (p : Path) (bbox : Option BoundingBox)
    (webDriver : Option Renderer) : Except PyErr XElem :=
  match bbox with
  | some b => .ok (setViewBoxAttr t p b)
  | none =>
    match webDriver with
    | none => .error (.valueError
        "since bbox was not provided, a web_driver must be provided to derive the default view box from the dom.")
    | some r => .ok (setViewBoxAttr t p
        (r.computeViewBox ((get? t p.dropLast).getD (.node "" [] []))))

/-- `PenpotShapeElement.get_default_view_box`: return the cached explicit
box if present; otherwise require the renderer collaborator, failing with a
`ValueError` when none is supplied; otherwise render, cache and re-read. -/
def getDefaultViewBox (t : XElem) (p : Path) (webDriver : Option Renderer) :
    Except PyErr (BoundingBox × XElem) :=
  match defaultViewBoxAt t p with
  | some vb => .ok (vb, t)
  | none =>
    match webDriver with
    | none => .error (.valueError
        "Default view box was not yet set, a web_driver must be provided to derive the default view box.")
    | some r =>
      match setDefaultViewBox t p none (some r) with
      | .error e => .error e
      | .ok t' => .ok ((defaultViewBoxAt t' p).getD ⟨0, 0, 0, 0⟩, t')

/-- `PenpotShapeElement.shape_id`: the `id` attribute of the containing
group.  (For a shape-marker at the document root the source would crash on
`None.get`; modelled as an absent id.) -/
def shapeIdAt (t : XElem) (p : Path) : Option String :=
  if p = [] then none
  else (get? t p.dropLast).bind (fun g => g.getAttr "id")

/-- The per-shape body of
`PenpotPageSVG.retrieve_and_set_view_boxes_for_shape_elements`, iterated over
the selected shapes: frames with a resolvable clip rect take it, every other
shape queries the renderer session by element id; the result is written to
the shape with `set_default_view_box(bbox=...)`.  The returned list collects
the ids queried from the renderer, in order. -/
def retrieveLoop (r : Renderer) (respectClip : Bool) :
    XElem → List Path → Except PyErr (XElem × List String)
  | t, [] => .ok (t, [])
  | t, p :: rest =>
    match typeAt t p with
    | .error e => .error e
    | .ok ty =>
      match
        (if respectClip && (ty == PenpotShapeType.frame) then getClipRect t p else .ok none :
          Except PyErr (Option BoundingBox)) with
      | .error e => .error e
      | .ok (some clip) => retrieveLoop r respectClip (setViewBoxAttr t p clip) rest
      | .ok none =>
        match shapeIdAt t p with
        | none => .error (.runtimeError "JavascriptException: getBBox of null")
        | some sid =>
          match retrieveLoop r respectClip (setViewBoxAttr t p (r.getBBoxById sid)) rest with
          | .error e => .error e
          | .ok (t', queried) => .ok (t', sid :: queried)

/-- `PenpotPageSVG.retrieve_and_set_view_boxes_for_shape_elements` with
`selected_shape_elements = None` (all shapes of the page) — the batched
bounds resolution. -/
def retrieveAndSetViewBoxes (r : Renderer) (respectClip : Bool) (t : XElem) :
    Except PyErr (XElem × List String) :=
  retrieveLoop r respectClip t (findAllShapePaths t)

/-! ## A concrete sample page used by witnesses -/

/-- A small page: a frame (with clip mask) containing a group that contains a
visible rect shape and an invisible path shape. -/
def sampleDoc : XElem :=
  .node (svgName "svg") [("viewBox", "0 0 200 100")] [
    .node (svgName "g") [("id", "shape-frameA")] [
      .node (penpotName "shape")
        [(penpotName "name", "FrameA"), (penpotName "type", "frame")] [],
      .node (svgName "defs") [] [
        .node (svgName "clipPath") [("id", "clipA")] [
          .node (svgName "rect")
            [("x", "0"), ("y", "0"), ("width", "100"), ("height", "50")] []]],
      .node (svgName "g") [("clip-path", "url(#clipA)")] [
        .node (svgName "g") [("id", "shape-groupB")] [
          .node (penpotName "shape")
            [(penpotName "name", "GroupB"), (penpotName "type", "group")] [],
          .node (svgName "g") [("id", "shape-rectC")] [
            .node (penpotName "shape")
              [(penpotName "name", "RectC"), (penpotName "type", "rect")] [],
            .node (svgName "g") [] [
              .node (svgName "rect")
                [("x", "0"), ("y", "0"), ("width", "10"), ("height", "10")] []]],
          .node (svgName "g") [("id", "shape-pathD")] [
            .node (penpotName "shape")
              [(penpotName "name", "PathD"), (penpotName "type", "path")] [],
            .node (svgName "g") [] [
              .node (svgName "path") [("fill", "none")] []]]]]]]

/-- A renderer stub used by witnesses. -/
def constRenderer : Renderer :=
  ⟨fun _ => ⟨0, 0, 1, 1⟩, fun _ => ⟨0, 0, 1, 1⟩⟩

/-- Claim C1, counterexample: for a `frame` shape with no cached explicit box
and a resolvable clip rectangle, `get_default_view_box` called without a
renderer does *not* return the clip rectangle — it fails with the
bounds-not-available `ValueError`.  The clip-rect source is consulted only by
the page-level batched resolution, contradicting the claimed per-shape
priority order. -/
theorem C1_counterexample :
    typeAt sampleDoc [0, 0] = .ok .frame ∧
    defaultViewBoxAt sampleDoc [0, 0] = none ∧
    getClipRect sampleDoc [0, 0] = .ok (some ⟨0, 0, 100, 50⟩) ∧
    getDefaultViewBox sampleDoc [0, 0] none = .error (.valueError
      "Default view box was not yet set, a web_driver must be provided to derive the default view box.") :=
  ⟨rfl, rfl, rfl, rfl⟩

/-- Claim C1 as amended: a cached explicit box is returned as-is, with no
mutation and no renderer or clip-path consultation; without a cached box and
without a renderer the call fails with the bounds-not-available `ValueError`
(regardless of shape type or clip rects); the clip-rectangle source for
`frame` shapes applies only inside the page-level batched resolution, where
it short-circuits the renderer query for that shape. -/
theorem C1_bounding_box_priority (t : XElem) (p : Path) :
    (∀ (vb : BoundingBox) (wd : Option Renderer), defaultViewBoxAt t p = some vb →
        getDefaultViewBox t p wd = .ok (vb, t)) ∧
    (defaultViewBoxAt t p = none → getDefaultViewBox t p none = .error (.valueError
        "Default view box was not yet set, a web_driver must be provided to derive the default view box.")) ∧
    (∀ (r : Renderer) (rest : List Path) (clip : BoundingBox),
        typeAt t p = .ok .frame → getClipRect t p = .ok (some clip) →
        retrieveLoop r true t (p :: rest) =
          retrieveLoop r true (setViewBoxAttr t p clip) rest) := by
  refine ⟨?_, ?_, ?_⟩
  · intro vb wd h
    unfold getDefaultViewBox
    rw [h]
  · intro h
    unfold getDefaultViewBox
    rw [h]
  · intro r rest clip hty hclip
    conv_lhs => rw [retrieveLoop]
    rw [hty]
    simp only [Bool.true_and, beq_self_eq_true, if_true]
    rw [hclip]

/-- Witness for `C1_bounding_box_priority` at concrete inputs. -/
theorem C1_bounding_box_priority_witness :
    getDefaultViewBox (setViewBoxAttr sampleDoc [0, 2, 0, 1, 0] ⟨1, 2, 3, 4⟩)
        [0, 2, 0, 1, 0] (some constRenderer) =
      .ok (⟨1, 2, 3, 4⟩, setViewBoxAttr sampleDoc [0, 2, 0, 1, 0] ⟨1, 2, 3, 4⟩) ∧
    getDefaultViewBox sampleDoc [0, 2, 0, 1, 0] none = .error (.valueError
      "Default view box was not yet set, a web_driver must be provided to derive the default view box.") ∧
    retrieveLoop constRenderer true sampleDoc [[0, 0]] =
      retrieveLoop constRenderer true (setViewBoxAttr sampleDoc [0, 0] ⟨0, 0, 100, 50⟩) [] :=
  ⟨(C1_bounding_box_priority _ _).1 ⟨1, 2, 3, 4⟩ (some constRenderer) (by rfl),
   (C1_bounding_box_priority _ _).2.1 (by rfl),
   (C1_bounding_box_priority _ _).2.2 constRenderer [] ⟨0, 0, 100, 50⟩ (by rfl) (by rfl)⟩

/-- Witness for `C2_parent_child_symmetry` on the sample page. -/
theorem C2_parent_child_symmetry_witness :
    [0, 2, 0, 1, 0] ∈ getDirectChildrenShapes sampleDoc [0, 2, 0, 0] ∧
    getParentShape sampleDoc [0, 2, 0, 1, 0] = some [0, 2, 0, 0] ∧
    getParentShape sampleDoc [0, 0] = none :=
  ⟨(C2_parent_child_symmetry sampleDoc).1 [0, 2, 0, 1, 0] [0, 2, 0, 0] (by decide) (by decide),
   (C2_parent_child_symmetry sampleDoc).2.1 [0, 2, 0, 0] [0, 2, 0, 1, 0] (by decide),
   (C2_parent_child_symmetry sampleDoc).2.2 [0, 0] (by decide)⟩

/-- Witness for `C9_type_literal_schema_guard` at a concrete literal and a
concrete shape node. -/
theorem C9_type_literal_schema_guard_witness :
    (PenpotShapeType.getByTypeLiteral "rect").isOk = true ∧
    (mkPenpotShapeElement sampleDoc [0, 2, 0, 1, 0] none).isOk =
      (PenpotShapeType.getByTypeLiteral "rect").isOk :=
  ⟨(C9_type_literal_schema_guard.1 "rect").2 (by decide),
   C9_type_literal_schema_guard.2.2 sampleDoc [0, 2, 0, 1, 0] none "rect" (by rfl)⟩

/-- Witness for `C10_wrapper_identity`: two separately constructed wrappers
of the same node are interchangeable on the sample page. -/
theorem C10_wrapper_identity_witness :
    (getDirectChildrenShapes sampleDoc [0, 2, 0, 0]).contains
        (PenpotShapeElementW.mk [0, 2, 0, 1, 0] none []).lxml_element =
      (getDirectChildrenShapes sampleDoc [0, 2, 0, 0]).contains
        (PenpotShapeElementW.mk [0, 2, 0, 1, 0] (some "style") [[9]]).lxml_element ∧
    (getParentShape sampleDoc [0, 2, 0, 1, 0] ==
        some (PenpotShapeElementW.mk [0, 2, 0, 0] none []).lxml_element) =
      (getParentShape sampleDoc [0, 2, 0, 1, 0] ==
        some (PenpotShapeElementW.mk [0, 2, 0, 0] (some "style") [[9]]).lxml_element) :=
  ⟨(C10_wrapper_identity [0, 2, 0, 1, 0] none (some "style") [] [[9]]).2.2.2.1
      ⟨[0, 2, 0, 1, 0], none, []⟩ ⟨[0, 2, 0, 1, 0], some "style", [[9]]⟩ (by decide)
      sampleDoc [0, 2, 0, 0],
   (C10_wrapper_identity [0, 2, 0, 0] none (some "style") [] [[9]]).2.2.2.2
      ⟨[0, 2, 0, 0], none, []⟩ ⟨[0, 2, 0, 0], some "style", [[9]]⟩ (by decide)
      sampleDoc [0, 2, 0, 1, 0]⟩

/-! ## Visibility (`is_visible`, `check_for_visible_content`,
`_el_has_visible_content`) -/

/-- `PenpotShapeElement.is_visible`:
`self.get_containing_g_element().attrib.get("visibility") != "hidden"`. -/
def isVisibleAt (t : XElem) (p : Path) : Bool :=
  match get? t p.dropLast with
  | some g => !(g.getAttr "visibility" == some "hidden")
  | none => true

/-- Split a character list on every occurrence of a separator character. -/
def splitOnChar (sep : Char) : List Char → List Char → List (List Char)
  | [], cur => [cur.reverse]
  | c :: rest, cur =>
    if c = sep then cur.reverse :: splitOnChar sep rest []
    else splitOnChar sep rest (c :: cur)

/-- Strip leading and trailing spaces. -/
def trimSpaces (cs : List Char) : List Char :=
  ((cs.dropWhile (· = ' ')).reverse.dropWhile (· = ' ')).reverse

/-- Split a declaration at its first colon. -/
def breakOnColon : List Char → Option (List Char × List Char)
  | [] => none
  | c :: rest =>
    if c = ':' then some ([], rest)
    else (breakOnColon rest).map (fun pr => (c :: pr.1, pr.2))

/-- Parse an inline CSS style declaration list (`cssutils parseStyle` on
strings of the form `name: value; name: value`). -/
def parseStyleDecls (s : String) : List (String × String) :=
  (splitOnChar ';' s.data []).foldr
    (fun field acc =>
      match breakOnColon field with
      | some pr => (String.mk (trimSpaces pr.1), String.mk (trimSpaces pr.2)) :: acc
      | none => acc)
    []

/-- `style.getPropertyValue(name)`: the effective (last) declared value, or
the empty string. -/
def getPropertyValue (s name : String) : String :=
  match ((parseStyleDecls s).filter (fun kv => kv.1 == name)).getLast? with
  | some kv => kv.2
  | none => ""

/-- `_el_has_visible_content`: an element with no children is invisible; a
lone `<path>` child with zero opacity, or with no fill (attribute or style)
and no children, is invisible; anything else counts as visible. -/
def elHasVisibleContent (e : XElem) : Bool :=
  match e.children with
  | [] => false
  | [child] =>
    if child.tag == svgName "path" then
      let style := (child.getAttr "style").getD ""
      if getPropertyValue style "opacity" == "0" then false
      else if child.children.isEmpty &&
          (child.getAttr "fill" == some "none" || getPropertyValue style "fill" == "none") then
        false
      else true
    else true
  | _ :: _ :: _ => true

/-- `PenpotShapeElement.get_inner_g_elements`: the direct `<g>` children of
the containing group whose `id` does not start with `shape-`
(the xpath `default:g[not(starts-with(@id, "shape-"))]`). -/
def getInnerGElements (t : XElem) (p : Path) : List XElem :=
  match get? t p.dropLast with
  | some g => g.children.filter
      (fun c => c.tag == svgName "g" &&
        (match c.getAttr "id" with
         | some i => !(("shape-".data).isPrefixOf i.data)
         | none => true))
  | none => []

/-- `self.type == PenpotShapeType.GROUP` (the type was resolved at wrapper
construction; unresolvable types cannot reach this comparison). -/
def isGroupTypeAt (t : XElem) (p : Path) : Bool :=
  match typeAt t p with
  | .ok .group => true
  | _ => false

/-- `PenpotShapeElement.check_for_visible_content` with an explicit fuel:
a `group` shape is visible iff some direct child shape is; any other shape is
visible iff it has at least one inner content group with visible content.
The recursion of the source terminates because each direct child's containing
group is a strictly smaller subtree; `fuel` bounds that descent. -/
def checkForVisibleContentFuel : Nat → XElem → Path → Bool
  | 0, _, _ => false
  | fuel + 1, t, p =>
    if isGroupTypeAt t p then
      (getDirectChildrenShapes t p).any (fun c => checkForVisibleContentFuel fuel t c)
    else
      let innerGroups := getInnerGElements t p
      if innerGroups.isEmpty then false
      else innerGroups.any elHasVisibleContent

mutual

/-- Executable node count of a subtree (the termination measure of the
`check_for_visible_content` recursion). -/
def xSize : XElem → Nat
  | .node _ _ cs => 1 + xSizeList cs

def xSizeList : List XElem → Nat
  | [] => 0
  | c :: cs => xSize c + xSizeList cs

end

/-- The termination measure of `check_for_visible_content`: the size of the
containing group's subtree. -/
def cvMeasure (t : XElem) (p : Path) : Nat :=
  xSize ((get? t p.dropLast).getD (XElem.node "" [] []))

theorem one_le_xSize (e : XElem) : 1 ≤ xSize e := by
  cases e with
  | node t a cs => simp only [xSize]; omega

theorem one_le_cvMeasure (t : XElem) (p : Path) : 1 ≤ cvMeasure t p := by
  unfold cvMeasure
  cases get? t p.dropLast with
  | some g => exact one_le_xSize g
  | none => exact one_le_xSize _

theorem xSizeList_getElem : ∀ (cs : List XElem) (i : Nat) (c : XElem),
    cs[i]? = some c → xSize c ≤ xSizeList cs := by
  intro cs
  induction cs with
  | nil => intro i c h; simp at h
  | cons d cs ih =>
    intro i c h
    match i with
    | 0 =>
      simp only [List.getElem?_cons_zero, Option.some.injEq] at h
      subst h
      simp only [xSizeList]
      omega
    | i + 1 =>
      simp only [List.getElem?_cons_succ] at h
      have := ih i c h
      simp only [xSizeList]
      omega

theorem xSize_get?_lt : ∀ (q : Path) (t s : XElem), q ≠ [] → get? t q = some s →
    xSize s < xSize t := by
  intro q
  induction q with
  | nil => intro t s h; exact absurd rfl h
  | cons i q ih =>
    intro t s _ h
    match t with
    | .node tg a cs =>
      simp only [get?] at h
      cases hc : cs[i]? with
      | some c =>
        rw [hc] at h
        have hlt : xSize c < xSize (XElem.node tg a cs) := by
          have := xSizeList_getElem cs i c hc
          simp only [xSize]
          omega
        match q with
        | [] =>
          simp only [get?, Option.some.injEq] at h
          subst h
          exact hlt
        | j :: q' => exact lt_trans (ih c s (by simp) h) hlt
      | none => rw [hc] at h; simp at h

theorem get?_prefix_isSome {t : XElem} {a b : Path} (hab : a <+: b)
    (h : (get? t b).isSome = true) : (get? t a).isSome = true := by
  obtain ⟨r, rfl⟩ := hab
  rw [get?_append] at h
  cases hg : get? t a with
  | some s => simp
  | none => rw [hg] at h; simp at h

/-- The containing group of a direct child shape is a strictly smaller
subtree than the containing group of its parent shape. -/
theorem cvMeasure_child_lt {t : XElem} {p c : Path}
    (hc : c ∈ getDirectChildrenShapes t p) : cvMeasure t c < cvMeasure t p := by
  unfold getDirectChildrenShapes at hc
  rw [List.mem_filter] at hc
  obtain ⟨hall, hparb⟩ := hc
  have hpar : getParentShape t c = some p := eq_of_beq hparb
  unfold getAllChildrenShapes at hall
  cases hg : get? t p.dropLast with
  | none => rw [hg] at hall; simp at hall
  | some g =>
    rw [hg] at hall
    rw [List.mem_filter] at hall
    obtain ⟨hmap, _⟩ := hall
    obtain ⟨q, hq, rfl⟩ := List.mem_map.1 hmap
    -- the parent comes from a candidate ancestor of c
    obtain ⟨cand, hcand, hstep⟩ := findSome?_eq_some_exists _ _ _ hpar
    obtain ⟨hpre, hne⟩ := mem_parentCandidates_prefix hcand
    unfold nodeShapeChildPath at hstep
    cases hget : get? t cand with
    | none => rw [hget] at hstep; simp at hstep
    | some e =>
      rw [hget] at hstep
      by_cases hgr : elIsGroup e = true
      · simp only [hgr, if_true] at hstep
        cases hidx : e.children.findIdx? elIsPenpotShape with
        | none => rw [hidx] at hstep; simp at hstep
        | some i =>
        rw [hidx] at hstep
        simp at hstep
        set c := p.dropLast ++ q with hcdef
        -- p = cand ++ [i], so p.dropLast = cand
        have hpd : p.dropLast = cand := by rw [← hstep]; simp
        -- cand is a strict prefix of c.dropLast
        have hpre' : cand <+: c.dropLast :=
          hpre.trans (List.dropLast_prefix _)
        have hlcd : c.dropLast.length = c.length - 1 := List.length_dropLast _
        have hlcdd : c.dropLast.dropLast.length = c.dropLast.length - 1 :=
          List.length_dropLast _
        have hne1 : 1 ≤ c.dropLast.length := List.length_pos.2 hne
        have hlencand : cand.length ≤ c.dropLast.dropLast.length := hpre.length_le
        obtain ⟨q', hq'⟩ := hpre'
        have hq'ne : q' ≠ [] := by
          intro hq'nil
          rw [hq'nil, List.append_nil] at hq'
          have := congrArg List.length hq'
          omega
        -- validity of c, hence of c.dropLast
        have hvc : (get? t c).isSome = true := by
          rw [hcdef, get?_append, hg]
          show (get? g q).isSome = true
          have := (mem_findAllShapePaths g q).1 hq
          unfold isShapeAt at this
          cases hgq : get? g q with
          | some s => simp
          | none => rw [hgq] at this; simp at this
        have hvcd : (get? t c.dropLast).isSome = true :=
          get?_prefix_isSome (List.dropLast_prefix c) hvc
        cases hscd : get? t c.dropLast with
        | none => rw [hscd] at hvcd; simp at hvcd
        | some s' =>
          have hbind : get? t c.dropLast = get? e q' := by
            rw [← hq', get?_append, hget]
            rfl
          unfold cvMeasure
          rw [hscd, hpd, hget]
          simp only [Option.getD_some]
          exact xSize_get?_lt q' e s' hq'ne (by rw [← hbind, hscd])
      · simp [hgr] at hstep

theorem any_congr {α : Type} {l : List α} {f g : α → Bool}
    (h : ∀ a ∈ l, f a = g a) : l.any f = l.any g := by
  induction l with
  | nil => rfl
  | cons x l ih =>
    simp only [List.any_cons]
    rw [h x (by simp), ih (fun a ha => h a (by simp [ha]))]

/-- Fuel irrelevance for `check_for_visible_content`: any fuel at least the
containing subtree's size computes the same value. -/
theorem checkForVisibleContentFuel_congr : ∀ (f1 f2 : Nat) (t : XElem) (p : Path),
    cvMeasure t p ≤ f1 → cvMeasure t p ≤ f2 →
    checkForVisibleContentFuel f1 t p = checkForVisibleContentFuel f2 t p := by
  intro f1
  induction f1 using Nat.strong_induction_on with
  | _ f1 ih =>
    intro f2 t p h1 h2
    have hm := one_le_cvMeasure t p
    match f1, f2 with
    | 0, _ => omega
    | _, 0 => omega
    | a + 1, b + 1 =>
      simp only [checkForVisibleContentFuel]
      by_cases hgr : isGroupTypeAt t p = true
      · simp only [hgr, if_true]
        apply any_congr
        intro c hcmem
        have hlt := cvMeasure_child_lt hcmem
        exact ih a (by omega) b t c (by omega) (by omega)
      · simp [hgr]

/-- `PenpotShapeElement.check_for_visible_content` (canonical fuel). -/
def checkForVisibleContent (t : XElem) (p : Path) : Bool :=
  checkForVisibleContentFuel (cvMeasure t p) t p

/-- The defining equation of `check_for_visible_content`. -/
theorem checkForVisibleContent_eq (t : XElem) (p : Path) :
    checkForVisibleContent t p =
      if isGroupTypeAt t p then
        (getDirectChildrenShapes t p).any (fun c => checkForVisibleContent t c)
      else
        if (getInnerGElements t p).isEmpty then false
        else (getInnerGElements t p).any elHasVisibleContent := by
  unfold checkForVisibleContent
  have hm := one_le_cvMeasure t p
  obtain ⟨m, hmeq⟩ : ∃ m, cvMeasure t p = m + 1 :=
    ⟨cvMeasure t p - 1, by omega⟩
  rw [hmeq]
  simp only [checkForVisibleContentFuel]
  by_cases hgr : isGroupTypeAt t p = true
  · simp only [hgr, if_true]
    apply any_congr
    intro c hcmem
    have hlt := cvMeasure_child_lt hcmem
    exact checkForVisibleContentFuel_congr m (cvMeasure t c) t c (by omega) (le_refl _)
  · simp [hgr]

/-- Claim C6, counterexample: the invisible path shape of the sample page
(`PathD`: a lone `<path fill="none">` with no children) has
`has_visible_content() = false`, yet `is_visible()` returns `true` because
its containing group carries no hidden marker — `is_visible()` is *not*
determined by the `has_visible_content()` heuristic. -/
theorem C6_counterexample :
    isVisibleAt sampleDoc [0, 2, 0, 2, 0] = true ∧
    checkForVisibleContent sampleDoc [0, 2, 0, 2, 0] = false :=
  ⟨by decide, by decide⟩

/-- Claim C6 as amended: `is_visible()` is exactly the explicit hidden-marker
test on the containing group (`visibility="hidden"`), and never consults
`has_visible_content()`; the latter is a separate heuristic under which a
`group` shape is visible iff some direct child shape has visible content, and
any other shape is visible iff it has at least one inner content group with
visible content (a content group being invisible when empty, or when its
content is a lone path with zero opacity or with no fill and no children —
the `elHasVisibleContent` test). -/
theorem C6_visibility (t : XElem) (p : Path) (g : XElem)
    (h : get? t p.dropLast = some g) :
    (isVisibleAt t p = !(g.getAttr "visibility" == some "hidden")) ∧
    (isGroupTypeAt t p = true →
        checkForVisibleContent t p =
          (getDirectChildrenShapes t p).any (fun c => checkForVisibleContent t c)) ∧
    (isGroupTypeAt t p = false →
        checkForVisibleContent t p =
          (!(getInnerGElements t p).isEmpty &&
            (getInnerGElements t p).any elHasVisibleContent)) := by
  refine ⟨?_, ?_, ?_⟩
  · unfold isVisibleAt
    rw [h]
  · intro hgr
    rw [checkForVisibleContent_eq]
    simp [hgr]
  · intro hgr
    rw [checkForVisibleContent_eq]
    rw [hgr]
    simp only [Bool.false_eq_true, if_false]
    cases hie : (getInnerGElements t p).isEmpty <;> simp [hie]

/-- The containing group of shape `GroupB` in the sample page. -/
def shapeGroupBContainer : XElem :=
  .node (svgName "g") [("id", "shape-groupB")] [
    .node (penpotName "shape")
      [(penpotName "name", "GroupB"), (penpotName "type", "group")] [],
    .node (svgName "g") [("id", "shape-rectC")] [
      .node (penpotName "shape")
        [(penpotName "name", "RectC"), (penpotName "type", "rect")] [],
      .node (svgName "g") [] [
        .node (svgName "rect")
          [("x", "0"), ("y", "0"), ("width", "10"), ("height", "10")] []]],
    .node (svgName "g") [("id", "shape-pathD")] [
      .node (penpotName "shape")
        [(penpotName "name", "PathD"), (penpotName "type", "path")] [],
      .node (svgName "g") [] [
        .node (svgName "path") [("fill", "none")] []]]]

/-- Witness for `C6_visibility` on the sample page: the group shape `GroupB`
and the primitive shape `RectC`. -/
theorem C6_visibility_witness :
    (isVisibleAt sampleDoc [0, 2, 0, 0] =
      !(shapeGroupBContainer.getAttr "visibility" == some "hidden")) ∧
    (checkForVisibleContent sampleDoc [0, 2, 0, 0] =
      (getDirectChildrenShapes sampleDoc [0, 2, 0, 0]).any
        (fun c => checkForVisibleContent sampleDoc c)) ∧
    (checkForVisibleContent sampleDoc [0, 2, 0, 1, 0] =
      (!(getInnerGElements sampleDoc [0, 2, 0, 1, 0]).isEmpty &&
        (getInnerGElements sampleDoc [0, 2, 0, 1, 0]).any elHasVisibleContent)) :=
  ⟨(C6_visibility sampleDoc [0, 2, 0, 0] shapeGroupBContainer (by rfl)).1,
   (C6_visibility sampleDoc [0, 2, 0, 0] shapeGroupBContainer (by rfl)).2.1 (by decide),
   (C6_visibility sampleDoc [0, 2, 0, 1, 0]
      (XElem.node (svgName "g") [("id", "shape-rectC")] [
        XElem.node (penpotName "shape")
          [(penpotName "name", "RectC"), (penpotName "type", "rect")] [],
        XElem.node (svgName "g") [] [
          XElem.node (svgName "rect")
            [("x", "0"), ("y", "0"), ("width", "10"), ("height", "10")] []]])
      (by rfl)).2.2 (by decide)⟩

/-! ## Page lookups (`_get_shapes_by_attr`, `get_shape_by_name`,
`get_shape_by_id`) and mutation (`remove_shape`) -/

/-- `PenpotShapeElement.name` (`get_penpot_attr(PenpotShapeAttr.NAME)`). -/
def nameAt (t : XElem) (p : Path) : Option String :=
  getPenpotAttr t p "name"

/-- The list comprehension of `_get_shapes_by_attr`: the shapes of the page
whose attribute equals the requested value, in document order. -/
def getShapesByAttrVal (t : XElem) (attrOf : XElem → Path → Option String)
    (v : Option String) : List Path :=
  (findAllShapePaths t).filter (fun p => attrOf t p == v)

/-- `_get_shapes_by_attr` with `should_be_unique=True`: zero matches raise
`KeyError`, more than one raise `RuntimeError`, exactly one is returned. -/
def getShapeByAttrUnique (t : XElem) (attrOf : XElem → Path → Option String)
    (v : Option String) : Except PyErr Path :=
  match getShapesByAttrVal t attrOf v with
  | [] => .error (.keyError "No shape with attribute found")
  | [p] => .ok p
  | _ :: _ :: _ => .error (.runtimeError
      "Multiple shapes with attribute found. This should not happen and could be caused by an implementation error or by a malformed SVG file.")

/-- `PenpotPageSVG.get_shape_by_name`: unique lookup when `require_unique`,
otherwise `result[0]` of the plain match list (an `IndexError` when the list
is empty). -/
def getShapeByName (t : XElem) (nm : String) (requireUnique : Bool) : Except PyErr Path :=
  if requireUnique then getShapeByAttrUnique t nameAt (some nm)
  else
    match getShapesByAttrVal t nameAt (some nm) with
    | [] => .error (.indexError "list index out of range")
    | p :: _ => .ok p

/-- `PenpotPageSVG.get_shape_by_id`: always-unique lookup on the containing
group's id. -/
def getShapeById (t : XElem) (shapeId : String) : Except PyErr Path :=
  getShapeByAttrUnique t shapeIdAt (some shapeId)

/-- A page with two distinct shapes both named `Icon`. -/
def iconDoc : XElem :=
  .node (svgName "svg") [] [
    .node (svgName "g") [("id", "shape-icon1")] [
      .node (penpotName "shape")
        [(penpotName "name", "Icon"), (penpotName "type", "rect")] []],
    .node (svgName "g") [("id", "shape-icon2")] [
      .node (penpotName "shape")
        [(penpotName "name", "Icon"), (penpotName "type", "rect")] []]]

/-- Claim C8, counterexample: with `require_unique=False` and zero matching
shapes, `get_shape_by_name` does not report the designed not-found condition
(`KeyError`, raised only in the unique mode): it crashes with an `IndexError`
from `result[0]` on the empty match list. -/
theorem C8_counterexample :
    getShapeByName sampleDoc "Nope" false = .error (.indexError "list index out of range") ∧
    getShapeByName sampleDoc "Nope" true = .error (.keyError "No shape with attribute found") :=
  ⟨rfl, rfl⟩

/-- Claim C8 as amended: with zero matching shapes, `get_shape_by_name`
reports the not-found `KeyError` when `require_unique` is true, but fails
with a generic `IndexError` when `require_unique` is false; with more than
one match it raises the ambiguity `RuntimeError` when `require_unique` is
true, and returns the first matching shape in document order when
`require_unique` is false. -/
theorem C8_shape_by_name (t : XElem) (nm : String) :
    (getShapesByAttrVal t nameAt (some nm) = [] →
        getShapeByName t nm true = .error (.keyError "No shape with attribute found") ∧
        getShapeByName t nm false = .error (.indexError "list index out of range")) ∧
    (∀ p1 p2 rest, getShapesByAttrVal t nameAt (some nm) = p1 :: p2 :: rest →
        getShapeByName t nm true = .error (.runtimeError
          "Multiple shapes with attribute found. This should not happen and could be caused by an implementation error or by a malformed SVG file.")) ∧
    (∀ p rest, getShapesByAttrVal t nameAt (some nm) = p :: rest →
        getShapeByName t nm false = .ok p) := by
  refine ⟨?_, ?_, ?_⟩
  · intro h
    unfold getShapeByName getShapeByAttrUnique
    rw [h]
    exact ⟨rfl, rfl⟩
  · intro p1 p2 rest h
    unfold getShapeByName getShapeByAttrUnique
    rw [h]
    rfl
  · intro p rest h
    unfold getShapeByName
    rw [h]
    rfl

/-- Witness for `C8_shape_by_name`: the two-`Icon` scenario and a missing
name on the sample page. -/
theorem C8_shape_by_name_witness :
    (getShapeByName sampleDoc "Nope" true = .error (.keyError "No shape with attribute found") ∧
     getShapeByName sampleDoc "Nope" false = .error (.indexError "list index out of range")) ∧
    getShapeByName iconDoc "Icon" true = .error (.runtimeError
      "Multiple shapes with attribute found. This should not happen and could be caused by an implementation error or by a malformed SVG file.") ∧
    getShapeByName iconDoc "Icon" false = .ok [0, 0] :=
  ⟨(C8_shape_by_name sampleDoc "Nope").1 (by rfl),
   (C8_shape_by_name iconDoc "Icon").2.1 [0, 0] [1, 0] [] (by rfl),
   (C8_shape_by_name iconDoc "Icon").2.2 [0, 0] [[1, 0]] (by rfl)⟩

/-- `PenpotPageSVG._remove_shape_from_tree`: locate the shape by id (unique),
then detach its containing group from the group's parent. -/
def removeShapeFromTree (t : XElem) (sid : Option String) : Except PyErr XElem :=
  match getShapeByAttrUnique t shapeIdAt sid with
  | .error e => .error e
  | .ok p =>
    if p.dropLast = [] then
      .error (.attributeError "NoneType object has no attribute remove")
    else .ok (removeAt t p.dropLast)

/-- The defensive post-condition of `PenpotPageSVG.remove_shape` after the
index rebuild: a still-resolvable removed id is a fatal
internal-consistency `AssertionError`; only `KeyError` means success. -/
def removePostCheck (t' : XElem) (shapeId : String) : Except PyErr XElem :=
  match getShapeById t' shapeId with
  | .error (.keyError _) => .ok t'
  | .ok _ => .error (.assertionError
      ("Shape with id " ++ shapeId ++ " was not removed correctly."))
  | .error e => .error e

/-- `PenpotPageSVG.remove_shape`: remove, rebuild the index (implicit in this
model: all page state is recomputed from the tree), then run the defensive
post-condition. -/
def removeShape (t : XElem) (shapeId : String) : Except PyErr XElem :=
  match removeShapeFromTree t (some shapeId) with
  | .error e => .error e
  | .ok t' => removePostCheck t' shapeId

/-- Whether a lookup result is the not-found `KeyError`. -/
def isKeyError : Except PyErr Path → Bool
  | .error (.keyError _) => true
  | _ => false

theorem length_filter_ne {x : Path} {l : List Path} (hn : l.Nodup) (hm : x ∈ l) :
    (l.filter (fun c => !(c == x))).length + 1 = l.length := by
  have h1 : l.filter (fun c => !(c == x)) = l.erase x := by
    rw [hn.erase_eq_filter]
    apply List.filter_congr
    intro a _
    simp [bne]
  rw [h1]
  have h2 := List.length_erase_of_mem hm
  have h3 : 0 < l.length := List.length_pos_of_mem hm
  omega

/-- Claim C3: after a successful `remove_shape(id)`, looking the id up again
raises the not-found `KeyError`; the shape count decreased by exactly
`1 + len(descendants of the removed shape)`; and on any rebuilt state in
which the id still resolves, the post-condition aborts with the fatal
`AssertionError` instead of returning. -/
theorem C3_remove_shape (t : XElem) (sid : String) :
    (∀ t', removeShape t sid = .ok t' → isKeyError (getShapeById t' sid) = true) ∧
    (∀ t' p, removeShape t sid = .ok t' → getShapeById t sid = .ok p →
        (findAllShapePaths t').length + 1 + (getAllChildrenShapes t p).length =
          (findAllShapePaths t).length) ∧
    (∀ (u : XElem) (p : Path), getShapeById u sid = .ok p →
        removePostCheck u sid = .error (.assertionError
          ("Shape with id " ++ sid ++ " was not removed correctly."))) := by
  refine ⟨?_, ?_, ?_⟩
  · intro t' hok
    unfold removeShape at hok
    revert hok
    cases hrm : removeShapeFromTree t (some sid) with
    | error e => intro hok; exact absurd hok (by simp)
    | ok t0 =>
      intro hok
      dsimp only at hok
      unfold removePostCheck at hok
      revert hok
      cases hid : getShapeById t0 sid with
      | ok q => intro hok; exact absurd hok (by simp)
      | error e =>
        intro hok
        cases e with
        | keyError m =>
          simp only [Except.ok.injEq] at hok
          subst hok
          simp [isKeyError, hid]
        | valueError m => exact absurd hok (by simp)
        | runtimeError m => exact absurd hok (by simp)
        | assertionError m => exact absurd hok (by simp)
        | attributeError m => exact absurd hok (by simp)
        | indexError m => exact absurd hok (by simp)
  · intro t' p hok hfound
    unfold removeShape at hok
    revert hok
    cases hrm : removeShapeFromTree t (some sid) with
    | error e => intro hok; exact absurd hok (by simp)
    | ok t0 =>
      intro hok
      dsimp only at hok
      -- the post-check either returns t0 unchanged or fails
      have ht0 : t0 = t' := by
        unfold removePostCheck at hok
        revert hok
        cases hid : getShapeById t0 sid with
        | ok q => intro hok; exact absurd hok (by simp)
        | error e =>
          intro hok
          cases e <;> simp_all
      subst ht0
      -- unfold the removal itself
      unfold removeShapeFromTree at hrm
      unfold getShapeById at hfound
      rw [hfound] at hrm
      dsimp only at hrm
      by_cases hde : p.dropLast = []
      · rw [if_pos hde] at hrm
        exact absurd hrm (by simp)
      · rw [if_neg hde] at hrm
        simp only [Except.ok.injEq] at hrm
        subst hrm
        -- p is a shape of the page
        have hpmem : p ∈ findAllShapePaths t := by
          unfold getShapeByAttrUnique at hfound
          revert hfound
          cases hms : getShapesByAttrVal t shapeIdAt (some sid) with
          | nil => intro hfound; exact absurd hfound (by simp)
          | cons a rest =>
            cases rest with
            | nil =>
              intro hfound
              simp only [Except.ok.injEq] at hfound
              have hmem0 : a ∈ getShapesByAttrVal t shapeIdAt (some sid) := by
                rw [hms]; simp
              rw [← hfound]
              unfold getShapesByAttrVal at hmem0
              exact (List.mem_filter.1 hmem0).1
            | cons b rest' => intro hfound; exact absurd hfound (by simp)
        have hshape : isShapeAt t p = true := (mem_findAllShapePaths t p).1 hpmem
        have hpne : p ≠ [] := by
          intro hnil
          rw [hnil] at hde
          exact hde rfl
        -- the containing group subtree
        have hvalid : (get? t p).isSome = true := by
          unfold isShapeAt at hshape
          cases hgp : get? t p with
          | some e => simp
          | none => rw [hgp] at hshape; simp at hshape
        have hvg : (get? t p.dropLast).isSome = true :=
          get?_prefix_isSome (List.dropLast_prefix p) hvalid
        cases hg : get? t p.dropLast with
        | none => rw [hg] at hvg; simp at hvg
        | some g =>
          have hcount := length_shapePaths_removeAt p.dropLast t g hde hg
          -- descendants + self = shapes of the containing-group subtree
          have hchildren :
              (getAllChildrenShapes t p).length + 1 = (findAllShapePaths g).length := by
            unfold getAllChildrenShapes
            rw [hg]
            have hmapnd : ((findAllShapePaths g).map (fun q => p.dropLast ++ q)).Nodup := by
              refine (nodup_findAllShapePaths g).map ?_
              intro a b hab
              exact List.append_cancel_left hab
            have hpm : p ∈ (findAllShapePaths g).map (fun q => p.dropLast ++ q) := by
              rw [List.mem_map]
              refine ⟨[p.getLast hpne], ?_, List.dropLast_append_getLast hpne⟩
              rw [mem_findAllShapePaths]
              unfold isShapeAt at hshape ⊢
              have : get? t p = get? g [p.getLast hpne] := by
                conv_lhs => rw [← List.dropLast_append_getLast hpne]
                rw [get?_append, hg]
                rfl
              rw [← this]
              exact hshape
            have := length_filter_ne hmapnd hpm
            simp only [List.length_map] at this ⊢
            omega
          omega
  · intro u p hid
    unfold removePostCheck
    rw [hid]

/-- The sample page with shape `PathD` removed. -/
def sampleDocNoPathD : XElem := removeAt sampleDoc [0, 2, 0, 2]

/-- Witness for `C3_remove_shape`: removing `PathD` from the sample page. -/
theorem C3_remove_shape_witness :
    isKeyError (getShapeById sampleDocNoPathD "shape-pathD") = true ∧
    (findAllShapePaths sampleDocNoPathD).length + 1 +
        (getAllChildrenShapes sampleDoc [0, 2, 0, 2, 0]).length =
      (findAllShapePaths sampleDoc).length ∧
    removePostCheck sampleDoc "shape-groupB" = .error (.assertionError
      "Shape with id shape-groupB was not removed correctly.") :=
  ⟨(C3_remove_shape sampleDoc "shape-pathD").1 sampleDocNoPathD (by rfl),
   (C3_remove_shape sampleDoc "shape-pathD").2.1 sampleDocNoPathD [0, 2, 0, 2, 0]
      (by rfl) (by rfl),
   (C3_remove_shape sampleDoc "shape-groupB").2.2 sampleDoc [0, 2, 0, 0] (by rfl)⟩

/-! ## Minimal-form extraction (`PenpotMinimalShapeXML`, models.py) -/

/-- `PenpotMinimalShapeXML._is_penpot_element`: the tag starts with the
Penpot namespace. -/
def isPenpotNsElement (e : XElem) : Bool :=
  (("\x7b" ++ penpotNamespaceURI ++ "\x7d").data).isPrefixOf e.tag.data

/-- `PenpotMinimalShapeXML._has_penpot_child`. -/
def hasPenpotChild (e : XElem) : Bool :=
  e.children.any isPenpotNsElement

/-- `PenpotMinimalShapeXML._find_g_sibling`, as the `while` loop over the
following siblings: the first following sibling with tag `<svg:g>`, or
`none`. -/
def findGSibling : List XElem → Option XElem
  | [] => none
  | s :: rest => if s.tag == svgName "g" then some s else findGSibling rest

/-- The index (within the sibling list) of the first `<svg:g>` sibling after
position `i`. -/
def firstGAfter (cs : List XElem) (i : Nat) : Option Nat :=
  ((cs.drop (i + 1)).findIdx? (fun c => c.tag == svgName "g")).map (fun k => i + 1 + k)

/-- Whether the child at index `j` is marked as retained by the retention
rule of `_remove_unwanted_elements`: some earlier `<penpot:shape>` sibling
finds it as its first following `<svg:g>` sibling, the `<g>`'s subsequent
sibling is not a penpot element, and the `<g>` has no penpot child. -/
def isRetainedIdx (cs : List XElem) (j : Nat) : Bool :=
  (List.range j).any (fun i =>
    match cs[i]? with
    | some sh =>
      sh.tag == penpotName "shape" &&
      (firstGAfter cs i == some j) &&
      (match cs[j + 1]? with
       | some nxt => !isPenpotNsElement nxt
       | none => true) &&
      !(hasPenpotChild ((cs[j]?).getD (.node "" [] [])))
    | none => false)

/-- Per-child retention flags for a sibling list. -/
def retainedFlags (cs : List XElem) : List Bool :=
  (List.range cs.length).map (fun j => isRetainedIdx cs j)

mutual

/-- The removal phase of `PenpotMinimalShapeXML._remove_unwanted_elements`:
keep penpot elements and `<g>` elements with a penpot child, keep retained
`<g>` siblings (and their whole subtree) verbatim, drop everything else.
This is the local statement of the source's mark-and-sweep: an element is in
the final tree iff itself and all its ancestors are kept. -/
def removeUnwantedElements : XElem → XElem
  | .node t a cs => .node t a (processFlagged (retainedFlags cs) cs)

def processFlagged : List Bool → List XElem → List XElem
  | _, [] => []
  | [], c :: rest =>
    if isPenpotNsElement c || (c.tag == svgName "g" && hasPenpotChild c) then
      removeUnwantedElements c :: processFlagged [] rest
    else processFlagged [] rest
  | b :: bs, c :: rest =>
    if b then c :: processFlagged bs rest
    else if isPenpotNsElement c || (c.tag == svgName "g" && hasPenpotChild c) then
      removeUnwantedElements c :: processFlagged bs rest
    else processFlagged bs rest

end

/-- `DEFAULT_PENPOT_ATTRIBUTES`, with unqualified names. -/
def defaultPenpotAttributes : List (String × String) :=
  [("transform", "matrix(1.000000, 0.000000, 0.000000, 1.000000, 0.000000, 0.000000)"),
   ("transform-inverse", "matrix(1.000000, 0.000000, 0.000000, 1.000000, 0.000000, 0.000000)"),
   ("proportion", "1"),
   ("proportion-lock", "false"),
   ("rotation", "0"),
   ("constraints-h", "scale"),
   ("constraints-v", "scale")]

/-- Delete every default-valued penpot attribute from an attribute list. -/
def stripDefaultAttrPairs (a : List (String × String)) : List (String × String) :=
  a.filter (fun kv =>
    !(defaultPenpotAttributes.any (fun dv => kv.1 == penpotName dv.1 && kv.2 == dv.2)))

mutual

/-- The attribute-stripping phase of `_remove_unwanted_elements`. -/
def stripDefaults : XElem → XElem
  | .node t a cs => .node t (stripDefaultAttrPairs a) (stripDefaultsList cs)

def stripDefaultsList : List XElem → List XElem
  | [] => []
  | c :: cs => stripDefaults c :: stripDefaultsList cs

end

/-- `PenpotMinimalShapeXML._remove_unwanted_elements` on (a deep copy of)
the shape's containing-group subtree: prune, then strip default attributes. -/
def minimalShapeRemoveUnwanted (tree : XElem) : XElem :=
  stripDefaults (removeUnwantedElements tree)

/-- A shape subtree whose metadata node's *immediate* next sibling is not the
rendering group: a `<desc>` element sits between the `<penpot:shape>` marker
and the `<g>` rendering sibling. -/
def c7Doc : XElem :=
  .node (svgName "g") [("id", "shape-pathX")] [
    .node (penpotName "shape")
      [(penpotName "type", "path"), (penpotName "name", "X")] [],
    .node (svgName "desc") [] [],
    .node (svgName "g") [] [
      .node (svgName "path") [("d", "M0 0")] []]]

/-- Claim C7, counterexample: with the expected rendering sibling *not* the
immediate next node after the shape-marker, extraction does not raise any
error — it completes and silently produces an extraction (the rendering
group is still found, by scanning past the intervening `<desc>`, and
retained). -/
theorem C7_counterexample :
    minimalShapeRemoveUnwanted c7Doc =
      .node (svgName "g") [("id", "shape-pathX")] [
        .node (penpotName "shape")
          [(penpotName "type", "path"), (penpotName "name", "X")] [],
        .node (svgName "g") [] [
          .node (svgName "path") [("d", "M0 0")] []]] ∧
    findGSibling [XElem.node (svgName "desc") [] [],
        XElem.node (svgName "g") [] [XElem.node (svgName "path") [("d", "M0 0")] []]] =
      some (XElem.node (svgName "g") [] [XElem.node (svgName "path") [("d", "M0 0")] []]) :=
  ⟨rfl, rfl⟩

/-- Claim C7 as amended: an unexpected sibling arrangement is not an error.
The search for the rendering sibling scans *all* following siblings and
returns the first `<svg:g>`, or `none`; and a `<penpot:shape>` marker is
always kept, extraction continuing over the remaining siblings regardless of
the arrangement. -/
theorem C7_sibling_arrangement :
    (∀ sibs : List XElem, findGSibling sibs = sibs.find? (fun s => s.tag == svgName "g")) ∧
    (∀ (b : Bool) (bs : List Bool) (c : XElem) (rest : List XElem),
        isPenpotNsElement c = true →
        processFlagged (b :: bs) (c :: rest) =
          (if b then c else removeUnwantedElements c) :: processFlagged bs rest) := by
  constructor
  · intro sibs
    induction sibs with
    | nil => rfl
    | cons s rest ih =>
      simp only [findGSibling, List.find?_cons]
      by_cases hs : (s.tag == svgName "g") = true
      · simp [hs]
      · simp only [Bool.not_eq_true] at hs
        rw [hs]
        simpa using ih
  · intro b bs c rest hc
    cases b with
    | true => simp [processFlagged]
    | false => simp [processFlagged, hc]

/-- Witness for `C7_sibling_arrangement` at a concrete sibling list. -/
theorem C7_sibling_arrangement_witness :
    processFlagged [false, false]
        [XElem.node (penpotName "shape") [(penpotName "type", "path")] [],
         XElem.node (svgName "desc") [] []] =
      (if false then XElem.node (penpotName "shape") [(penpotName "type", "path")] []
       else removeUnwantedElements (XElem.node (penpotName "shape") [(penpotName "type", "path")] [])) ::
        processFlagged [false] [XElem.node (svgName "desc") [] []] :=
  C7_sibling_arrangement.2 false [false]
    (XElem.node (penpotName "shape") [(penpotName "type", "path")] [])
    [XElem.node (svgName "desc") [] []] (by decide)

/-! ## Batched bounds resolution is re-run, not cache-served (claim C5)

The key observation: the batched resolver reads only data that is invariant
under writing `viewBox` attributes onto `<penpot:shape>` nodes.  We make
this precise through an erasure function that removes those attributes. -/

/-- Delete an attribute key (`del element.attrib[k]`). -/
def removeAttrKey (a : List (String × String)) (k : String) : List (String × String) :=
  a.filter (fun kv => !(kv.1 == k))

mutual

/-- Erase the `viewBox` attribute from every `<penpot:shape>` node. -/
def stripViewBoxes : XElem → XElem
  | .node t a cs =>
    .node t (if t == penpotName "shape" then removeAttrKey a "viewBox" else a)
      (stripViewBoxesList cs)

def stripViewBoxesList : List XElem → List XElem
  | [] => []
  | c :: cs => stripViewBoxes c :: stripViewBoxesList cs

end

theorem stripViewBoxesList_eq_map (cs : List XElem) :
    stripViewBoxesList cs = cs.map stripViewBoxes := by
  induction cs with
  | nil => rfl
  | cons c cs ih => simp [stripViewBoxesList, ih]

theorem stripViewBoxes_tag (e : XElem) : (stripViewBoxes e).tag = e.tag := by
  cases e with
  | node t a cs => rfl

theorem stripViewBoxes_children (e : XElem) :
    (stripViewBoxes e).children = e.children.map stripViewBoxes := by
  cases e with
  | node t a cs => simp [stripViewBoxes, XElem.children, stripViewBoxesList_eq_map]

theorem getAttr_removeAttrKey (a : List (String × String)) (k k' : String)
    (h : k' ≠ k) :
    ((a.filter (fun kv => !(kv.1 == k))).find? (fun kv => kv.1 == k')).map Prod.snd =
      (a.find? (fun kv => kv.1 == k')).map Prod.snd := by
  induction a with
  | nil => rfl
  | cons kv a ih =>
    by_cases hk : (kv.1 == k) = true
    · have hk' : (kv.1 == k') = false := by
        have : kv.1 = k := eq_of_beq hk
        subst this
        simp only [beq_eq_false_iff_ne, ne_eq]
        intro hc
        exact h hc.symm
      rw [List.filter_cons_of_neg (by simp [hk])]
      rw [List.find?_cons_of_neg]
      · exact ih
      · simp [hk']
    · rw [List.filter_cons_of_pos (by simp [hk])]
      by_cases hk' : (kv.1 == k') = true
      · rw [List.find?_cons_of_pos, List.find?_cons_of_pos]
        · exact hk'
        · exact hk'
      · rw [List.find?_cons_of_neg _ (by simpa using hk'),
          List.find?_cons_of_neg _ (by simpa using hk')]
        exact ih

theorem stripViewBoxes_getAttr (e : XElem) (k : String) (h : k ≠ "viewBox") :
    (stripViewBoxes e).getAttr k = e.getAttr k := by
  cases e with
  | node t a cs =>
    unfold stripViewBoxes XElem.getAttr
    by_cases ht : (t == penpotName "shape") = true
    · simp only [ht, if_true, XElem.attrs]
      exact getAttr_removeAttrKey a "viewBox" k h
    · simp only [ht, Bool.false_eq_true, if_false]
      rfl

theorem get?_stripViewBoxes (p : Path) : ∀ (t : XElem),
    get? (stripViewBoxes t) p = (get? t p).map stripViewBoxes := by
  induction p with
  | nil => intro t; cases t with | node tg a cs => rfl
  | cons i p ih =>
    intro t
    cases t with
    | node tg a cs =>
      show get? (XElem.node tg _ (stripViewBoxesList cs)) (i :: p) = _
      simp only [get?, stripViewBoxesList_eq_map]
      rw [List.getElem?_map]
      cases hc : cs[i]? with
      | some c => simp only [Option.map_some]; exact ih c
      | none => simp

theorem isShapeAt_stripViewBoxes (t : XElem) (p : Path) :
    isShapeAt (stripViewBoxes t) p = isShapeAt t p := by
  unfold isShapeAt
  rw [get?_stripViewBoxes]
  cases get? t p with
  | some e => simp [elIsPenpotShape, stripViewBoxes_tag]
  | none => rfl

mutual

theorem findAllShapePaths_stripViewBoxes (t : XElem) :
    findAllShapePaths (stripViewBoxes t) = findAllShapePaths t := by
  cases t with
  | node tg a cs =>
    show findAllShapePaths (XElem.node tg _ (stripViewBoxesList cs)) = _
    simp only [findAllShapePaths]
    rw [shapePathsList_stripViewBoxes 0 cs]

theorem shapePathsList_stripViewBoxes (k : Nat) (cs : List XElem) :
    shapePathsList k (stripViewBoxesList cs) = shapePathsList k cs := by
  cases cs with
  | nil => rfl
  | cons c cs =>
    simp only [stripViewBoxesList, shapePathsList]
    rw [findAllShapePaths_stripViewBoxes c, shapePathsList_stripViewBoxes (k + 1) cs]

end

theorem typeAt_stripViewBoxes (t : XElem) (p : Path) :
    typeAt (stripViewBoxes t) p = typeAt t p := by
  unfold typeAt getPenpotAttr
  rw [get?_stripViewBoxes]
  cases get? t p with
  | none => rfl
  | some e =>
    show (match (stripViewBoxes e).getAttr (penpotName "type") with
      | none => Except.error (PyErr.keyError (penpotName "type"))
      | some s => PenpotShapeType.getByTypeLiteral s) = _
    rw [stripViewBoxes_getAttr e (penpotName "type") (by decide)]
    rfl

theorem shapeIdAt_stripViewBoxes (t : XElem) (p : Path) :
    shapeIdAt (stripViewBoxes t) p = shapeIdAt t p := by
  unfold shapeIdAt
  by_cases hp : p = []
  · simp [hp]
  · simp only [hp, if_false]
    rw [get?_stripViewBoxes]
    cases get? t p.dropLast with
    | none => rfl
    | some g =>
      show (stripViewBoxes g).getAttr "id" = g.getAttr "id"
      exact stripViewBoxes_getAttr g "id" (by decide)

theorem find?_map_comm (l : List XElem) (f : XElem → XElem) (pr : XElem → Bool)
    (h : ∀ a, pr (f a) = pr a) : (l.map f).find? pr = (l.find? pr).map f := by
  induction l with
  | nil => rfl
  | cons c l ih =>
    simp only [List.map_cons, List.find?_cons]
    rw [h c]
    cases pr c <;> simp [ih]

theorem filter_map_comm (l : List XElem) (f : XElem → XElem) (pr : XElem → Bool)
    (h : ∀ a, pr (f a) = pr a) : (l.map f).filter pr = (l.filter pr).map f := by
  induction l with
  | nil => rfl
  | cons c l ih =>
    simp only [List.map_cons, List.filter_cons]
    rw [h c]
    cases pr c <;> simp [ih]

theorem findChildByTag_stripViewBoxes (e : XElem) (tg : String) :
    findChildByTag (stripViewBoxes e) tg = (findChildByTag e tg).map stripViewBoxes := by
  unfold findChildByTag
  rw [stripViewBoxes_children]
  exact find?_map_comm _ _ _ (fun a => by rw [stripViewBoxes_tag])

theorem findClipEl_stripViewBoxes (defs : XElem) (clipId tg : String) :
    findClipEl (stripViewBoxes defs) clipId tg =
      (findClipEl defs clipId tg).map stripViewBoxes := by
  unfold findClipEl
  rw [stripViewBoxes_children]
  rw [filter_map_comm _ _ _ (fun a => by
    rw [stripViewBoxes_tag, stripViewBoxes_getAttr a "id" (by decide)])]
  rw [List.map_map]
  have hcomp :
      ((fun c : XElem => c.children.filter (fun ch => ch.tag == svgName tg)) ∘ stripViewBoxes)
        = (List.map stripViewBoxes ∘
            (fun c : XElem => c.children.filter (fun ch => ch.tag == svgName tg))) := by
    funext c
    show (stripViewBoxes c).children.filter _ = _
    rw [stripViewBoxes_children]
    exact filter_map_comm _ _ _ (fun a => by rw [stripViewBoxes_tag])
  rw [hcomp]
  rw [← List.map_map]
  rw [← List.map_flatten]
  rw [List.head?_map]

theorem clipElToBBox_stripViewBoxes (e : XElem) :
    clipElToBBox (stripViewBoxes e) = clipElToBBox e := by
  unfold clipElToBBox BoundingBox.fromClipRect
  rw [stripViewBoxes_getAttr e "x" (by decide), stripViewBoxes_getAttr e "y" (by decide),
    stripViewBoxes_getAttr e "width" (by decide),
    stripViewBoxes_getAttr e "height" (by decide)]

theorem getClipRect_stripViewBoxes (t : XElem) (p : Path) :
    getClipRect (stripViewBoxes t) p = getClipRect t p := by
  unfold getClipRect
  rw [get?_stripViewBoxes]
  cases get? t p.dropLast with
  | none => rfl
  | some parentGroup =>
    simp only [Option.map]
    rw [findChildByTag_stripViewBoxes]
    cases findChildByTag parentGroup (svgName "g") with
    | none => rfl
    | some childGroup =>
      simp only [Option.map]
      rw [stripViewBoxes_getAttr childGroup "clip-path" (by decide)]
      cases childGroup.getAttr "clip-path" with
      | none => rfl
      | some clipPath =>
        simp only [Option.map]
        cases matchUrlRef? clipPath with
        | none => rfl
        | some clipPathId =>
          simp only [Option.map]
          rw [findChildByTag_stripViewBoxes]
          cases findChildByTag parentGroup (svgName "defs") with
          | none => rfl
          | some defs =>
            simp only [Option.map]
            rw [findClipEl_stripViewBoxes]
            cases findClipEl defs clipPathId "rect" with
            | some clipEl =>
              simp only [Option.map]
              exact clipElToBBox_stripViewBoxes clipEl
            | none =>
              simp only [Option.map]
              rw [findClipEl_stripViewBoxes]
              cases findClipEl defs clipPathId "path" with
              | some clipEl =>
                simp only [Option.map]
                exact clipElToBBox_stripViewBoxes clipEl
              | none => rfl

/-- Attribute read at a path. -/
def attrAt (t : XElem) (p : Path) (k : String) : Option String :=
  (get? t p).bind (fun e => e.getAttr k)

theorem get?_nil (e : XElem) : get? e [] = some e := by
  cases e with
  | node t a cs => rfl

theorem get?_cons (e : XElem) (j : Nat) (p : Path) :
    get? e (j :: p) =
      (match e.children[j]? with
       | some c => get? c p
       | none => none) := by
  cases e with
  | node t a cs => rfl

theorem set_self : ∀ (cs : List XElem) (i : Nat) (c : XElem),
    cs[i]? = some c → cs.set i c = cs := by
  intro cs
  induction cs with
  | nil => intro i c h; simp at h
  | cons d cs ih =>
    intro i c h
    match i with
    | 0 =>
      simp only [List.getElem?_cons_zero, Option.some.injEq] at h
      subst h
      rfl
    | i + 1 =>
      simp only [List.getElem?_cons_succ] at h
      simp only [List.set]
      rw [ih i c h]

theorem get?_modifyAt_self : ∀ (p : Path) (t : XElem) (f : XElem → XElem),
    get? (modifyAt t p f) p = (get? t p).map f := by
  intro p
  induction p with
  | nil =>
    intro t f
    cases t with
    | node tg a cs =>
      rw [get?_nil, get?_nil]
      rfl
  | cons i p ih =>
    intro t f
    cases t with
    | node tg a cs =>
      simp only [modifyAt]
      cases hc : cs[i]? with
      | none => simp [get?, hc]
      | some c =>
        have hlt : i < cs.length := by
          by_contra hge
          rw [List.getElem?_eq_none (by omega)] at hc
          exact absurd hc (by simp)
        simp only [get?]
        rw [List.getElem?_set_self (by omega), hc]
        simp only [Option.some.injEq]
        exact ih c f

theorem attrAt_modifyAt_ne : ∀ (pm : Path) (t : XElem) (f : XElem → XElem),
    (∀ e, (f e).children = e.children) →
    ∀ (p : Path) (k : String), p ≠ pm →
    attrAt (modifyAt t pm f) p k = attrAt t p k := by
  intro pm
  induction pm with
  | nil =>
    intro t f hf p k hp
    cases p with
    | nil => exact absurd rfl hp
    | cons j p' =>
      cases t with
      | node tg a cs =>
        unfold attrAt
        show (get? (f (XElem.node tg a cs)) (j :: p')).bind _ = _
        rw [get?_cons, hf (XElem.node tg a cs), ← get?_cons]
  | cons i rest ih =>
    intro t f hf p k hp
    cases t with
    | node tg a cs =>
      simp only [modifyAt]
      cases hc : cs[i]? with
      | none => rfl
      | some c =>
        cases p with
        | nil =>
          unfold attrAt
          rw [get?_nil, get?_nil]
          rfl
        | cons j p' =>
          unfold attrAt
          simp only [get?]
          by_cases hji : j = i
          · subst hji
            have hlt : j < cs.length := by
              by_contra hge
              rw [List.getElem?_eq_none (by omega)] at hc
              exact absurd hc (by simp)
            rw [List.getElem?_set_self (by omega), hc]
            have hne' : p' ≠ rest := by
              intro hcontra
              exact hp (by rw [hcontra])
            exact ih c f hf p' k hne'
          · rw [List.getElem?_set_ne (by omega)]

theorem getAttr_setAttr_self (e : XElem) (k v : String) :
    (e.setAttr k v).getAttr k = some v := by
  cases e with
  | node t a cs =>
    unfold XElem.setAttr XElem.getAttr
    simp only [XElem.attrs]
    induction a with
    | nil => simp [setPairs, List.find?]
    | cons kv a ih =>
      simp only [setPairs]
      by_cases hk : (kv.1 == k) = true
      · simp [hk, List.find?]
      · simp only [hk, Bool.false_eq_true, if_false]
        have hkf : (kv.1 == k) = false := by simpa using hk
        simp only [List.find?, hkf]
        exact ih

theorem setPairs_eq_self : ∀ (a : List (String × String)) (k v : String),
    (a.find? (fun kv => kv.1 == k)).map Prod.snd = some v → setPairs a k v = a := by
  intro a
  induction a with
  | nil => intro k v h; simp [List.find?] at h
  | cons kv a ih =>
    intro k v h
    cases kv with
    | mk k0 v0 =>
      by_cases hk : (k0 == k) = true
      · have hkeq : k0 = k := eq_of_beq hk
        have hpred : (((k0, v0) : String × String).1 == k) = true := by simpa using hk
        simp only [List.find?, hpred] at h
        have hv : v0 = v := by simpa using h
        simp only [setPairs, hpred, if_true]
        rw [hkeq, hv]
      · have hkf : (((k0, v0) : String × String).1 == k) = false := by simpa using hk
        simp only [List.find?, hkf] at h
        simp only [setPairs, hkf, Bool.false_eq_true, if_false]
        rw [ih k v h]

theorem setAttr_eq_self (e : XElem) (k v : String)
    (h : e.getAttr k = some v) : e.setAttr k v = e := by
  cases e with
  | node t a cs =>
    unfold XElem.setAttr
    unfold XElem.getAttr at h
    simp only [XElem.attrs] at h
    simp only [XElem.tag, XElem.attrs, XElem.children]
    rw [setPairs_eq_self a k v h]

theorem modifyAt_eq_self : ∀ (p : Path) (t : XElem) (f : XElem → XElem),
    (∀ e, get? t p = some e → f e = e) → modifyAt t p f = t := by
  intro p
  induction p with
  | nil =>
    intro t f hf
    cases t with
    | node tg a cs => exact hf _ (get?_nil _)
  | cons i rest ih =>
    intro t f hf
    cases t with
    | node tg a cs =>
      simp only [modifyAt]
      cases hc : cs[i]? with
      | none => rfl
      | some c =>
        dsimp only
        have : modifyAt c rest f = c := by
          apply ih
          intro e he
          apply hf
          simp only [get?]
          rw [hc]
          exact he
        rw [this, set_self cs i c hc]

theorem removeAttrKey_setPairs : ∀ (a : List (String × String)) (k v : String),
    removeAttrKey (setPairs a k v) k = removeAttrKey a k := by
  intro a
  induction a with
  | nil =>
    intro k v
    simp [setPairs, removeAttrKey, List.filter]
  | cons kv a ih =>
    intro k v
    unfold removeAttrKey at ih ⊢
    simp only [setPairs]
    by_cases hk : (kv.1 == k) = true
    · simp only [hk, if_true]
      rw [List.filter_cons_of_neg (by simp), List.filter_cons_of_neg (by simp [hk])]
    · simp only [hk, Bool.false_eq_true, if_false]
      rw [List.filter_cons_of_pos (by simpa using hk), List.filter_cons_of_pos (by simpa using hk)]
      rw [ih k v]

theorem setViewBoxAttr_children (e : XElem) (k v : String) :
    (e.setAttr k v).children = e.children := by
  cases e with
  | node t a cs => rfl

/-- Writing the `viewBox` attribute onto a `<penpot:shape>` node is invisible
to the erasure. -/
theorem stripViewBoxes_setViewBoxAttr : ∀ (p : Path) (t : XElem) (b : BoundingBox),
    isShapeAt t p = true →
    stripViewBoxes (setViewBoxAttr t p b) = stripViewBoxes t := by
  intro p
  induction p with
  | nil =>
    intro t b hs
    cases t with
    | node tg a cs =>
      unfold isShapeAt at hs
      rw [get?_nil] at hs
      have htag : (tg == penpotName "shape") = true := by
        simpa [elIsPenpotShape, XElem.tag] using hs
      show stripViewBoxes (XElem.node tg (setPairs a "viewBox" _) cs) = _
      unfold stripViewBoxes
      simp only [htag, if_true]
      rw [removeAttrKey_setPairs]
  | cons i rest ih =>
    intro t b hs
    cases t with
    | node tg a cs =>
      unfold setViewBoxAttr modifyAt
      cases hc : cs[i]? with
      | none => rfl
      | some c =>
        dsimp only
        have hsc : isShapeAt c rest = true := by
          unfold isShapeAt at hs ⊢
          simp only [get?, hc] at hs
          exact hs
        unfold stripViewBoxes
        simp only [XElem.node.injEq, true_and]
        rw [stripViewBoxesList_eq_map, stripViewBoxesList_eq_map]
        rw [List.map_set]
        have : stripViewBoxes (modifyAt c rest (fun e => e.setAttr "viewBox" b.toViewBoxString)) =
            stripViewBoxes c := ih c b hsc
        rw [this]
        apply set_self
        rw [List.getElem?_map, hc]
        rfl

/-- The per-shape outcome of the batched resolver: the box assigned to the
shape, and the id queried from the renderer session (none when the frame
clip-rect short-circuit applied). -/
def stepBoxSpec (r : Renderer) (rc : Bool) (t : XElem) (p : Path) :
    Except PyErr (BoundingBox × Option String) :=
  match typeAt t p with
  | .error e => .error e
  | .ok ty =>
    match (if rc && (ty == PenpotShapeType.frame) then getClipRect t p
           else .ok none : Except PyErr (Option BoundingBox)) with
    | .error e => .error e
    | .ok (some clip) => .ok (clip, none)
    | .ok none =>
      match shapeIdAt t p with
      | none => .error (.runtimeError "JavascriptException: getBBox of null")
      | some sid => .ok (r.getBBoxById sid, some sid)

theorem retrieveLoop_cons (r : Renderer) (rc : Bool) (t : XElem) (p : Path)
    (rest : List Path) :
    retrieveLoop r rc t (p :: rest) =
      (match stepBoxSpec r rc t p with
       | .error e => .error e
       | .ok (b, none) => retrieveLoop r rc (setViewBoxAttr t p b) rest
       | .ok (b, some sid) =>
         match retrieveLoop r rc (setViewBoxAttr t p b) rest with
         | .error e => .error e
         | .ok (t', queried) => .ok (t', sid :: queried)) := by
  conv_lhs => rw [retrieveLoop]
  unfold stepBoxSpec
  cases typeAt t p with
  | error e => rfl
  | ok ty =>
    dsimp only
    cases (if rc && (ty == PenpotShapeType.frame) then getClipRect t p
        else .ok none : Except PyErr (Option BoundingBox)) with
    | error e => rfl
    | ok o =>
      cases o with
      | some clip => rfl
      | none =>
        dsimp only
        cases shapeIdAt t p with
        | none => rfl
        | some sid => rfl

theorem isShapeAt_congr {t u : XElem} (h : stripViewBoxes t = stripViewBoxes u)
    (p : Path) : isShapeAt t p = isShapeAt u p := by
  rw [← isShapeAt_stripViewBoxes t p, h, isShapeAt_stripViewBoxes]

theorem stepBoxSpec_congr (r : Renderer) (rc : Bool) {t u : XElem} (p : Path)
    (h : stripViewBoxes t = stripViewBoxes u) :
    stepBoxSpec r rc t p = stepBoxSpec r rc u p := by
  unfold stepBoxSpec
  rw [← typeAt_stripViewBoxes t p, h, typeAt_stripViewBoxes]
  rw [← shapeIdAt_stripViewBoxes t p, h, shapeIdAt_stripViewBoxes]
  rw [← getClipRect_stripViewBoxes t p, h, getClipRect_stripViewBoxes]

theorem retrieveLoop_strip : ∀ (ps : List Path) (r : Renderer) (rc : Bool)
    (t t1 : XElem) (q1 : List String),
    (∀ p ∈ ps, isShapeAt t p = true) →
    retrieveLoop r rc t ps = .ok (t1, q1) →
    stripViewBoxes t1 = stripViewBoxes t := by
  intro ps
  induction ps with
  | nil =>
    intro r rc t t1 q1 _ hok
    unfold retrieveLoop at hok
    simp only [Except.ok.injEq, Prod.mk.injEq] at hok
    rw [← hok.1]
  | cons p rest ih =>
    intro r rc t t1 q1 hsh hok
    rw [retrieveLoop_cons] at hok
    revert hok
    cases hstep : stepBoxSpec r rc t p with
    | error e => intro hok; exact absurd hok (by simp)
    | ok pr =>
      obtain ⟨b, sidOpt⟩ := pr
      have hshape : isShapeAt t p = true := hsh p (by simp)
      have hstrip' : stripViewBoxes (setViewBoxAttr t p b) = stripViewBoxes t :=
        stripViewBoxes_setViewBoxAttr p t b hshape
      have hsh' : ∀ p' ∈ rest, isShapeAt (setViewBoxAttr t p b) p' = true := by
        intro p' hp'
        rw [isShapeAt_congr hstrip' p']
        exact hsh p' (by simp [hp'])
      cases sidOpt with
      | none =>
        intro hok
        dsimp only at hok
        rw [ih r rc _ t1 q1 hsh' hok]
        exact hstrip'
      | some sid =>
        intro hok
        dsimp only at hok
        revert hok
        cases hrec : retrieveLoop r rc (setViewBoxAttr t p b) rest with
        | error e => intro hok; exact absurd hok (by simp)
        | ok pr2 =>
          obtain ⟨t2, q2⟩ := pr2
          intro hok
          simp only [Except.ok.injEq, Prod.mk.injEq] at hok
          rw [← hok.1]
          rw [ih r rc _ t2 q2 hsh' hrec]
          exact hstrip'

theorem retrieveLoop_attr : ∀ (ps : List Path) (r : Renderer) (rc : Bool)
    (t t1 : XElem) (q1 : List String) (p : Path) (k : String),
    retrieveLoop r rc t ps = .ok (t1, q1) → p ∉ ps →
    attrAt t1 p k = attrAt t p k := by
  intro ps
  induction ps with
  | nil =>
    intro r rc t t1 q1 p k hok _
    unfold retrieveLoop at hok
    simp only [Except.ok.injEq, Prod.mk.injEq] at hok
    rw [← hok.1]
  | cons p0 rest ih =>
    intro r rc t t1 q1 p k hok hnm
    have hpne : p ≠ p0 := fun hc => hnm (by simp [hc])
    have hpnr : p ∉ rest := fun hc => hnm (by simp [hc])
    rw [retrieveLoop_cons] at hok
    revert hok
    cases hstep : stepBoxSpec r rc t p0 with
    | error e => intro hok; exact absurd hok (by simp)
    | ok pr =>
      obtain ⟨b, sidOpt⟩ := pr
      cases sidOpt with
      | none =>
        intro hok
        dsimp only at hok
        rw [ih r rc _ t1 q1 p k hok hpnr]
        exact attrAt_modifyAt_ne p0 t _ (fun e => setViewBoxAttr_children e _ _) p k hpne
      | some sid =>
        intro hok
        dsimp only at hok
        revert hok
        cases hrec : retrieveLoop r rc (setViewBoxAttr t p0 b) rest with
        | error e => intro hok; exact absurd hok (by simp)
        | ok pr2 =>
          obtain ⟨t2, q2⟩ := pr2
          intro hok
          simp only [Except.ok.injEq, Prod.mk.injEq] at hok
          rw [← hok.1]
          rw [ih r rc _ t2 q2 p k hrec hpnr]
          exact attrAt_modifyAt_ne p0 t _ (fun e => setViewBoxAttr_children e _ _) p k hpne

theorem attrAt_setViewBoxAttr_self (t : XElem) (p : Path) (b : BoundingBox)
    (h : (get? t p).isSome = true) :
    attrAt (setViewBoxAttr t p b) p "viewBox" = some b.toViewBoxString := by
  unfold attrAt setViewBoxAttr
  rw [get?_modifyAt_self]
  cases hg : get? t p with
  | none => rw [hg] at h; simp at h
  | some e =>
    show ((some (e.setAttr "viewBox" b.toViewBoxString)).bind fun e => e.getAttr "viewBox") = _
    show (e.setAttr "viewBox" b.toViewBoxString).getAttr "viewBox" = _
    exact getAttr_setAttr_self e _ _

theorem retrieveLoop_idem : ∀ (ps : List Path) (r : Renderer) (rc : Bool)
    (t t1 : XElem) (q1 : List String),
    ps.Nodup → (∀ p ∈ ps, isShapeAt t p = true) →
    retrieveLoop r rc t ps = .ok (t1, q1) →
    retrieveLoop r rc t1 ps = .ok (t1, q1) := by
  intro ps
  induction ps with
  | nil =>
    intro r rc t t1 q1 _ _ hok
    unfold retrieveLoop at hok ⊢
    simp only [Except.ok.injEq, Prod.mk.injEq] at hok
    rw [hok.2]
  | cons p rest ih =>
    intro r rc t t1 q1 hnd hsh hok
    have hshape : isShapeAt t p = true := hsh p (by simp)
    have hvalid : (get? t p).isSome = true := by
      unfold isShapeAt at hshape
      cases hg : get? t p with
      | some e => simp
      | none => rw [hg] at hshape; simp at hshape
    rw [retrieveLoop_cons] at hok
    revert hok
    cases hstep : stepBoxSpec r rc t p with
    | error e => intro hok; exact absurd hok (by simp)
    | ok pr =>
      obtain ⟨b, sidOpt⟩ := pr
      have hstrip' : stripViewBoxes (setViewBoxAttr t p b) = stripViewBoxes t :=
        stripViewBoxes_setViewBoxAttr p t b hshape
      have hsh' : ∀ p' ∈ rest, isShapeAt (setViewBoxAttr t p b) p' = true := by
        intro p' hp'
        rw [isShapeAt_congr hstrip' p']
        exact hsh p' (by simp [hp'])
      have hpnr : p ∉ rest := (List.nodup_cons.1 hnd).1
      -- facts shared by both sid cases, once the recursive run is known
      have main : ∀ (t2 : XElem) (q2 : List String),
          retrieveLoop r rc (setViewBoxAttr t p b) rest = .ok (t2, q2) →
          setViewBoxAttr t2 p b = t2 ∧
          stepBoxSpec r rc t2 p = .ok (b, sidOpt) ∧
          retrieveLoop r rc t2 rest = .ok (t2, q2) := by
        intro t2 q2 hrec
        have hstrip2 : stripViewBoxes t2 = stripViewBoxes t := by
          rw [retrieveLoop_strip rest r rc _ t2 q2 hsh' hrec]
          exact hstrip'
        have hattr : attrAt t2 p "viewBox" = some b.toViewBoxString := by
          rw [retrieveLoop_attr rest r rc _ t2 q2 p "viewBox" hrec hpnr]
          exact attrAt_setViewBoxAttr_self t p b hvalid
        refine ⟨?_, ?_, ?_⟩
        · apply modifyAt_eq_self
          intro e he
          apply setAttr_eq_self
          unfold attrAt at hattr
          rw [he] at hattr
          exact hattr
        · rw [stepBoxSpec_congr r rc p hstrip2]
          exact hstep
        · exact ih r rc _ t2 q2 (List.nodup_cons.1 hnd).2 hsh' hrec
      cases sidOpt with
      | none =>
        intro hok
        dsimp only at hok
        obtain ⟨hfix, hstep2, hrec2⟩ := main t1 q1 hok
        rw [retrieveLoop_cons]
        rw [hstep2]
        dsimp only
        rw [hfix]
        exact hrec2
      | some sid =>
        intro hok
        dsimp only at hok
        revert hok
        cases hrec : retrieveLoop r rc (setViewBoxAttr t p b) rest with
        | error e => intro hok; exact absurd hok (by simp)
        | ok pr2 =>
          obtain ⟨t2, q2⟩ := pr2
          intro hok
          simp only [Except.ok.injEq, Prod.mk.injEq] at hok
          obtain ⟨ht2, hq2⟩ := hok
          subst ht2
          obtain ⟨hfix, hstep2, hrec2⟩ := main t2 q2 hrec
          rw [retrieveLoop_cons]
          rw [hstep2]
          dsimp only
          rw [hfix]
          rw [hrec2]
          dsimp only
          rw [hq2]

/-- Claim C5 as amended: running the batched bounds resolution a second time
on an already-resolved page returns exactly the same result — the same
resulting document (identical rectangles) *and the same list of renderer
queries*: the batched path never consults the cached explicit rectangles, so
the renderer session is invoked again for every shape not served by the
frame clip-rect rule. -/
theorem C5_resolve_all_bounds_idempotent (r : Renderer) (rc : Bool)
    (t t1 : XElem) (q1 : List String)
    (h : retrieveAndSetViewBoxes r rc t = .ok (t1, q1)) :
    retrieveAndSetViewBoxes r rc t1 = .ok (t1, q1) := by
  unfold retrieveAndSetViewBoxes at h ⊢
  have hnd := nodup_findAllShapePaths t
  have hsh : ∀ p ∈ findAllShapePaths t, isShapeAt t p = true :=
    fun p hp => (mem_findAllShapePaths t p).1 hp
  have hstrip : stripViewBoxes t1 = stripViewBoxes t :=
    retrieveLoop_strip _ r rc t t1 q1 hsh h
  have hfa : findAllShapePaths t1 = findAllShapePaths t := by
    rw [← findAllShapePaths_stripViewBoxes t1, hstrip, findAllShapePaths_stripViewBoxes]
  rw [hfa]
  exact retrieveLoop_idem _ r rc t t1 q1 hnd hsh h

/-- The sample page after one batched bounds resolution. -/
def sampleResolved : XElem :=
  match retrieveAndSetViewBoxes constRenderer true sampleDoc with
  | .ok (t, _) => t
  | .error _ => sampleDoc

/-- Claim C5, counterexample: after a first batched resolution every shape of
the sample page carries a resolved rectangle, yet the second batched run
queries the renderer session again for the very same three ids — the cached
explicit rectangles are never consulted by the batched path, contradicting
the claimed renderer-free cache hit. -/
theorem C5_counterexample :
    retrieveAndSetViewBoxes constRenderer true sampleDoc =
      .ok (sampleResolved, ["shape-groupB", "shape-rectC", "shape-pathD"]) ∧
    ((findAllShapePaths sampleResolved).all
      (fun p => (defaultViewBoxAt sampleResolved p).isSome)) = true ∧
    retrieveAndSetViewBoxes constRenderer true sampleResolved =
      .ok (sampleResolved, ["shape-groupB", "shape-rectC", "shape-pathD"]) :=
  ⟨rfl, rfl, rfl⟩

/-- Witness for `C5_resolve_all_bounds_idempotent` on the sample page. -/
theorem C5_resolve_all_bounds_idempotent_witness :
    retrieveAndSetViewBoxes constRenderer true sampleResolved =
      .ok (sampleResolved, ["shape-groupB", "shape-rectC", "shape-pathD"]) :=
  C5_resolve_all_bounds_idempotent constRenderer true sampleDoc sampleResolved
    ["shape-groupB", "shape-rectC", "shape-pathD"] (by rfl)

/-! ## `remove_elements_with_no_visible_content` -/

/-- Resolve a shape id against the current tree: the current path of the
first matching shape-marker.  The source loop resolves the id through the
page index built before the loop, obtaining the live lxml element; as long as
that element is attached, its current document position is this path (unique
under unique ids).  When the element was already detached by an earlier
removal, the source detaches it from its detached parent, leaving the page
tree unchanged — modelled by the `none` result (the callers below skip the
iteration; the situation is unreachable in the deepest-first traversal). -/
def findShapePathById (t : XElem) (sid : Option String) : Option Path :=
  (findAllShapePaths t).find? (fun p => shapeIdAt t p == sid)

/-- The largest `depth_in_shapes` over the shapes of the page. -/
def maxShapeDepth (t : XElem) : Nat :=
  ((findAllShapePaths t).map (fun p => depthInShapes t p)).foldr max 0

/-- `sorted(self.penpot_shape_elements, key=lambda s: s.depth_in_shapes,
reverse=True)`: the shapes of the page in descending order of depth;
Python's sort is stable, so equal depths keep document order. -/
def pruneOrder (t : XElem) : List Path :=
  ((List.range (maxShapeDepth t + 1)).reverse).flatMap
    (fun d => (findAllShapePaths t).filter (fun p => depthInShapes t p == d))

/-- The loop of `remove_elements_with_no_visible_content`: for each shape
(by id, deepest first), if its content check fails, detach its containing
group from its parent (`_remove_shape_from_tree`) and record the id. -/
def pruneLoop : XElem → List (Option String) → Except PyErr (XElem × List (Option String))
  | t, [] => .ok (t, [])
  | t, sid :: rest =>
    match findShapePathById t sid with
    | none => pruneLoop t rest
    | some p =>
      if checkForVisibleContent t p then pruneLoop t rest
      else if p.dropLast = [] then
        .error (.attributeError "NoneType object has no attribute remove")
      else
        match pruneLoop (removeAt t p.dropLast) rest with
        | .error e => .error e
        | .ok (t2, removed) => .ok (t2, sid :: removed)

/-- The defensive post-condition loop after the index rebuild: every removed
id must fail to resolve with `KeyError`; a still-resolvable id is a fatal
`AssertionError`. -/
def prunePostCheckLoop : XElem → List (Option String) → Except PyErr XElem
  | t', [] => .ok t'
  | t', sid :: rest =>
    match getShapeByAttrUnique t' shapeIdAt sid with
    | .error (.keyError _) => prunePostCheckLoop t' rest
    | .ok _ => .error (.assertionError
        ("Shape with id " ++ (sid.getD "None") ++ " was not removed correctly."))
    | .error e => .error e

/-- `PenpotPageSVG.remove_elements_with_no_visible_content`: compute the
deepest-first order and the ids up front, run the removal loop, rebuild the
index (implicit: all page state is recomputed from the tree) and run the
defensive post-condition.  Returns the mutated tree and the removed ids in
removal order. -/
def removeElementsWithNoVisibleContent (t : XElem) :
    Except PyErr (XElem × List (Option String)) :=
  match pruneLoop t ((pruneOrder t).map (fun p => shapeIdAt t p)) with
  | .error e => .error e
  | .ok (t', removed) =>
    match prunePostCheckLoop t' removed with
    | .error e => .error e
    | .ok _ => .ok (t', removed)

/-- Structural well-formedness of one shape of a page, assumed by the pruning
analysis: the shape-marker node sits below the document root and its
containing element is an `svg:g`. -/
def wfContainerAt (t : XElem) (p : Path) : Bool :=
  (p.dropLast != []) &&
  (match get? t p.dropLast with
   | some g => elIsGroup g
   | none => false)

/-- The original (pre-removal) path of the node that sits at the given path
after the subtree at `c` was removed: child indices at the removal point at
or past the erased index move up by one. -/
def unshiftRem : Path → Path → Path
  | [k], j :: s => (if j < k then j else j + 1) :: s
  | i :: c2 :: c3, j :: s => if i = j then j :: unshiftRem (c2 :: c3) s else j :: s
  | _, q => q

/-- The post-removal path of a surviving node of the original tree (partial
inverse of `unshiftRem`; meaningless on paths into the removed subtree). -/
def shiftRem : Path → Path → Path
  | [k], j :: s => (if j < k then j else j - 1) :: s
  | i :: c2 :: c3, j :: s => if i = j then j :: shiftRem (c2 :: c3) s else j :: s
  | _, q => q

theorem unshiftRem_length : ∀ (c q : Path), (unshiftRem c q).length = q.length
  | [], _ => rfl
  | [_], [] => rfl
  | [k], j :: s => by unfold unshiftRem; split <;> rfl
  | _ :: _ :: _, [] => rfl
  | i :: c2 :: c3, j :: s => by
      unfold unshiftRem
      by_cases h : i = j
      · simp only [h, if_true, List.length_cons, unshiftRem_length (c2 :: c3) s]
      · simp [h]

theorem shiftRem_length : ∀ (c q : Path), (shiftRem c q).length = q.length
  | [], _ => rfl
  | [_], [] => rfl
  | [k], j :: s => by unfold shiftRem; split <;> rfl
  | _ :: _ :: _, [] => rfl
  | i :: c2 :: c3, j :: s => by
      unfold shiftRem
      by_cases h : i = j
      · simp only [h, if_true, List.length_cons, shiftRem_length (c2 :: c3) s]
      · simp [h]

theorem unshiftRem_dropLast : ∀ (c q : Path),
    (unshiftRem c q).dropLast = unshiftRem c q.dropLast
  | [], _ => rfl
  | [_], [] => rfl
  | [k], j :: s => by
      cases s with
      | nil => simp [unshiftRem]
      | cons y ys =>
        show (unshiftRem [k] (j :: y :: ys)).dropLast = _
        unfold unshiftRem
        simp only [List.dropLast_cons₂]
  | _ :: _ :: _, [] => rfl
  | i :: c2 :: c3, j :: s => by
      cases s with
      | nil =>
        by_cases h : i = j <;> simp [unshiftRem, h]
      | cons y ys =>
        show (unshiftRem (i :: c2 :: c3) (j :: y :: ys)).dropLast =
          unshiftRem (i :: c2 :: c3) (j :: (y :: ys).dropLast)
        unfold unshiftRem
        by_cases h : i = j
        · simp only [h, if_true]
          have hne : unshiftRem (c2 :: c3) (y :: ys) ≠ [] := by
            intro hc
            have := unshiftRem_length (c2 :: c3) (y :: ys)
            rw [hc] at this
            simp at this
          rw [List.dropLast_cons_of_ne_nil hne]
          rw [unshiftRem_dropLast (c2 :: c3) (y :: ys)]
        · simp only [h, if_false]
          simp [List.dropLast_cons₂]

theorem shiftRem_dropLast : ∀ (c q : Path),
    (shiftRem c q).dropLast = shiftRem c q.dropLast
  | [], _ => rfl
  | [_], [] => rfl
  | [k], j :: s => by
      cases s with
      | nil => simp [shiftRem]
      | cons y ys =>
        show (shiftRem [k] (j :: y :: ys)).dropLast = _
        unfold shiftRem
        simp only [List.dropLast_cons₂]
  | _ :: _ :: _, [] => rfl
  | i :: c2 :: c3, j :: s => by
      cases s with
      | nil =>
        by_cases h : i = j <;> simp [shiftRem, h]
      | cons y ys =>
        show (shiftRem (i :: c2 :: c3) (j :: y :: ys)).dropLast =
          shiftRem (i :: c2 :: c3) (j :: (y :: ys).dropLast)
        unfold shiftRem
        by_cases h : i = j
        · simp only [h, if_true]
          have hne : shiftRem (c2 :: c3) (y :: ys) ≠ [] := by
            intro hc
            have := shiftRem_length (c2 :: c3) (y :: ys)
            rw [hc] at this
            simp at this
          rw [List.dropLast_cons_of_ne_nil hne]
          rw [shiftRem_dropLast (c2 :: c3) (y :: ys)]
        · simp only [h, if_false]
          simp [List.dropLast_cons₂]

theorem shiftRem_unshiftRem : ∀ (c q : Path), shiftRem c (unshiftRem c q) = q
  | [], _ => rfl
  | [_], [] => rfl
  | [k], j :: s => by
      unfold unshiftRem
      by_cases h : j < k
      · simp only [h, if_true]
        unfold shiftRem
        simp [h]
      · simp only [h, if_false]
        unfold shiftRem
        have h2 : ¬(j + 1 < k) := by omega
        simp only [h2, if_false]
        have : j + 1 - 1 = j := by omega
        rw [this]
  | _ :: _ :: _, [] => rfl
  | i :: c2 :: c3, j :: s => by
      unfold unshiftRem
      by_cases h : i = j
      · simp only [h, if_true]
        unfold shiftRem
        simp [shiftRem_unshiftRem (c2 :: c3) s]
      · simp only [h, if_false]
        unfold shiftRem
        simp [h]

theorem unshiftRem_shiftRem : ∀ (c q : Path), ¬(c <+: q) →
    unshiftRem c (shiftRem c q) = q
  | [], q => fun h => absurd (List.nil_prefix) h
  | [_], [] => fun _ => rfl
  | [k], j :: s => by
      intro h
      have hjk : j ≠ k := by
        intro hc
        exact h (by simp [hc, List.cons_prefix_cons, List.nil_prefix])
      unfold shiftRem
      by_cases hlt : j < k
      · simp only [hlt, if_true]
        unfold unshiftRem
        simp [hlt]
      · simp only [hlt, if_false]
        unfold unshiftRem
        have hgt : k < j := by omega
        have h2 : ¬(j - 1 < k) := by omega
        simp only [h2, if_false]
        have : j - 1 + 1 = j := by omega
        rw [this]
  | _ :: _ :: _, [] => fun _ => rfl
  | i :: c2 :: c3, j :: s => by
      intro h
      unfold shiftRem
      by_cases hij : i = j
      · simp only [hij, if_true]
        unfold unshiftRem
        have hns : ¬((c2 :: c3) <+: s) := by
          intro hc
          exact h (by rw [hij]; exact (List.cons_prefix_cons).2 ⟨rfl, hc⟩)
        simp [unshiftRem_shiftRem (c2 :: c3) s hns]
      · simp only [hij, if_false]
        unfold unshiftRem
        simp [hij]

theorem unshiftRem_prefix_mono : ∀ (c x y : Path), x <+: y →
    unshiftRem c x <+: unshiftRem c y
  | [], x, y => fun h => h
  | [_], [], y => fun _ => List.nil_prefix
  | [k], _ :: _, [] => fun h => absurd h (by simp)
  | [k], j :: xs, j2 :: ys => by
      intro h
      obtain ⟨rfl, hxy⟩ := (List.cons_prefix_cons).1 h
      unfold unshiftRem
      exact (List.cons_prefix_cons).2 ⟨rfl, hxy⟩
  | _ :: _ :: _, [], y => fun _ => List.nil_prefix
  | _ :: _ :: _, _ :: _, [] => fun h => absurd h (by simp)
  | i :: c2 :: c3, j :: xs, j2 :: ys => by
      intro h
      obtain ⟨rfl, hxy⟩ := (List.cons_prefix_cons).1 h
      unfold unshiftRem
      by_cases hij : i = j
      · simp only [hij, if_true]
        exact (List.cons_prefix_cons).2 ⟨rfl, unshiftRem_prefix_mono (c2 :: c3) xs ys hxy⟩
      · simp only [hij, if_false]
        exact (List.cons_prefix_cons).2 ⟨rfl, hxy⟩

theorem not_prefix_unshiftRem : ∀ (c q : Path), c ≠ [] → ¬(c <+: unshiftRem c q)
  | [], _, h => absurd rfl h
  | [_], [], _ => by simp [unshiftRem]
  | [k], j :: s, _ => by
      unfold unshiftRem
      by_cases hlt : j < k
      · simp only [hlt, if_true]
        intro hc
        obtain ⟨hjk, _⟩ := (List.cons_prefix_cons).1 hc
        omega
      · simp only [hlt, if_false]
        intro hc
        obtain ⟨hjk, _⟩ := (List.cons_prefix_cons).1 hc
        omega
  | _ :: _ :: _, [], _ => by simp [unshiftRem]
  | i :: c2 :: c3, j :: s, _ => by
      unfold unshiftRem
      by_cases hij : i = j
      · simp only [hij, if_true]
        intro hc
        obtain ⟨_, hrest⟩ := (List.cons_prefix_cons).1 hc
        exact not_prefix_unshiftRem (c2 :: c3) s (by simp) hrest
      · simp only [hij, if_false]
        intro hc
        exact hij ((List.cons_prefix_cons).1 hc).1

theorem shiftRem_id_outside : ∀ (c q : Path),
    ¬(c.dropLast <+: q) → shiftRem c q = q
  | [], q, _ => rfl
  | [k], q, h => absurd (List.nil_prefix) h
  | _ :: _ :: _, [], _ => rfl
  | i :: c2 :: c3, j :: s, h => by
      unfold shiftRem
      by_cases hij : i = j
      · simp only [hij, if_true]
        have hns : ¬((c2 :: c3).dropLast <+: s) := by
          intro hc
          apply h
          show (i :: c2 :: c3).dropLast <+: j :: s
          rw [List.dropLast_cons₂, hij]
          exact (List.cons_prefix_cons).2 ⟨rfl, hc⟩
        rw [shiftRem_id_outside (c2 :: c3) s hns]
      · simp [hij]

theorem unshiftRem_id_outside : ∀ (c q : Path),
    ¬(c.dropLast <+: q) → unshiftRem c q = q
  | [], q, _ => rfl
  | [k], q, h => absurd (List.nil_prefix) h
  | _ :: _ :: _, [], _ => rfl
  | i :: c2 :: c3, j :: s, h => by
      unfold unshiftRem
      by_cases hij : i = j
      · simp only [hij, if_true]
        have hns : ¬((c2 :: c3).dropLast <+: s) := by
          intro hc
          apply h
          show (i :: c2 :: c3).dropLast <+: j :: s
          rw [List.dropLast_cons₂, hij]
          exact (List.cons_prefix_cons).2 ⟨rfl, hc⟩
        rw [unshiftRem_id_outside (c2 :: c3) s hns]
      · simp [hij]

theorem shiftRem_of_prefix_dropLast : ∀ (c q : Path),
    q <+: c.dropLast → shiftRem c q = q
  | [], _, _ => rfl
  | [k], q, h => by
      have : q = [] := List.prefix_nil.1 h
      subst this
      rfl
  | _ :: _ :: _, [], _ => rfl
  | i :: c2 :: c3, j :: s, h => by
      rw [List.dropLast_cons₂] at h
      obtain ⟨rfl, hs⟩ := (List.cons_prefix_cons).1 h
      unfold shiftRem
      simp [shiftRem_of_prefix_dropLast (c2 :: c3) s hs]

theorem unshiftRem_of_prefix_dropLast : ∀ (c q : Path),
    q <+: c.dropLast → unshiftRem c q = q
  | [], _, _ => rfl
  | [k], q, h => by
      have : q = [] := List.prefix_nil.1 h
      subst this
      rfl
  | _ :: _ :: _, [], _ => rfl
  | i :: c2 :: c3, j :: s, h => by
      rw [List.dropLast_cons₂] at h
      obtain ⟨rfl, hs⟩ := (List.cons_prefix_cons).1 h
      unfold unshiftRem
      simp [unshiftRem_of_prefix_dropLast (c2 :: c3) s hs]

theorem shiftRem_of_length_le : ∀ (c q : Path),
    q.length ≤ c.dropLast.length → shiftRem c q = q
  | [], _, _ => rfl
  | [k], q, h => by
      simp only [List.dropLast_single, List.length_nil, Nat.le_zero] at h
      have : q = [] := List.length_eq_zero.1 h
      subst this
      rfl
  | _ :: _ :: _, [], _ => rfl
  | i :: c2 :: c3, j :: s, h => by
      unfold shiftRem
      by_cases hij : i = j
      · simp only [hij, if_true]
        rw [List.dropLast_cons₂, List.length_cons] at h
        simp only [List.length_cons] at h
        rw [shiftRem_of_length_le (c2 :: c3) s (by omega)]
      · simp [hij]

theorem unshiftRem_nil : ∀ (c : Path), unshiftRem c [] = []
  | [] => rfl
  | [_] => rfl
  | _ :: _ :: _ => rfl

theorem removeAt_tag : ∀ (c : Path) (t : XElem), (removeAt t c).tag = t.tag
  | [], t => by cases t with | node tg a cs => rfl
  | [k], t => by cases t with | node tg a cs => rfl
  | i :: c2 :: c3, t => by
      cases t with
      | node tg a cs =>
        show (removeAt (XElem.node tg a cs) (i :: c2 :: c3)).tag = _
        unfold removeAt
        cases cs[i]? <;> rfl

theorem removeAt_attrs : ∀ (c : Path) (t : XElem), (removeAt t c).attrs = t.attrs
  | [], t => by cases t with | node tg a cs => rfl
  | [k], t => by cases t with | node tg a cs => rfl
  | i :: c2 :: c3, t => by
      cases t with
      | node tg a cs =>
        show (removeAt (XElem.node tg a cs) (i :: c2 :: c3)).attrs = _
        unfold removeAt
        cases cs[i]? <;> rfl

/-- Nodes beside or below the removal point are untouched; their post-removal
path is the `unshiftRem` image of their original path. -/
theorem get?_removeAt_not_spine : ∀ (c q' : Path) (t : XElem), c ≠ [] →
    ¬(q' <+: c.dropLast) →
    get? (removeAt t c) q' = get? t (unshiftRem c q')
  | [], _, _, hc, _ => absurd rfl hc
  | [k], q', t, _, hp => by
      cases q' with
      | nil => exact absurd List.nil_prefix hp
      | cons j s =>
        cases t with
        | node tg a cs =>
          show get? (XElem.node tg a (cs.eraseIdx k)) (j :: s) = _
          unfold unshiftRem
          rw [get?_cons]
          by_cases hjk : j < k
          · simp only [hjk, if_true]
            rw [get?_cons]
            show (match (cs.eraseIdx k)[j]? with
                  | some c => get? c s
                  | none => none) = (match cs[j]? with
                  | some c => get? c s
                  | none => none)
            rw [List.getElem?_eraseIdx, if_pos hjk]
          · simp only [hjk, if_false]
            rw [get?_cons]
            show (match (cs.eraseIdx k)[j]? with
                  | some c => get? c s
                  | none => none) = (match cs[j + 1]? with
                  | some c => get? c s
                  | none => none)
            rw [List.getElem?_eraseIdx, if_neg hjk]
  | i :: c2 :: c3, q', t, _, hp => by
      cases q' with
      | nil => exact absurd List.nil_prefix hp
      | cons j s =>
        cases t with
        | node tg a cs =>
          by_cases hij : i = j
          · subst hij
            have hps : ¬(s <+: (c2 :: c3).dropLast) := by
              intro hcon
              apply hp
              rw [List.dropLast_cons₂]
              exact (List.cons_prefix_cons).2 ⟨rfl, hcon⟩
            show get? (removeAt (XElem.node tg a cs) (i :: c2 :: c3)) (i :: s) = _
            unfold removeAt unshiftRem
            rw [if_pos rfl]
            cases hcsi : cs[i]? with
            | none =>
              rw [get?_cons, get?_cons]
              show (match cs[i]? with
                    | some c => get? c s
                    | none => none) = (match cs[i]? with
                    | some c => get? c (unshiftRem (c2 :: c3) s)
                    | none => none)
              rw [hcsi]
            | some ch =>
              have hilen : i < cs.length := by
                by_contra hlen
                rw [List.getElem?_eq_none (by omega)] at hcsi
                exact absurd hcsi (by simp)
              rw [get?_cons, get?_cons]
              show (match (cs.set i (removeAt ch (c2 :: c3)))[i]? with
                    | some c => get? c s
                    | none => none) = (match cs[i]? with
                    | some c => get? c (unshiftRem (c2 :: c3) s)
                    | none => none)
              rw [List.getElem?_set_self hilen, hcsi]
              exact get?_removeAt_not_spine (c2 :: c3) s ch (by simp) hps
          · show get? (removeAt (XElem.node tg a cs) (i :: c2 :: c3)) (j :: s) = _
            unfold removeAt unshiftRem
            rw [if_neg hij]
            cases hcsi : cs[i]? with
            | none => rfl
            | some ch =>
              rw [get?_cons, get?_cons]
              show (match (cs.set i (removeAt ch (c2 :: c3)))[j]? with
                    | some c => get? c s
                    | none => none) = (match cs[j]? with
                    | some c => get? c s
                    | none => none)
              rw [List.getElem?_set_ne hij]

/-- Nodes on the spine to the removal point keep their path; the returned
subtree is the original subtree with the removal applied at the remaining
relative path. -/
theorem get?_removeAt_spine : ∀ (q c : Path) (t : XElem), q <+: c.dropLast →
    get? (removeAt t c) q = (get? t q).map (fun s => removeAt s (c.drop q.length))
  | [], c, t, _ => by
      rw [get?_nil, get?_nil]
      rfl
  | j :: qs, c, t, hpre => by
      match c with
      | [] => exact absurd hpre (by simp)
      | [k] => exact absurd hpre (by simp)
      | i :: c2 :: c3 =>
        rw [List.dropLast_cons₂] at hpre
        obtain ⟨rfl, hqs⟩ := (List.cons_prefix_cons).1 hpre
        cases t with
        | node tg a cs =>
          cases hcsi : cs[j]? with
          | none =>
            have hL : removeAt (XElem.node tg a cs) (j :: c2 :: c3) =
                XElem.node tg a cs := by
              show (match cs[j]? with
                    | some ch => XElem.node tg a (cs.set j (removeAt ch (c2 :: c3)))
                    | none => XElem.node tg a cs) = XElem.node tg a cs
              rw [hcsi]
            rw [hL, get?_cons]
            show (match cs[j]? with
                  | some c => get? c qs
                  | none => none) = ((match cs[j]? with
                  | some c => get? c qs
                  | none => none) : Option XElem).map _
            rw [hcsi]
            rfl
          | some ch =>
            have hjlen : j < cs.length := by
              by_contra hlen
              rw [List.getElem?_eq_none (by omega)] at hcsi
              exact absurd hcsi (by simp)
            have hL : removeAt (XElem.node tg a cs) (j :: c2 :: c3) =
                XElem.node tg a (cs.set j (removeAt ch (c2 :: c3))) := by
              show (match cs[j]? with
                    | some ch => XElem.node tg a (cs.set j (removeAt ch (c2 :: c3)))
                    | none => XElem.node tg a cs) = _
              rw [hcsi]
            rw [hL, get?_cons, get?_cons]
            show (match (cs.set j (removeAt ch (c2 :: c3)))[j]? with
                  | some c => get? c qs
                  | none => none) = ((match cs[j]? with
                  | some c => get? c qs
                  | none => none) : Option XElem).map
                    (fun s => removeAt s ((j :: c2 :: c3).drop (j :: qs).length))
            rw [List.getElem?_set_self hjlen, hcsi]
            dsimp only
            rw [get?_removeAt_spine qs (c2 :: c3) ch hqs]
            rfl

/-- Tag-level transport under removal: valid for every path. -/
theorem tag_get?_removeAt (c q' : Path) (t : XElem) (hc : c ≠ []) :
    (get? (removeAt t c) q').map XElem.tag = (get? t (unshiftRem c q')).map XElem.tag := by
  by_cases hpre : q' <+: c.dropLast
  · rw [unshiftRem_of_prefix_dropLast c q' hpre]
    rw [get?_removeAt_spine q' c t hpre]
    cases get? t q' with
    | none => rfl
    | some s => simp [removeAt_tag]
  · rw [get?_removeAt_not_spine c q' t hc hpre]

/-- Attribute-level transport under removal: valid for every path. -/
theorem attrs_get?_removeAt (c q' : Path) (t : XElem) (hc : c ≠ []) :
    (get? (removeAt t c) q').map XElem.attrs =
      (get? t (unshiftRem c q')).map XElem.attrs := by
  by_cases hpre : q' <+: c.dropLast
  · rw [unshiftRem_of_prefix_dropLast c q' hpre]
    rw [get?_removeAt_spine q' c t hpre]
    cases get? t q' with
    | none => rfl
    | some s => simp [removeAt_attrs]
  · rw [get?_removeAt_not_spine c q' t hc hpre]

theorem isShapeAt_removeAt (c q' : Path) (t : XElem) (hc : c ≠ []) :
    isShapeAt (removeAt t c) q' = isShapeAt t (unshiftRem c q') := by
  unfold isShapeAt
  have hta := tag_get?_removeAt c q' t hc
  cases h1 : get? (removeAt t c) q' with
  | none =>
    rw [h1] at hta
    cases h2 : get? t (unshiftRem c q') with
    | none => rfl
    | some s => rw [h2] at hta; simp at hta
  | some s =>
    rw [h1] at hta
    cases h2 : get? t (unshiftRem c q') with
    | none => rw [h2] at hta; simp at hta
    | some s2 =>
      rw [h2] at hta
      simp only [Option.map, Option.some.injEq] at hta
      dsimp only
      unfold elIsPenpotShape
      rw [hta]

theorem shapeIdAt_removeAt (c q' : Path) (t : XElem) (hc : c ≠ []) :
    shapeIdAt (removeAt t c) q' = shapeIdAt t (unshiftRem c q') := by
  by_cases hq : q' = []
  · subst hq
    rw [unshiftRem_nil]
    rfl
  · have hne : unshiftRem c q' ≠ [] := by
      intro h
      have hl := unshiftRem_length c q'
      rw [h] at hl
      exact hq (List.length_eq_zero.1 hl.symm)
    unfold shapeIdAt
    simp only [hq, hne, if_false]
    have hattr := attrs_get?_removeAt c q'.dropLast t hc
    rw [← unshiftRem_dropLast] at hattr
    cases h1 : get? (removeAt t c) q'.dropLast with
    | none =>
      rw [h1] at hattr
      cases h2 : get? t (unshiftRem c q').dropLast with
      | none => rfl
      | some s => rw [h2] at hattr; simp at hattr
    | some s =>
      rw [h1] at hattr
      cases h2 : get? t (unshiftRem c q').dropLast with
      | none => rw [h2] at hattr; simp at hattr
      | some s2 =>
        rw [h2] at hattr
        simp only [Option.map, Option.some.injEq] at hattr
        show s.getAttr "id" = s2.getAttr "id"
        unfold XElem.getAttr
        rw [hattr]

theorem findIdx?_start_le {α : Type} (p : α → Bool) :
    ∀ (xs : List α) (st j : Nat), List.findIdx? p xs st = some j → st ≤ j := by
  intro xs
  induction xs with
  | nil => intro st j h; simp [List.findIdx?] at h
  | cons a rest ih =>
    intro st j h
    rw [List.findIdx?_cons] at h
    by_cases hpa : p a = true
    · rw [if_pos hpa] at h
      simp only [Option.some.injEq] at h
      omega
    · rw [if_neg hpa] at h
      have := ih (st + 1) j h
      omega

theorem findIdx?_eq_some_pred {α : Type} (p : α → Bool) :
    ∀ (xs : List α) (st j : Nat), List.findIdx? p xs st = some j →
    ∃ x, xs[j - st]? = some x ∧ p x = true := by
  intro xs
  induction xs with
  | nil => intro st j h; simp [List.findIdx?] at h
  | cons a rest ih =>
    intro st j h
    rw [List.findIdx?_cons] at h
    by_cases hpa : p a = true
    · rw [if_pos hpa] at h
      simp only [Option.some.injEq] at h
      subst h
      refine ⟨a, ?_, hpa⟩
      simp
    · rw [if_neg hpa] at h
      have hle := findIdx?_start_le p rest (st + 1) j h
      obtain ⟨x, hx, hpx⟩ := ih (st + 1) j h
      refine ⟨x, ?_, hpx⟩
      have : j - st = (j - (st + 1)) + 1 := by omega
      rw [this]
      simpa using hx

theorem findIdx?_start_succ {α : Type} (p : α → Bool) :
    ∀ (xs : List α) (st : Nat),
    List.findIdx? p xs (st + 1) = (List.findIdx? p xs st).map (fun i => i + 1) := by
  intro xs
  induction xs with
  | nil => intro st; simp [List.findIdx?]
  | cons a rest ih =>
    intro st
    rw [List.findIdx?_cons, List.findIdx?_cons]
    by_cases hpa : p a = true
    · rw [if_pos hpa, if_pos hpa]
      rfl
    · rw [if_neg hpa, if_neg hpa]
      exact ih (st + 1)

theorem findIdx?_set_congr {α : Type} (p : α → Bool) :
    ∀ (xs : List α) (i0 : Nat) (x : α),
    (∀ y, xs[i0]? = some y → p x = p y) →
    ∀ (st : Nat), List.findIdx? p (xs.set i0 x) st = List.findIdx? p xs st := by
  intro xs
  induction xs with
  | nil => intro i0 x _ st; rfl
  | cons a rest ih =>
    intro i0 x hx st
    cases i0 with
    | zero =>
      have hpa : p x = p a := hx a (by simp)
      show List.findIdx? p (x :: rest) st = _
      rw [List.findIdx?_cons, List.findIdx?_cons, hpa]
    | succ n =>
      show List.findIdx? p (a :: rest.set n x) st = _
      rw [List.findIdx?_cons, List.findIdx?_cons]
      by_cases hpa : p a = true
      · rw [if_pos hpa, if_pos hpa]
      · rw [if_neg hpa, if_neg hpa]
        exact ih n x (fun y hy => hx y (by simpa using hy)) (st + 1)

theorem findIdx?_eraseIdx_pred_false {α : Type} (p : α → Bool) :
    ∀ (xs : List α) (k : Nat),
    (∀ y, xs[k]? = some y → p y = false) →
    ∀ (st : Nat), List.findIdx? p (xs.eraseIdx k) st =
      (List.findIdx? p xs st).map (fun i => if i < st + k then i else i - 1) := by
  intro xs
  induction xs with
  | nil => intro k _ st; simp [List.findIdx?]
  | cons a rest ih =>
    intro k hk st
    cases k with
    | zero =>
      have hpa : p a = false := hk a (by simp)
      show List.findIdx? p rest st = _
      rw [List.findIdx?_cons, if_neg (by simp [hpa])]
      rw [findIdx?_start_succ]
      cases hres : List.findIdx? p rest st with
      | none => rfl
      | some j =>
        have hle := findIdx?_start_le p rest st j hres
        simp only [Option.map_map, Option.map_some]
        show some j = some (if j + 1 < st + 0 then j + 1 else j + 1 - 1)
        have : ¬(j + 1 < st + 0) := by omega
        rw [if_neg this]
        simp
    | succ n =>
      show List.findIdx? p (a :: rest.eraseIdx n) st = _
      rw [List.findIdx?_cons, List.findIdx?_cons]
      by_cases hpa : p a = true
      · rw [if_pos hpa, if_pos hpa]
        have : st < st + (n + 1) := by omega
        simp [this]
      · rw [if_neg hpa, if_neg hpa]
        rw [ih n (fun y hy => hk y (by simpa using hy)) (st + 1)]
        have harith : st + 1 + n = st + (n + 1) := by omega
        rw [harith]

theorem shiftRem_cons_cons (i c2 j : Nat) (c3 s : Path) :
    shiftRem (i :: c2 :: c3) (j :: s) =
      if i = j then j :: shiftRem (c2 :: c3) s else j :: s := rfl

theorem shiftRem_single_cons (k j : Nat) (s : Path) :
    shiftRem [k] (j :: s) = (if j < k then j else j - 1) :: s := rfl

theorem unshiftRem_cons_cons (i c2 j : Nat) (c3 s : Path) :
    unshiftRem (i :: c2 :: c3) (j :: s) =
      if i = j then j :: unshiftRem (c2 :: c3) s else j :: s := rfl

theorem unshiftRem_single_cons (k j : Nat) (s : Path) :
    unshiftRem [k] (j :: s) = (if j < k then j else j + 1) :: s := rfl

theorem shiftRem_nil_left : ∀ (q : Path), shiftRem [] q = q
  | [] => rfl
  | _ :: _ => rfl

theorem shiftRem_nil_right : ∀ (c : Path), shiftRem c [] = []
  | [] => rfl
  | [_] => rfl
  | _ :: _ :: _ => rfl

theorem inits_shiftRem : ∀ (c x : Path), (shiftRem c x).inits = x.inits.map (shiftRem c)
  | [], x => by
      rw [shiftRem_nil_left]
      have hmap : List.map (shiftRem []) x.inits = List.map id x.inits :=
        List.map_congr_left (fun y _ => shiftRem_nil_left y)
      rw [hmap, List.map_id]
  | [k], [] => by simp [shiftRem_nil_right]
  | [k], j :: s => by
      show (shiftRem [k] (j :: s)).inits = _
      unfold shiftRem
      rw [List.inits_cons, List.inits_cons]
      simp only [List.map_cons, List.map_map]
      refine congrArg _ ?_
      apply List.map_congr_left
      intro y _
      rfl
  | _ :: _ :: _, [] => by simp [shiftRem_nil_right]
  | i :: c2 :: c3, j :: s => by
      show (shiftRem (i :: c2 :: c3) (j :: s)).inits = _
      unfold shiftRem
      by_cases hij : i = j
      · rw [if_pos hij]
        rw [List.inits_cons, List.inits_cons]
        simp only [List.map_cons, List.map_map]
        rw [inits_shiftRem (c2 :: c3) s]
        simp only [List.map_map]
        refine congrArg _ ?_
        apply List.map_congr_left
        intro y _
        show j :: shiftRem (c2 :: c3) y = shiftRem (i :: c2 :: c3) (j :: y)
        rw [shiftRem_cons_cons, if_pos hij]
      · rw [if_neg hij]
        rw [List.inits_cons]
        simp only [List.map_cons, List.map_map]
        refine congrArg _ ?_
        symm
        apply List.map_congr_left
        intro y _
        show shiftRem (i :: c2 :: c3) (j :: y) = j :: y
        rw [shiftRem_cons_cons, if_neg hij]

theorem shiftRem_append_cons : ∀ (d : Path) (k i : Nat) (s : Path),
    shiftRem (d ++ [k]) (d ++ i :: s) = d ++ (if i < k then i else i - 1) :: s
  | [], k, i, s => by
      show shiftRem [k] (i :: s) = _
      unfold shiftRem
      rfl
  | x :: d', k, i, s => by
      cases hd : d' ++ [k] with
      | nil => exact absurd hd (by simp)
      | cons c2 c3 =>
        show shiftRem (x :: (d' ++ [k])) (x :: (d' ++ i :: s)) = _
        rw [hd]
        unfold shiftRem
        rw [if_pos rfl, ← hd]
        rw [shiftRem_append_cons d' k i s]
        rfl

theorem unshiftRem_append_cons : ∀ (d : Path) (k i : Nat) (s : Path),
    unshiftRem (d ++ [k]) (d ++ i :: s) = d ++ (if i < k then i else i + 1) :: s
  | [], k, i, s => by
      show unshiftRem [k] (i :: s) = _
      unfold unshiftRem
      rfl
  | x :: d', k, i, s => by
      cases hd : d' ++ [k] with
      | nil => exact absurd hd (by simp)
      | cons c2 c3 =>
        show unshiftRem (x :: (d' ++ [k])) (x :: (d' ++ i :: s)) = _
        rw [hd]
        unfold unshiftRem
        rw [if_pos rfl, ← hd]
        rw [unshiftRem_append_cons d' k i s]
        rfl

theorem findSome?_congr_mem {α β : Type} (l : List α) (f g : α → Option β)
    (h : ∀ a ∈ l, f a = g a) : l.findSome? f = l.findSome? g := by
  induction l with
  | nil => rfl
  | cons x l ih =>
    rw [List.findSome?_cons, List.findSome?_cons, h x (by simp)]
    cases g x with
    | some y => rfl
    | none => exact ih (fun a ha => h a (by simp [ha]))

theorem findSome?_map_option {α β γ : Type} (l : List α) (f : α → Option β)
    (g : β → γ) : l.findSome? (fun a => (f a).map g) = (l.findSome? f).map g := by
  induction l with
  | nil => rfl
  | cons x l ih =>
    rw [List.findSome?_cons, List.findSome?_cons]
    cases f x with
    | some y => rfl
    | none => exact ih

/-- When the removal happens strictly below the root of a subtree, the
identity of surviving single-child extensions is preserved by the shift. -/
theorem shiftRem_append_single_id (c cand : Path) (_hc : c ≠ [])
    (hnd : ¬(c.dropLast <+: cand)) (i : Nat) :
    shiftRem c (cand ++ [i]) = cand ++ [i] := by
  by_cases hdp : c.dropLast <+: cand ++ [i]
  · have hlt : cand.length < c.dropLast.length := by
      by_contra hge
      exact hnd (List.prefix_of_prefix_length_le hdp (List.prefix_append cand [i]) (by omega))
    have heq : c.dropLast = cand ++ [i] := by
      apply List.IsPrefix.eq_of_length_le hdp
      have := hdp.length_le
      simp only [List.length_append, List.length_cons, List.length_nil] at this ⊢
      omega
    rw [← heq]
    exact shiftRem_of_prefix_dropLast c _ (List.prefix_refl _)
  · exact shiftRem_id_outside c _ hdp

/-- One step of the parent walk transported through a removal: for a
candidate not inside the removed subtree, the step in the mutated tree is the
shifted image of the step in the original tree.  Requires that the removed
node itself is not a shape marker (it is a container group). -/
theorem nodeShapeChildPath_removeAt (c : Path) (t : XElem) (hc : c ≠ [])
    (hcont : ∀ ce, get? t c = some ce → elIsPenpotShape ce = false)
    (cand : Path) (hnc : ¬(c <+: cand)) :
    nodeShapeChildPath (removeAt t c) (shiftRem c cand) =
      (nodeShapeChildPath t cand).map (shiftRem c) := by
  by_cases hspine : cand <+: c.dropLast
  · -- the candidate lies on the spine to the removal point
    rw [shiftRem_of_prefix_dropLast c cand hspine]
    have hk := List.dropLast_append_getLast hc
    obtain ⟨m, hm⟩ := hspine
    have hcfull : c = cand ++ (m ++ [c.getLast hc]) := by
      rw [← List.append_assoc, hm, hk]
    have hrel : c.drop cand.length = m ++ [c.getLast hc] := by
      conv_lhs => rw [hcfull]
      exact List.drop_left cand (m ++ [c.getLast hc])
    unfold nodeShapeChildPath
    rw [get?_removeAt_spine cand c t ⟨m, hm⟩]
    cases hg : get? t cand with
    | none => rfl
    | some e =>
      simp only [Option.map]
      rw [hrel]
      cases e with
      | node tg a cs =>
        cases m with
        | nil =>
          -- the candidate is the parent of the removed node: one child erased
          have hremeq : removeAt (XElem.node tg a cs) ([] ++ [c.getLast hc]) =
              XElem.node tg a (cs.eraseIdx (c.getLast hc)) := rfl
          rw [hremeq]
          show (if elIsGroup (XElem.node tg a (cs.eraseIdx (c.getLast hc))) then
              ((cs.eraseIdx (c.getLast hc)).findIdx? elIsPenpotShape).map
                (fun i => cand ++ [i]) else none) =
            ((if elIsGroup (XElem.node tg a cs) then
              (cs.findIdx? elIsPenpotShape).map (fun i => cand ++ [i])
              else none) : Option Path).map (shiftRem c)
          have hgrsame : elIsGroup (XElem.node tg a (cs.eraseIdx (c.getLast hc))) =
              elIsGroup (XElem.node tg a cs) := rfl
          rw [hgrsame]
          by_cases hgr : elIsGroup (XElem.node tg a cs) = true
          · repeat rw [if_pos hgr]
            have hpred : ∀ y, cs[c.getLast hc]? = some y → elIsPenpotShape y = false := by
              intro y hy
              apply hcont
              conv_lhs => rw [hcfull]
              rw [get?_append, hg]
              show get? (XElem.node tg a cs) [c.getLast hc] = some y
              rw [get?_cons]
              show (match cs[c.getLast hc]? with
                    | some ch => get? ch []
                    | none => none) = some y
              rw [hy]
              simp [get?_nil]
            rw [findIdx?_eraseIdx_pred_false elIsPenpotShape cs (c.getLast hc) hpred 0]
            cases hidx : cs.findIdx? elIsPenpotShape with
            | none => rfl
            | some i =>
              simp only [Option.map, Option.some.injEq]
              have hsh : shiftRem c (cand ++ [i]) =
                  cand ++ (if i < c.getLast hc then i else i - 1) :: [] := by
                conv_lhs => rw [hcfull]
                show shiftRem (cand ++ ([] ++ [c.getLast hc])) (cand ++ i :: []) = _
                rw [List.nil_append]
                exact shiftRem_append_cons cand (c.getLast hc) i []
              rw [hsh]
              simp
          · repeat rw [if_neg hgr]
            rfl
        | cons mi m' =>
          -- removal happens strictly below the candidate: one child replaced
          have hne2 : ∃ c2 c3, m' ++ [c.getLast hc] = c2 :: c3 := by
            cases m' <;> simp
          obtain ⟨c2, c3, hc23⟩ := hne2
          have hndp : ¬(c.dropLast <+: cand) := by
            intro hcon
            have h1 : c.dropLast.length ≤ cand.length := hcon.length_le
            have h2 : cand.length + (mi :: m').length = c.dropLast.length := by
              have := congrArg List.length hm
              simpa [List.length_append] using this
            simp only [List.length_cons] at h2
            omega
          have hrem2 : removeAt (XElem.node tg a cs) (mi :: (m' ++ [c.getLast hc])) =
              (match cs[mi]? with
               | some ch => XElem.node tg a
                   (cs.set mi (removeAt ch (m' ++ [c.getLast hc])))
               | none => XElem.node tg a cs) := by
            rw [hc23]
            rfl
          rw [List.cons_append, hrem2]
          cases hcsi : cs[mi]? with
          | none =>
            show (if elIsGroup (XElem.node tg a cs) then
                (cs.findIdx? elIsPenpotShape).map (fun i => cand ++ [i]) else none) =
              ((if elIsGroup (XElem.node tg a cs) then
                (cs.findIdx? elIsPenpotShape).map (fun i => cand ++ [i])
                else none) : Option Path).map (shiftRem c)
            by_cases hgr : elIsGroup (XElem.node tg a cs) = true
            · repeat rw [if_pos hgr]
              cases hidx : cs.findIdx? elIsPenpotShape with
              | none => rfl
              | some i =>
                simp only [Option.map, Option.some.injEq]
                rw [shiftRem_append_single_id c cand hc hndp i]
            · repeat rw [if_neg hgr]
              rfl
          | some ch =>
            show (if elIsGroup (XElem.node tg a
                (cs.set mi (removeAt ch (m' ++ [c.getLast hc])))) then
                ((cs.set mi (removeAt ch (m' ++ [c.getLast hc]))).findIdx?
                  elIsPenpotShape).map (fun i => cand ++ [i]) else none) =
              ((if elIsGroup (XElem.node tg a cs) then
                (cs.findIdx? elIsPenpotShape).map (fun i => cand ++ [i])
                else none) : Option Path).map (shiftRem c)
            have hgrsame : elIsGroup (XElem.node tg a
                (cs.set mi (removeAt ch (m' ++ [c.getLast hc])))) =
                elIsGroup (XElem.node tg a cs) := rfl
            rw [hgrsame]
            have hfsame : (cs.set mi (removeAt ch (m' ++ [c.getLast hc]))).findIdx?
                elIsPenpotShape = cs.findIdx? elIsPenpotShape := by
              apply findIdx?_set_congr
              intro y hy
              rw [hy] at hcsi
              have : ch = y := by injection hcsi.symm
              subst this
              unfold elIsPenpotShape
              rw [removeAt_tag]
            rw [hfsame]
            by_cases hgr : elIsGroup (XElem.node tg a cs) = true
            · repeat rw [if_pos hgr]
              cases hidx : cs.findIdx? elIsPenpotShape with
              | none => rfl
              | some i =>
                simp only [Option.map, Option.some.injEq]
                rw [shiftRem_append_single_id c cand hc hndp i]
            · repeat rw [if_neg hgr]
              rfl
  · -- the candidate is beside or below the removal point
    by_cases hdc : c.dropLast <+: cand
    · -- strictly below the removal level: the index at the removal point shifts
      have hne : cand ≠ c.dropLast := fun h => hspine (h ▸ List.prefix_refl _)
      obtain ⟨rest, hrest⟩ := hdc
      have hrestne : rest ≠ [] := by
        intro h
        rw [h, List.append_nil] at hrest
        exact hne hrest.symm
      obtain ⟨j0, s0, rfl⟩ : ∃ j0 s0, rest = j0 :: s0 := by
        cases rest with
        | nil => exact absurd rfl hrestne
        | cons x xs => exact ⟨x, xs, rfl⟩
      have hk := List.dropLast_append_getLast hc
      have hshift : shiftRem c cand =
          c.dropLast ++ (if j0 < c.getLast hc then j0 else j0 - 1) :: s0 := by
        conv_lhs => rw [← hk, ← hrest]
        exact shiftRem_append_cons c.dropLast (c.getLast hc) j0 s0
      have hR2pre : ¬(shiftRem c cand <+: c.dropLast) := by
        intro hp
        have h1 := hp.length_le
        rw [shiftRem_length] at h1
        have h2 : c.dropLast.length + (j0 :: s0).length = cand.length := by
          have := congrArg List.length hrest
          simpa [List.length_append] using this
        simp only [List.length_cons] at h2
        omega
      have hget : get? (removeAt t c) (shiftRem c cand) = get? t cand := by
        rw [get?_removeAt_not_spine c _ t hc hR2pre, unshiftRem_shiftRem c cand hnc]
      unfold nodeShapeChildPath
      rw [hget]
      cases hg : get? t cand with
      | none => rfl
      | some e =>
        dsimp only
        by_cases hgr : elIsGroup e = true
        · repeat rw [if_pos hgr]
          cases hidx : e.children.findIdx? elIsPenpotShape with
          | none => rfl
          | some i =>
            simp only [Option.map, Option.some.injEq]
            have hsh2 : shiftRem c (cand ++ [i]) = shiftRem c cand ++ [i] := by
              have e1 : cand ++ [i] = c.dropLast ++ j0 :: (s0 ++ [i]) := by
                rw [← hrest, List.append_assoc, List.cons_append]
              have hstep := shiftRem_append_cons c.dropLast (c.getLast hc) j0 (s0 ++ [i])
              rw [hk] at hstep
              rw [e1, hstep, hshift]
              rw [List.append_assoc, List.cons_append]
            rw [hsh2]
        · repeat rw [if_neg hgr]
          rfl
    · -- completely beside the removal: paths unchanged
      have hsid : shiftRem c cand = cand := shiftRem_id_outside c cand hdc
      have huid : unshiftRem c cand = cand := unshiftRem_id_outside c cand hdc
      have hget : get? (removeAt t c) cand = get? t cand := by
        rw [get?_removeAt_not_spine c cand t hc hspine, huid]
      rw [hsid]
      unfold nodeShapeChildPath
      rw [hget]
      cases hg : get? t cand with
      | none => rfl
      | some e =>
        dsimp only
        by_cases hgr : elIsGroup e = true
        · repeat rw [if_pos hgr]
          cases hidx : e.children.findIdx? elIsPenpotShape with
          | none => rfl
          | some i =>
            simp only [Option.map, Option.some.injEq]
            rw [shiftRem_append_single_id c cand hc hdc i]
        · repeat rw [if_neg hgr]
          rfl

/-- The parent of a shape is itself a shape-marker element. -/
theorem isShapeAt_of_getParentShape {t : XElem} {p r : Path}
    (h : getParentShape t p = some r) : isShapeAt t r = true := by
  obtain ⟨cand, _, hstep⟩ := findSome?_eq_some_exists _ _ _ h
  unfold nodeShapeChildPath at hstep
  cases hget : get? t cand with
  | none => rw [hget] at hstep; simp at hstep
  | some e =>
    rw [hget] at hstep
    dsimp only at hstep
    by_cases hgr : elIsGroup e = true
    · rw [if_pos hgr] at hstep
      cases hidx : e.children.findIdx? elIsPenpotShape with
      | none => rw [hidx] at hstep; simp at hstep
      | some i =>
        rw [hidx] at hstep
        simp only [Option.map, Option.some.injEq] at hstep
        obtain ⟨x, hx, hpx⟩ := findIdx?_eq_some_pred elIsPenpotShape e.children 0 i hidx
        simp only [Nat.sub_zero] at hx
        have hgi : get? t (cand ++ [i]) = some x := by
          rw [get?_append, hget]
          show get? e [i] = some x
          rw [get?_cons, hx]
          simp [get?_nil]
        unfold isShapeAt
        rw [← hstep, hgi]
        exact hpx
    · rw [if_neg hgr] at hstep
      simp at hstep

/-- The result of the parent walk is an extension of one of the candidate
ancestors, hence comparable with any prefix of the walked path. -/
theorem getParentShape_shape_of_removed {t : XElem} {q r c : Path}
    (hpar : getParentShape t q = some r) (hnq : ¬(c <+: q))
    (hcont : ∀ ce, get? t c = some ce → elIsPenpotShape ce = false) :
    ¬(c <+: r) := by
  intro hcr
  obtain ⟨cand, hcand, hstep⟩ := findSome?_eq_some_exists _ _ _ hpar
  obtain ⟨hpre, _⟩ := mem_parentCandidates_prefix hcand
  have hcq : cand <+: q := hpre.trans ((List.dropLast_prefix _).trans (List.dropLast_prefix _))
  unfold nodeShapeChildPath at hstep
  cases hget : get? t cand with
  | none => rw [hget] at hstep; simp at hstep
  | some e =>
    rw [hget] at hstep
    dsimp only at hstep
    by_cases hgr : elIsGroup e = true
    · rw [if_pos hgr] at hstep
      cases hidx : e.children.findIdx? elIsPenpotShape with
      | none => rw [hidx] at hstep; simp at hstep
      | some i =>
        rw [hidx] at hstep
        simp only [Option.map, Option.some.injEq] at hstep
        -- r = cand ++ [i]
        by_cases hlen : c.length ≤ cand.length
        · have : c <+: cand :=
            List.prefix_of_prefix_length_le hcr (by rw [← hstep]; exact List.prefix_append cand [i]) hlen
          exact hnq (this.trans hcq)
        · have hlc : c.length = cand.length + 1 := by
            have := hcr.length_le
            rw [← hstep] at this
            simp only [List.length_append, List.length_cons, List.length_nil] at this
            omega
          have hceq : c = r := by
            apply List.IsPrefix.eq_of_length_le hcr
            rw [← hstep]
            simp only [List.length_append, List.length_cons, List.length_nil]
            omega
          have hr : isShapeAt t r = true := isShapeAt_of_getParentShape hpar
          unfold isShapeAt at hr
          cases hgr2 : get? t r with
          | none => rw [hgr2] at hr; simp at hr
          | some ce =>
            rw [hgr2] at hr
            dsimp only at hr
            have := hcont ce (by rw [hceq]; exact hgr2)
            rw [this] at hr
            exact absurd hr (by simp)
    · rw [if_neg hgr] at hstep
      simp at hstep

/-- The parent walk transported through a removal: the parent of a surviving
shape in the mutated tree is the shifted image of its original parent. -/
theorem getParentShape_removeAt (c : Path) (t : XElem) (hc : c ≠ [])
    (hcont : ∀ ce, get? t c = some ce → elIsPenpotShape ce = false)
    (q : Path) (hnq : ¬(c <+: q)) :
    getParentShape (removeAt t c) (shiftRem c q) =
      (getParentShape t q).map (shiftRem c) := by
  unfold getParentShape
  have hnil : ∀ (x : Path), (shiftRem c x = [] ↔ x = []) := by
    intro x
    constructor
    · intro h
      have := shiftRem_length c x
      rw [h] at this
      exact List.length_eq_zero.1 this.symm
    · intro h
      rw [h, shiftRem_nil_right]
  have hcands : parentCandidates (shiftRem c q) = (parentCandidates q).map (shiftRem c) := by
    unfold parentCandidates
    rw [shiftRem_dropLast]
    by_cases hdq : q.dropLast = []
    · rw [if_pos ((hnil q.dropLast).2 hdq), if_pos hdq]
      rfl
    · rw [if_neg (fun h => hdq ((hnil q.dropLast).1 h)), if_neg hdq]
      rw [shiftRem_dropLast, inits_shiftRem, List.map_reverse]
  rw [hcands, List.findSome?_map]
  have hpt : ∀ cand ∈ parentCandidates q,
      (nodeShapeChildPath (removeAt t c) ∘ shiftRem c) cand =
        (nodeShapeChildPath t cand).map (shiftRem c) := by
    intro cand hmem
    obtain ⟨hpre, _⟩ := mem_parentCandidates_prefix hmem
    have hncand : ¬(c <+: cand) := by
      intro hcc
      exact hnq (hcc.trans (hpre.trans
        ((List.dropLast_prefix _).trans (List.dropLast_prefix _))))
    exact nodeShapeChildPath_removeAt c t hc hcont cand hncand
  rw [findSome?_congr_mem _ _ _ hpt]
  rw [findSome?_map_option]

/-- The ancestor list transported through a removal. -/
theorem getAllParentShapesAux_removeAt : ∀ (n : Nat) (c : Path) (t : XElem), c ≠ [] →
    (∀ ce, get? t c = some ce → elIsPenpotShape ce = false) →
    ∀ q, ¬(c <+: q) →
    getAllParentShapesAux n (removeAt t c) (shiftRem c q) =
      (getAllParentShapesAux n t q).map (shiftRem c) := by
  intro n
  induction n with
  | zero => intros; rfl
  | succ n ih =>
    intro c t hc hcont q hnq
    simp only [getAllParentShapesAux]
    rw [getParentShape_removeAt c t hc hcont q hnq]
    cases hpar : getParentShape t q with
    | none => rfl
    | some r =>
      simp only [Option.map]
      have hncr : ¬(c <+: r) := getParentShape_shape_of_removed hpar hnq hcont
      rw [ih c t hc hcont r hncr]
      rfl

/-- `depth_in_shapes` is invariant under the removal of a disjoint subtree. -/
theorem depthInShapes_removeAt (c : Path) (t : XElem) (hc : c ≠ [])
    (hcont : ∀ ce, get? t c = some ce → elIsPenpotShape ce = false)
    (q : Path) (hnq : ¬(c <+: q)) :
    depthInShapes (removeAt t c) (shiftRem c q) = depthInShapes t q := by
  unfold depthInShapes getAllParentShapes
  rw [shiftRem_length]
  rw [getAllParentShapesAux_removeAt q.length c t hc hcont q hnq]
  rw [List.length_map]

theorem group_not_shape {e : XElem} (h : elIsGroup e = true) :
    elIsPenpotShape e = false := by
  unfold elIsGroup at h
  unfold elIsPenpotShape
  rw [eq_of_beq h]
  decide

theorem findSome?_isSome_of_mem {α β : Type} {l : List α} {f : α → Option β} {a : α}
    (ha : a ∈ l) (hf : (f a).isSome = true) : (l.findSome? f).isSome = true := by
  induction l with
  | nil => simp at ha
  | cons x l ih =>
    rw [List.findSome?_cons]
    cases hx : f x with
    | some y => simp
    | none =>
      rcases List.mem_cons.1 ha with rfl | ha2
      · rw [hx] at hf; simp at hf
      · exact ih ha2

theorem mem_of_getElem?_eq_some {α : Type} : ∀ {l : List α} {i : Nat} {x : α},
    l[i]? = some x → x ∈ l := by
  intro l
  induction l with
  | nil => intro i x h; simp at h
  | cons a rest ih =>
    intro i x h
    cases i with
    | zero =>
      simp only [List.getElem?_cons_zero, Option.some.injEq] at h
      simp [h]
    | succ n =>
      simp only [List.getElem?_cons_succ] at h
      simp [ih h]

theorem inits_head_nil : ∀ (m : Path), m.inits = [] :: m.inits.tail
  | [] => rfl
  | a :: l => by simp [List.inits_cons]

theorem inits_dropLast_append : ∀ (l : Path), l ≠ [] →
    l.inits = l.dropLast.inits ++ [l]
  | [], h => absurd rfl h
  | [a], _ => rfl
  | a :: b :: l, _ => by
      rw [List.inits_cons]
      rw [inits_dropLast_append (b :: l) (by simp)]
      rw [List.map_append, List.dropLast_cons₂, List.inits_cons]
      rfl

theorem inits_reverse_peel (l : Path) (h : l ≠ []) :
    l.inits.reverse = l :: l.dropLast.inits.reverse := by
  rw [inits_dropLast_append l h, List.reverse_append]
  rfl

/-- The relative parent walk inside a detached subtree. -/
def relParentWalk (g : XElem) (z : Path) : Option Path :=
  (z.dropLast.dropLast.inits.reverse).findSome? (nodeShapeChildPath g)

theorem nodeShapeChildPath_append {u1 g : XElem} {b1 : Path}
    (hg1 : get? u1 b1 = some g) (w : Path) :
    nodeShapeChildPath u1 (b1 ++ w) = (nodeShapeChildPath g w).map (fun v => b1 ++ v) := by
  unfold nodeShapeChildPath
  rw [get?_append, hg1]
  show (match get? g w with
        | some e =>
          if elIsGroup e then (e.children.findIdx? elIsPenpotShape).map
            (fun i => (b1 ++ w) ++ [i])
          else none
        | none => none) = _
  cases hw : get? g w with
  | none => rfl
  | some e =>
    dsimp only
    by_cases hgr : elIsGroup e = true
    · repeat rw [if_pos hgr]
      cases hidx : e.children.findIdx? elIsPenpotShape with
      | none => rfl
      | some i =>
        simp only [Option.map, Option.some.injEq]
        rw [List.append_assoc]
    · repeat rw [if_neg hgr]
      rfl

theorem parentCandidates_decomp (b1 z : Path) (hb : b1 ≠ []) (hz : 2 ≤ z.length) :
    parentCandidates (b1 ++ z) =
      (z.dropLast.dropLast.inits.reverse).map (fun w => b1 ++ w) ++
        b1.dropLast.inits.reverse := by
  have hzne : z ≠ [] := by intro h; subst h; simp at hz
  have hzdne : z.dropLast ≠ [] := by
    intro h
    have := congrArg List.length h
    rw [List.length_dropLast] at this
    simp at this
    omega
  unfold parentCandidates
  have h1 : (b1 ++ z).dropLast = b1 ++ z.dropLast :=
    List.dropLast_append_of_ne_nil b1 hzne
  rw [if_neg (by rw [h1]; simp [hb])]
  rw [h1, List.dropLast_append_of_ne_nil b1 hzdne]
  rw [List.inits_append, List.reverse_append, ← List.map_reverse]
  rw [inits_reverse_peel b1 hb]
  conv_rhs => rw [inits_head_nil z.dropLast.dropLast, List.reverse_cons, List.map_append]
  rw [List.append_assoc]
  simp

theorem get?_append_base {u g : XElem} {b : Path} (hg : get? u b = some g)
    (y : Path) : get? u (b ++ y) = get? g y := by
  rw [get?_append, hg]
  rfl

theorem beq_append_left (b x y : Path) : ((b ++ x) == (b ++ y)) = (x == y) := by
  by_cases h : x = y
  · subst h
    simp
  · have hne : b ++ x ≠ b ++ y := fun hc => h (List.append_cancel_left hc)
    rw [beq_eq_false_iff_ne.2 hne, beq_eq_false_iff_ne.2 h]

/-- When the relative walk inside a common subtree succeeds, the absolute
walk resolves to its image under the base path. -/
theorem getParentShape_append_isSome {u1 g : XElem} {b1 : Path}
    (hb : b1 ≠ []) (hg1 : get? u1 b1 = some g) (z : Path) (hz : 2 ≤ z.length)
    (hsome : (relParentWalk g z).isSome = true) :
    getParentShape u1 (b1 ++ z) = (relParentWalk g z).map (fun w => b1 ++ w) := by
  unfold getParentShape
  rw [parentCandidates_decomp b1 z hb hz]
  rw [List.findSome?_append]
  have hfirst : ((z.dropLast.dropLast.inits.reverse).map (fun w => b1 ++ w)).findSome?
      (nodeShapeChildPath u1) = (relParentWalk g z).map (fun w => b1 ++ w) := by
    rw [List.findSome?_map]
    show List.findSome? (fun w => nodeShapeChildPath u1 (b1 ++ w))
        (z.dropLast.dropLast.inits.reverse) = _
    rw [findSome?_congr_mem _ _ (fun w => (nodeShapeChildPath g w).map (fun v => b1 ++ v))
      (fun w _ => nodeShapeChildPath_append hg1 w)]
    exact findSome?_map_option _ _ _
  rw [hfirst]
  cases hrel : relParentWalk g z with
  | none => rw [hrel] at hsome; simp at hsome
  | some w => rfl

/-- When the relative walk fails, any absolute result lies above the base. -/
theorem getParentShape_append_none {u1 g : XElem} {b1 : Path}
    (hb : b1 ≠ []) (hg1 : get? u1 b1 = some g) (z : Path) (hz : 2 ≤ z.length)
    (hnone : relParentWalk g z = none) (r : Path)
    (h : getParentShape u1 (b1 ++ z) = some r) : r.length ≤ b1.length := by
  unfold getParentShape at h
  rw [parentCandidates_decomp b1 z hb hz, List.findSome?_append] at h
  have hfirst : ((z.dropLast.dropLast.inits.reverse).map (fun w => b1 ++ w)).findSome?
      (nodeShapeChildPath u1) = none := by
    rw [List.findSome?_map]
    show List.findSome? (fun w => nodeShapeChildPath u1 (b1 ++ w))
        (z.dropLast.dropLast.inits.reverse) = _
    rw [findSome?_congr_mem _ _ (fun w => (nodeShapeChildPath g w).map (fun v => b1 ++ v))
      (fun w _ => nodeShapeChildPath_append hg1 w)]
    rw [findSome?_map_option]
    have hnone2 : (z.dropLast.dropLast.inits.reverse).findSome? (nodeShapeChildPath g) =
        none := hnone
    rw [hnone2]
    rfl
  rw [hfirst, Option.none_or] at h
  obtain ⟨cand, hcand, hstep⟩ := findSome?_eq_some_exists _ _ _ h
  have hcp : cand <+: b1.dropLast := by
    rw [List.mem_reverse, List.mem_inits] at hcand
    exact hcand
  unfold nodeShapeChildPath at hstep
  cases hget : get? u1 cand with
  | none => rw [hget] at hstep; simp at hstep
  | some e =>
    rw [hget] at hstep
    dsimp only at hstep
    by_cases hgr : elIsGroup e = true
    · rw [if_pos hgr] at hstep
      cases hidx : e.children.findIdx? elIsPenpotShape with
      | none => rw [hidx] at hstep; simp at hstep
      | some i =>
        rw [hidx] at hstep
        simp only [Option.map, Option.some.injEq] at hstep
        rw [← hstep]
        have h1 : cand.length ≤ b1.dropLast.length := hcp.length_le
        have h2 : b1.dropLast.length = b1.length - 1 := List.length_dropLast b1
        have h3 : 1 ≤ b1.length := List.length_pos.2 hb
        simp only [List.length_append, List.length_cons, List.length_nil]
        omega
    · rw [if_neg hgr] at hstep
      simp at hstep

/-- A shape at distance at most that of the walking shape cannot be its
parent: all walk results are strictly shorter than the shape path. -/
theorem parent_beq_false_of_short {u : XElem} (b z y : Path)
    (hlen : z.length ≤ y.length) :
    (getParentShape u (b ++ z) == some (b ++ y)) = false := by
  cases h : getParentShape u (b ++ z) with
  | none => rfl
  | some r =>
    have hlt := length_lt_of_getParentShape h
    have hne : r ≠ b ++ y := by
      intro hc
      subst hc
      simp only [List.length_append] at hlt
      omega
    show (some r == some (b ++ y)) = false
    rw [beq_eq_false_iff_ne.2 (fun hc => hne (by injection hc))]

/-- The parent-equality filter of `get_direct_children_shapes` computes the
same boolean over any two embeddings of the same subtree. -/
theorem parent_filter_eq {u1 u2 g : XElem} {b1 b2 : Path}
    (hb1 : b1 ≠ []) (hb2 : b2 ≠ []) (hg1 : get? u1 b1 = some g)
    (hg2 : get? u2 b2 = some g) (y z : Path) (hyne : y ≠ []) :
    (getParentShape u1 (b1 ++ z) == some (b1 ++ y)) =
      (getParentShape u2 (b2 ++ z) == some (b2 ++ y)) := by
  by_cases hlen : z.length ≤ y.length
  · rw [parent_beq_false_of_short b1 z y hlen, parent_beq_false_of_short b2 z y hlen]
  · have hz2 : 2 ≤ z.length := by
      have h1 : 1 ≤ y.length := List.length_pos.2 hyne
      omega
    cases hrel : relParentWalk g z with
    | none =>
      have hf1 : (getParentShape u1 (b1 ++ z) == some (b1 ++ y)) = false := by
        cases hp1 : getParentShape u1 (b1 ++ z) with
        | none => rfl
        | some r =>
          have hle := getParentShape_append_none hb1 hg1 z hz2 hrel r hp1
          have hne : r ≠ b1 ++ y := by
            intro hc
            subst hc
            have h1 : 1 ≤ y.length := List.length_pos.2 hyne
            simp only [List.length_append] at hle
            omega
          show (some r == some (b1 ++ y)) = false
          rw [beq_eq_false_iff_ne.2 (fun hc => hne (by injection hc))]
      have hf2 : (getParentShape u2 (b2 ++ z) == some (b2 ++ y)) = false := by
        cases hp2 : getParentShape u2 (b2 ++ z) with
        | none => rfl
        | some r =>
          have hle := getParentShape_append_none hb2 hg2 z hz2 hrel r hp2
          have hne : r ≠ b2 ++ y := by
            intro hc
            subst hc
            have h1 : 1 ≤ y.length := List.length_pos.2 hyne
            simp only [List.length_append] at hle
            omega
          show (some r == some (b2 ++ y)) = false
          rw [beq_eq_false_iff_ne.2 (fun hc => hne (by injection hc))]
      rw [hf1, hf2]
    | some w =>
      rw [getParentShape_append_isSome hb1 hg1 z hz2 (by rw [hrel]; rfl)]
      rw [getParentShape_append_isSome hb2 hg2 z hz2 (by rw [hrel]; rfl)]
      rw [hrel]
      show ((some (b1 ++ w) : Option Path) == some (b1 ++ y)) =
        ((some (b2 ++ w) : Option Path) == some (b2 ++ y))
      have e1 : ((some (b1 ++ w) : Option Path) == some (b1 ++ y)) = ((b1 ++ w) == (b1 ++ y)) := rfl
      have e2 : ((some (b2 ++ w) : Option Path) == some (b2 ++ y)) = ((b2 ++ w) == (b2 ++ y)) := rfl
      rw [e1, e2, beq_append_left, beq_append_left]

/-- `check_for_visible_content` is local to the containing group's subtree:
embedding the same subtree at two different document positions yields the
same visibility verdict. -/
theorem checkForVisibleContent_append : ∀ (n : Nat) (u1 u2 g : XElem) (b1 b2 : Path),
    b1 ≠ [] → b2 ≠ [] → get? u1 b1 = some g → get? u2 b2 = some g →
    ∀ y : Path, y ≠ [] → cvMeasure u1 (b1 ++ y) ≤ n →
    checkForVisibleContent u1 (b1 ++ y) = checkForVisibleContent u2 (b2 ++ y) := by
  intro n
  induction n using Nat.strong_induction_on with
  | _ n ih =>
    intro u1 u2 g b1 b2 hb1 hb2 hg1 hg2 y hyne hmeas
    have hy1 : get? u1 (b1 ++ y) = get? g y := get?_append_base hg1 y
    have hy2 : get? u2 (b2 ++ y) = get? g y := get?_append_base hg2 y
    have hdl1 : (b1 ++ y).dropLast = b1 ++ y.dropLast := List.dropLast_append_of_ne_nil b1 hyne
    have hdl2 : (b2 ++ y).dropLast = b2 ++ y.dropLast := List.dropLast_append_of_ne_nil b2 hyne
    have hyd1 : get? u1 ((b1 ++ y).dropLast) = get? g y.dropLast := by
      rw [hdl1]; exact get?_append_base hg1 y.dropLast
    have hyd2 : get? u2 ((b2 ++ y).dropLast) = get? g y.dropLast := by
      rw [hdl2]; exact get?_append_base hg2 y.dropLast
    rw [checkForVisibleContent_eq u1 (b1 ++ y), checkForVisibleContent_eq u2 (b2 ++ y)]
    have htype : isGroupTypeAt u1 (b1 ++ y) = isGroupTypeAt u2 (b2 ++ y) := by
      unfold isGroupTypeAt typeAt getPenpotAttr
      rw [hy1, hy2]
    have hinner : getInnerGElements u1 (b1 ++ y) = getInnerGElements u2 (b2 ++ y) := by
      unfold getInnerGElements
      rw [hyd1, hyd2]
    rw [htype, hinner]
    by_cases hgr : isGroupTypeAt u2 (b2 ++ y) = true
    · repeat rw [if_pos hgr]
      cases hgc : get? g y.dropLast with
      | none =>
        have hall1 : getAllChildrenShapes u1 (b1 ++ y) = [] := by
          unfold getAllChildrenShapes
          rw [hyd1, hgc]
        have hall2 : getAllChildrenShapes u2 (b2 ++ y) = [] := by
          unfold getAllChildrenShapes
          rw [hyd2, hgc]
        unfold getDirectChildrenShapes
        rw [hall1, hall2]
        rfl
      | some gcon =>
        have hmap1 : getAllChildrenShapes u1 (b1 ++ y) =
            ((findAllShapePaths gcon).filter (fun w => !((y.dropLast ++ w) == y))).map
              (fun w => b1 ++ (y.dropLast ++ w)) := by
          unfold getAllChildrenShapes
          rw [hyd1, hgc, hdl1]
          dsimp only
          rw [List.filter_map]
          have hpred : ∀ w ∈ findAllShapePaths gcon,
              ((fun c => !(c == b1 ++ y)) ∘ (fun q => (b1 ++ y.dropLast) ++ q)) w
                = (fun w => !((y.dropLast ++ w) == y)) w := by
            intro w _
            show (!((b1 ++ y.dropLast) ++ w == b1 ++ y)) = !((y.dropLast ++ w) == y)
            rw [List.append_assoc, beq_append_left]
          rw [List.filter_congr hpred]
          apply List.map_congr_left
          intro w _
          exact List.append_assoc b1 y.dropLast w
        have hmap2 : getAllChildrenShapes u2 (b2 ++ y) =
            ((findAllShapePaths gcon).filter (fun w => !((y.dropLast ++ w) == y))).map
              (fun w => b2 ++ (y.dropLast ++ w)) := by
          unfold getAllChildrenShapes
          rw [hyd2, hgc, hdl2]
          dsimp only
          rw [List.filter_map]
          have hpred : ∀ w ∈ findAllShapePaths gcon,
              ((fun c => !(c == b2 ++ y)) ∘ (fun q => (b2 ++ y.dropLast) ++ q)) w
                = (fun w => !((y.dropLast ++ w) == y)) w := by
            intro w _
            show (!((b2 ++ y.dropLast) ++ w == b2 ++ y)) = !((y.dropLast ++ w) == y)
            rw [List.append_assoc, beq_append_left]
          rw [List.filter_congr hpred]
          apply List.map_congr_left
          intro w _
          exact List.append_assoc b2 y.dropLast w
        have hdc1 : getDirectChildrenShapes u1 (b1 ++ y) =
            (((findAllShapePaths gcon).filter (fun w => !((y.dropLast ++ w) == y))).filter
              (fun w => getParentShape u1 (b1 ++ (y.dropLast ++ w)) == some (b1 ++ y))).map
              (fun w => b1 ++ (y.dropLast ++ w)) := by
          unfold getDirectChildrenShapes
          rw [hmap1, List.filter_map]
          rfl
        have hdc2 : getDirectChildrenShapes u2 (b2 ++ y) =
            (((findAllShapePaths gcon).filter (fun w => !((y.dropLast ++ w) == y))).filter
              (fun w => getParentShape u1 (b1 ++ (y.dropLast ++ w)) == some (b1 ++ y))).map
              (fun w => b2 ++ (y.dropLast ++ w)) := by
          unfold getDirectChildrenShapes
          rw [hmap2, List.filter_map]
          have hflt : ∀ w ∈ (findAllShapePaths gcon).filter
              (fun w => !((y.dropLast ++ w) == y)),
              ((fun c => getParentShape u2 c == some (b2 ++ y)) ∘
                (fun w => b2 ++ (y.dropLast ++ w))) w =
              (fun w => getParentShape u1 (b1 ++ (y.dropLast ++ w)) == some (b1 ++ y)) w := by
            intro w _
            show (getParentShape u2 (b2 ++ (y.dropLast ++ w)) == some (b2 ++ y)) =
              (getParentShape u1 (b1 ++ (y.dropLast ++ w)) == some (b1 ++ y))
            exact (parent_filter_eq hb1 hb2 hg1 hg2 y (y.dropLast ++ w) hyne).symm
          rw [List.filter_congr hflt]
        rw [hdc1, hdc2, List.any_map, List.any_map]
        apply any_congr
        intro w hw
        have hwPF : (getParentShape u1 (b1 ++ (y.dropLast ++ w)) == some (b1 ++ y))
            = true := (List.mem_filter.1 hw).2
        have hlong : ¬((y.dropLast ++ w).length ≤ y.length) := by
          intro hle
          have hfalse := parent_beq_false_of_short (u := u1) b1 (y.dropLast ++ w) y hle
          rw [hwPF] at hfalse
          exact absurd hfalse (by simp)
        have hywne : y.dropLast ++ w ≠ [] := by
          intro hceq
          rw [hceq] at hlong
          simp at hlong
        have hmem1 : b1 ++ (y.dropLast ++ w) ∈ getDirectChildrenShapes u1 (b1 ++ y) := by
          rw [hdc1]
          exact List.mem_map_of_mem _ hw
        have hlt := cvMeasure_child_lt hmem1
        show checkForVisibleContent u1 (b1 ++ (y.dropLast ++ w)) =
          checkForVisibleContent u2 (b2 ++ (y.dropLast ++ w))
        exact ih (cvMeasure u1 (b1 ++ (y.dropLast ++ w))) (by omega)
          u1 u2 g b1 b2 hb1 hb2 hg1 hg2 (y.dropLast ++ w) hywne (le_refl _)
    · repeat rw [if_neg hgr]

theorem depthInShapes_succ {t : XElem} {r par : Path}
    (h : getParentShape t r = some par) :
    depthInShapes t r = depthInShapes t par + 1 := by
  unfold depthInShapes getAllParentShapes
  have hlt := length_lt_of_getParentShape h
  obtain ⟨m, hm⟩ : ∃ m, r.length = m + 1 := ⟨r.length - 1, by omega⟩
  rw [hm]
  simp only [getAllParentShapesAux]
  rw [h]
  simp only [List.length_cons]
  congr 1
  rw [getAllParentShapesAux_fuel m par.length t par (by omega) (le_refl _)]

theorem pairwise_prefix_inits : ∀ (m : Path), m.inits.Pairwise (· <+: ·)
  | [] => by simp [List.inits]
  | a :: l => by
      rw [List.inits_cons]
      refine List.Pairwise.cons ?_ ?_
      · intro y _
        exact List.nil_prefix
      · rw [List.pairwise_map]
        exact (pairwise_prefix_inits l).imp
          (fun hxy => (List.cons_prefix_cons).2 ⟨rfl, hxy⟩)

theorem findSome?_first_above {α : Type} :
    ∀ (l : List Path) (f : Path → Option α) (val : α),
    l.Pairwise (fun x y => y <+: x) → l.findSome? f = some val →
    ∀ d ∈ l, (f d).isSome = true →
    ∃ cand ∈ l, f cand = some val ∧ d <+: cand := by
  intro l
  induction l with
  | nil => intro f val _ h; simp [List.findSome?] at h
  | cons x l ih =>
    intro f val hpw hfind d hd hds
    rw [List.findSome?_cons] at hfind
    cases hfx : f x with
    | some v =>
      rw [hfx] at hfind
      simp only [Option.some.injEq] at hfind
      subst hfind
      rcases List.mem_cons.1 hd with rfl | hdl
      · exact ⟨d, by simp, hfx, List.prefix_refl d⟩
      · exact ⟨x, by simp, hfx, (List.pairwise_cons.1 hpw).1 d hdl⟩
    | none =>
      rw [hfx] at hfind
      rcases List.mem_cons.1 hd with rfl | hdl
      · rw [hfx] at hds; simp at hds
      · obtain ⟨cand, hcm, hcf, hcp⟩ :=
          ih f val (List.pairwise_cons.1 hpw).2 hfind d hdl hds
        exact ⟨cand, by simp [hcm], hcf, hcp⟩

/-- In a well-formed page, a shape strictly inside another shape's containing
group sits strictly deeper in the shape hierarchy. -/
theorem depth_lt_of_inside : ∀ (n : Nat) (t : XElem) (s r : Path),
    (∀ p, isShapeAt t p = true → wfContainerAt t p = true) →
    (∀ p q, isShapeAt t p = true → isShapeAt t q = true →
      p.dropLast = q.dropLast → p = q) →
    isShapeAt t s = true → isShapeAt t r = true →
    s.dropLast <+: r.dropLast → s.dropLast ≠ r.dropLast →
    r.length ≤ n →
    depthInShapes t s < depthInShapes t r := by
  intro n
  induction n using Nat.strong_induction_on with
  | _ n ih =>
    intro t s r hwf hcinj hs hr hpre hne hrlen
    have hwfs := hwf s hs
    unfold wfContainerAt at hwfs
    rw [Bool.and_eq_true] at hwfs
    obtain ⟨hsd, hsg⟩ := hwfs
    have hsdne : s.dropLast ≠ [] := by simpa using hsd
    have hsne : s ≠ [] := by
      intro h
      rw [h] at hsdne
      exact hsdne rfl
    cases hcon : get? t s.dropLast with
    | none => rw [hcon] at hsg; simp at hsg
    | some con =>
      rw [hcon] at hsg
      dsimp only at hsg
      have hlenlt : s.dropLast.length < r.dropLast.length := by
        rcases Nat.lt_or_ge s.dropLast.length r.dropLast.length with h | h
        · exact h
        · exact absurd (List.IsPrefix.eq_of_length_le hpre h) hne
      have hrdne : r.dropLast ≠ [] := by
        intro hceq
        rw [hceq] at hlenlt
        simp at hlenlt
      have hdmem : s.dropLast ∈ parentCandidates r := by
        unfold parentCandidates
        rw [if_neg hrdne, List.mem_reverse, List.mem_inits]
        apply List.prefix_of_prefix_length_le hpre (List.dropLast_prefix r.dropLast)
        have e1 : r.dropLast.dropLast.length = r.dropLast.length - 1 :=
          List.length_dropLast _
        omega
      -- the walk step succeeds at the containing group of s
      have hdson : (nodeShapeChildPath t s.dropLast).isSome = true := by
        unfold nodeShapeChildPath
        rw [hcon]
        dsimp only
        rw [if_pos hsg]
        cases hidx : con.children.findIdx? elIsPenpotShape with
        | some i => simp
        | none =>
          exfalso
          rw [List.findIdx?_eq_none_iff] at hidx
          have hsfull : s.dropLast ++ [s.getLast hsne] = s :=
            List.dropLast_append_getLast hsne
          unfold isShapeAt at hs
          cases hgs : get? t s with
          | none => rw [hgs] at hs; simp at hs
          | some mk =>
            rw [hgs] at hs
            have hchain : get? t s = (match con.children[s.getLast hsne]? with
                | some ch => some ch
                | none => none) := by
              conv_lhs => rw [← hsfull]
              rw [get?_append, hcon]
              show get? con [s.getLast hsne] = _
              rw [get?_cons]
              cases hcc : con.children[s.getLast hsne]? with
              | none => rfl
              | some ch =>
                dsimp only
                rw [get?_nil]
            rw [hgs] at hchain
            cases hcc : con.children[s.getLast hsne]? with
            | none => rw [hcc] at hchain; simp at hchain
            | some ch =>
              rw [hcc] at hchain
              simp only [Option.some.injEq] at hchain
              have hmem : ch ∈ con.children := mem_of_getElem?_eq_some hcc
              have hfalse := hidx ch hmem
              dsimp only at hs
              rw [hchain, hfalse] at hs
              exact absurd hs (by simp)
      have hfindsome : (getParentShape t r).isSome = true := by
        unfold getParentShape
        exact findSome?_isSome_of_mem hdmem hdson
      cases hpar : getParentShape t r with
      | none => rw [hpar] at hfindsome; simp at hfindsome
      | some par =>
        have hpw : (parentCandidates r).Pairwise (fun x y => y <+: x) := by
          unfold parentCandidates
          rw [if_neg hrdne, List.pairwise_reverse]
          exact pairwise_prefix_inits _
        obtain ⟨cand, hcm, hcf, hcp⟩ :=
          findSome?_first_above (parentCandidates r) (nodeShapeChildPath t) par hpw
            hpar s.dropLast hdmem hdson
        obtain ⟨hcand_pre, _⟩ := mem_parentCandidates_prefix hcm
        -- extract par = cand ++ [i]
        have hpar_eq : ∃ i, par = cand ++ [i] := by
          unfold nodeShapeChildPath at hcf
          cases hget : get? t cand with
          | none => rw [hget] at hcf; simp at hcf
          | some e =>
            rw [hget] at hcf
            dsimp only at hcf
            by_cases hgr : elIsGroup e = true
            · rw [if_pos hgr] at hcf
              cases hidx : e.children.findIdx? elIsPenpotShape with
              | none => rw [hidx] at hcf; simp at hcf
              | some i =>
                rw [hidx] at hcf
                simp only [Option.map, Option.some.injEq] at hcf
                exact ⟨i, hcf.symm⟩
            · rw [if_neg hgr] at hcf
              simp at hcf
        obtain ⟨i, hieq⟩ := hpar_eq
        have hparshape : isShapeAt t par = true := isShapeAt_of_getParentShape hpar
        have hdepth := depthInShapes_succ hpar
        have hpard : par.dropLast = cand := by
          rw [hieq]
          simp
        by_cases hceq : cand = s.dropLast
        · have hpds : par.dropLast = s.dropLast := by rw [hpard, hceq]
          have : par = s := hcinj par s hparshape hs hpds
          rw [this] at hdepth
          omega
        · have hscand_pre : s.dropLast <+: par.dropLast := by rw [hpard]; exact hcp
          have hscand_ne : s.dropLast ≠ par.dropLast := by
            rw [hpard]
            exact fun h => hceq h.symm
          have hparlen : par.length ≤ n - 1 := by
            have h1 : cand.length ≤ r.dropLast.dropLast.length := hcand_pre.length_le
            have h2 := List.length_dropLast r.dropLast
            have h3 := List.length_dropLast r
            have h4 : 1 ≤ r.dropLast.length := List.length_pos.2 hrdne
            have h5 : par.length = cand.length + 1 := by
              rw [hieq]
              simp
            omega
          have hrpos : 1 ≤ r.length := by
            have h4 : 1 ≤ r.dropLast.length := List.length_pos.2 hrdne
            have h3 := List.length_dropLast r
            omega
          have hlt := ih (n - 1) (by omega) t s par hwf hcinj hs hparshape
            hscand_pre hscand_ne hparlen
          omega

theorem le_foldr_max : ∀ (l : List Nat) (a : Nat), a ∈ l → a ≤ l.foldr max 0 := by
  intro l
  induction l with
  | nil => intro a h; simp at h
  | cons x l ih =>
    intro a h
    rcases List.mem_cons.1 h with rfl | h2
    · exact Nat.le_max_left a _
    · exact Nat.le_trans (ih a h2) (Nat.le_max_right x _)

theorem count_flatMap {α β : Type} [BEq β] : ∀ (l : List α) (f : α → List β) (b : β),
    (l.flatMap f).count b = (l.map (fun a => (f a).count b)).sum := by
  intro l
  induction l with
  | nil => intro f b; rfl
  | cons x l ih =>
    intro f b
    rw [List.flatMap_cons, List.count_append, List.map_cons, List.sum_cons, ih]

theorem sum_single_hit : ∀ (ds : List Nat) (v cnt : Nat), ds.Nodup → v ∈ ds →
    (ds.map (fun d => if v = d then cnt else 0)).sum = cnt := by
  intro ds
  induction ds with
  | nil => intro v cnt _ h; simp at h
  | cons d ds ih =>
    intro v cnt hnd hv
    rw [List.map_cons, List.sum_cons]
    by_cases hvd : v = d
    · rw [if_pos hvd]
      have hnv : v ∉ ds := by rw [hvd]; exact (List.nodup_cons.1 hnd).1
      have hz : (ds.map (fun d => if v = d then cnt else 0)).sum = 0 := by
        apply List.sum_eq_zero
        intro x hx
        obtain ⟨d2, hd2, hd2e⟩ := List.mem_map.1 hx
        rw [← hd2e]
        rw [if_neg (fun h => hnv (by rw [h]; exact hd2))]
      rw [hz]
      omega
    · rw [if_neg hvd]
      rcases List.mem_cons.1 hv with rfl | h2
      · exact absurd rfl hvd
      · rw [ih v cnt (List.nodup_cons.1 hnd).2 h2]
        omega

theorem count_congr_lawful {α : Type} (i1 i2 : BEq α) (h1 : @LawfulBEq α i1)
    (h2 : @LawfulBEq α i2) (a : α) : ∀ (l : List α),
    @List.count α i1 a l = @List.count α i2 a l := by
  intro l
  induction l with
  | nil => rfl
  | cons b l ih =>
    rw [@List.count_cons α i1, @List.count_cons α i2, ih]
    have e : (@BEq.beq α i1 b a) = (@BEq.beq α i2 b a) := by
      by_cases hba : b = a
      · subst hba
        rw [@beq_self_eq_true α i1 h1 b, @beq_self_eq_true α i2 h2 b]
      · rw [(@beq_eq_false_iff_ne α i1 h1 b a).2 hba,
          (@beq_eq_false_iff_ne α i2 h2 b a).2 hba]
    rw [e]

theorem perm_of_count_eq (l1 l2 : List Path)
    (h : ∀ x : Path, l1.count x = l2.count x) : l1.Perm l2 := by
  rw [List.perm_iff_count]
  intro x
  rw [count_congr_lawful (instBEqOfDecidableEq) List.instBEq inferInstance inferInstance x l1]
  rw [count_congr_lawful (instBEqOfDecidableEq) List.instBEq inferInstance inferInstance x l2]
  exact h x

/-- The deepest-first processing order is a permutation of the page's shapes. -/
theorem pruneOrder_perm (t : XElem) : (pruneOrder t).Perm (findAllShapePaths t) := by
  apply perm_of_count_eq
  intro a
  unfold pruneOrder
  rw [count_flatMap]
  by_cases hmem : a ∈ findAllShapePaths t
  · have hdle : depthInShapes t a ≤ maxShapeDepth t := by
      apply le_foldr_max
      exact List.mem_map_of_mem _ hmem
    have hcf : ∀ d, ((findAllShapePaths t).filter
        (fun p => depthInShapes t p == d)).count a =
        if depthInShapes t a = d then (findAllShapePaths t).count a else 0 := by
      intro d
      by_cases hd : depthInShapes t a = d
      · rw [if_pos hd]
        exact List.count_filter (by simp [hd])
      · rw [if_neg hd]
        rw [List.count_eq_zero]
        intro hcon
        exact hd (by simpa using (List.mem_filter.1 hcon).2)
    have hmapc : (((List.range (maxShapeDepth t + 1)).reverse).map
        (fun d => ((findAllShapePaths t).filter
          (fun p => depthInShapes t p == d)).count a)).sum =
        (((List.range (maxShapeDepth t + 1)).reverse).map
        (fun d => if depthInShapes t a = d then (findAllShapePaths t).count a else 0)).sum := by
      apply congrArg
      apply List.map_congr_left
      intro d _
      exact hcf d
    rw [hmapc]
    apply sum_single_hit
    · rw [List.nodup_reverse]
      exact List.nodup_range _
    · rw [List.mem_reverse, List.mem_range]
      omega
  · rw [(List.count_eq_zero).2 hmem]
    apply List.sum_eq_zero
    intro x hx
    obtain ⟨d, _, hde⟩ := List.mem_map.1 hx
    rw [← hde, List.count_eq_zero]
    intro hcon
    exact hmem (List.mem_filter.1 hcon).1

/-- The deepest-first processing order is sorted by descending depth. -/
theorem pruneOrder_sorted (t : XElem) :
    (pruneOrder t).Pairwise (fun p q => depthInShapes t q ≤ depthInShapes t p) := by
  unfold pruneOrder
  show ((((List.range (maxShapeDepth t + 1)).reverse).map
    (fun d => (findAllShapePaths t).filter
      (fun p => depthInShapes t p == d))).flatten).Pairwise _
  rw [List.pairwise_flatten]
  have hdep : ∀ (d : Nat) (p : Path),
      p ∈ (findAllShapePaths t).filter (fun p => depthInShapes t p == d) →
      depthInShapes t p = d := by
    intro d p hp
    simpa using (List.mem_filter.1 hp).2
  constructor
  · intro l hl
    obtain ⟨d, _, hde⟩ := List.mem_map.1 hl
    apply List.pairwise_of_forall_mem_list
    intro x hx y hy
    rw [← hde] at hx hy
    rw [hdep d x hx, hdep d y hy]
  · rw [List.pairwise_map]
    have hrg : ((List.range (maxShapeDepth t + 1)).reverse).Pairwise (fun a b => b < a) := by
      rw [List.pairwise_reverse]
      exact List.pairwise_lt_range _
    apply hrg.imp
    intro d1 d2 hlt x hx y hy
    rw [hdep d1 x hx, hdep d2 y hy]
    omega

theorem findShapePathById_some {t : XElem} {sid : Option String} {p0 : Path}
    (h : findShapePathById t sid = some p0) :
    isShapeAt t p0 = true ∧ shapeIdAt t p0 = sid := by
  unfold findShapePathById at h
  constructor
  · exact (mem_findAllShapePaths t p0).1 (List.mem_of_find?_eq_some h)
  · have hb := List.find?_some h
    exact eq_of_beq hb

/-- A shape-marker path never coincides with a path whose node is a group. -/
theorem marker_ne_container {u : XElem} {q pfd : Path} {con : XElem}
    (hq : isShapeAt u q = true) (hcon : get? u pfd = some con)
    (hg : elIsGroup con = true) : q ≠ pfd := by
  intro hceq
  subst hceq
  unfold isShapeAt at hq
  rw [hcon] at hq
  dsimp only at hq
  rw [group_not_shape hg] at hq
  exact absurd hq (by simp)

/-- A distinct shape inside another shape's containing group is strictly
deeper. -/
theorem depth_gt_of_in_container {u : XElem} {pf q : Path}
    (hW1 : ∀ p, isShapeAt u p = true → wfContainerAt u p = true)
    (hCINJ : ∀ p q, isShapeAt u p = true → isShapeAt u q = true →
      p.dropLast = q.dropLast → p = q)
    (hpf : isShapeAt u pf = true) (hq : isShapeAt u q = true)
    (hne : q ≠ pf) (hpre : pf.dropLast <+: q) :
    depthInShapes u pf < depthInShapes u q := by
  have hwfpf := hW1 pf hpf
  unfold wfContainerAt at hwfpf
  rw [Bool.and_eq_true] at hwfpf
  obtain ⟨_, hctag⟩ := hwfpf
  cases hcon : get? u pf.dropLast with
  | none => rw [hcon] at hctag; simp at hctag
  | some con =>
    rw [hcon] at hctag
    dsimp only at hctag
    have hqne : q ≠ pf.dropLast := marker_ne_container hq hcon hctag
    have hlen : pf.dropLast.length < q.length := by
      rcases Nat.lt_or_ge pf.dropLast.length q.length with h | h
      · exact h
      · exact absurd (List.IsPrefix.eq_of_length_le hpre h).symm hqne
    have hpredl : pf.dropLast <+: q.dropLast := by
      apply List.prefix_of_prefix_length_le hpre (List.dropLast_prefix q)
      have e1 : q.dropLast.length = q.length - 1 := List.length_dropLast q
      omega
    have hnedl : pf.dropLast ≠ q.dropLast := by
      intro hceq
      exact hne (hCINJ q pf hq hpf hceq.symm)
    exact depth_lt_of_inside q.length u pf q hW1 hCINJ hpf hq hpredl hnedl (le_refl _)

theorem shiftRem_append_last (c q0 : Path) (j : Nat)
    (h1 : ¬(c <+: q0 ++ [j])) (h2 : ¬(q0 <+: c.dropLast)) :
    shiftRem c (q0 ++ [j]) = shiftRem c q0 ++ [j] := by
  by_cases hd : c.dropLast <+: q0
  · by_cases hq0d : q0 = c.dropLast
    · exact absurd (hq0d ▸ List.prefix_refl _) h2
    · obtain ⟨rest0, hrest0⟩ := hd
      have hrne : rest0 ≠ [] := by
        intro h
        rw [h, List.append_nil] at hrest0
        exact hq0d hrest0.symm
      obtain ⟨r0, rs, rfl⟩ : ∃ r0 rs, rest0 = r0 :: rs := by
        cases rest0 with
        | nil => exact absurd rfl hrne
        | cons x xs => exact ⟨x, xs, rfl⟩
      by_cases hcnil : c = []
      · subst hcnil
        rw [shiftRem_nil_left, shiftRem_nil_left]
      · have hk := List.dropLast_append_getLast hcnil
        have e1 : q0 ++ [j] = c.dropLast ++ r0 :: (rs ++ [j]) := by
          rw [← hrest0, List.append_assoc, List.cons_append]
        have hstepA := shiftRem_append_cons c.dropLast (c.getLast hcnil) r0 (rs ++ [j])
        have hstepB := shiftRem_append_cons c.dropLast (c.getLast hcnil) r0 rs
        rw [hk] at hstepA hstepB
        rw [e1, hstepA, ← hrest0, hstepB]
        rw [List.append_assoc, List.cons_append]
  · have hid0 : shiftRem c q0 = q0 := shiftRem_id_outside c q0 hd
    rw [hid0]
    by_cases hdq : c.dropLast <+: q0 ++ [j]
    · have heq : c.dropLast = q0 ++ [j] := by
        have hlt : q0.length < c.dropLast.length := by
          rcases Nat.lt_or_ge q0.length c.dropLast.length with h | h
          · exact h
          · exact absurd (List.prefix_of_prefix_length_le hdq (List.prefix_append q0 [j]) h) hd
        apply List.IsPrefix.eq_of_length_le hdq
        simp only [List.length_append, List.length_cons, List.length_nil]
        omega
      rw [← heq]
      exact shiftRem_of_prefix_dropLast c _ (List.prefix_refl _)
    · exact shiftRem_id_outside c _ hdq

theorem wfContainer_parts {u : XElem} {p : Path} (h : wfContainerAt u p = true) :
    p.dropLast ≠ [] ∧ ∃ con, get? u p.dropLast = some con ∧ elIsGroup con = true := by
  unfold wfContainerAt at h
  rw [Bool.and_eq_true] at h
  obtain ⟨h1, h2⟩ := h
  constructor
  · intro he
    rw [he] at h1
    simp at h1
  · cases hc : get? u p.dropLast with
    | none =>
      rw [hc] at h2
      dsimp only at h2
      exact absurd h2 (by simp)
    | some con =>
      rw [hc] at h2
      dsimp only at h2
      exact ⟨con, rfl, h2⟩

theorem wfContainer_intro {u : XElem} {p : Path} (h1 : p.dropLast ≠ [])
    {con : XElem} (h2 : get? u p.dropLast = some con) (h3 : elIsGroup con = true) :
    wfContainerAt u p = true := by
  unfold wfContainerAt
  rw [Bool.and_eq_true]
  constructor
  · simpa using h1
  · rw [h2]
    exact h3

/-- Success of the defensive post-check means no shape of the rebuilt page
carries a removed id. -/
theorem prunePostCheckLoop_absent : ∀ (L : List (Option String)) (t' u : XElem),
    prunePostCheckLoop t' L = .ok u →
    ∀ sid ∈ L, ∀ q, isShapeAt t' q = true → shapeIdAt t' q ≠ sid := by
  intro L
  induction L with
  | nil =>
    intro t' u _ sid hsid
    simp at hsid
  | cons s rest ih =>
    intro t' u hok sid hsid q hq
    revert hok
    unfold prunePostCheckLoop
    cases hg : getShapeByAttrUnique t' shapeIdAt s with
    | ok pp =>
      intro hok
      dsimp only at hok
      exact absurd hok (by simp)
    | error e =>
      cases e with
      | keyError msg =>
        intro hok
        dsimp only at hok
        rcases List.mem_cons.1 hsid with rfl | hmem
        · intro hid
          unfold getShapeByAttrUnique at hg
          cases hl : getShapesByAttrVal t' shapeIdAt sid with
          | nil =>
            have hqmem : q ∈ getShapesByAttrVal t' shapeIdAt sid := by
              unfold getShapesByAttrVal
              rw [List.mem_filter]
              exact ⟨(mem_findAllShapePaths t' q).2 hq, by rw [hid]; exact beq_self_eq_true sid⟩
            rw [hl] at hqmem
            simp at hqmem
          | cons p1 ps =>
            rw [hl] at hg
            cases ps with
            | nil => dsimp only at hg; exact absurd hg (by simp)
            | cons p2 ps2 => dsimp only at hg; simp at hg
        · exact ih t' u hok sid hmem q hq
      | valueError msg => intro hok; dsimp only at hok; exact absurd hok (by simp)
      | runtimeError msg => intro hok; dsimp only at hok; exact absurd hok (by simp)
      | assertionError msg => intro hok; dsimp only at hok; exact absurd hok (by simp)
      | attributeError msg => intro hok; dsimp only at hok; exact absurd hok (by simp)
      | indexError msg => intro hok; dsimp only at hok; exact absurd hok (by simp)

/-- Invariant argument for the removal loop: under structural
well-formedness (every shape in an `svg:g` container below the root,
globally unique shape ids, distinct shapes in distinct containers), if every
shape whose id is not pending is already content-visible, no processed
shape's container sits above a pending shape, every pending id is present,
and pending ids are ordered deepest-first, then after the loop every
surviving shape is content-visible. -/
theorem pruneLoop_visible : ∀ (L : List (Option String)) (u t' : XElem)
    (removed : List (Option String)),
    L.Nodup →
    (∀ p, isShapeAt u p = true → wfContainerAt u p = true) →
    (∀ p q, isShapeAt u p = true → isShapeAt u q = true →
      shapeIdAt u p = shapeIdAt u q → p = q) →
    (∀ p q, isShapeAt u p = true → isShapeAt u q = true →
      p.dropLast = q.dropLast → p = q) →
    (∀ p, isShapeAt u p = true → shapeIdAt u p ∉ L →
      checkForVisibleContent u p = true) →
    (∀ p q, isShapeAt u p = true → isShapeAt u q = true →
      shapeIdAt u p ∉ L → shapeIdAt u q ∈ L → ¬(p.dropLast <+: q)) →
    (∀ sid ∈ L, ∃ p, isShapeAt u p = true ∧ shapeIdAt u p = sid) →
    L.Pairwise (fun s1 s2 => ∀ p q, isShapeAt u p = true → isShapeAt u q = true →
      shapeIdAt u p = s1 → shapeIdAt u q = s2 →
      depthInShapes u q ≤ depthInShapes u p) →
    pruneLoop u L = .ok (t', removed) →
    ∀ p, isShapeAt t' p = true → checkForVisibleContent t' p = true := by
  intro L
  induction L with
  | nil =>
    intro u t' removed _ _ _ _ hK _ _ _ hok p hp
    have hred : pruneLoop u [] = .ok (u, ([] : List (Option String))) := rfl
    rw [hred] at hok
    simp only [Except.ok.injEq, Prod.mk.injEq] at hok
    obtain ⟨hu, _⟩ := hok
    subst hu
    exact hK p hp (by simp)
  | cons sid rest ih =>
    intro u t' removed hLND hW1 hINJ hCINJ hK hD hPRES hORD hok
    have hsid_notin : sid ∉ rest := (List.nodup_cons.1 hLND).1
    have hLND2 : rest.Nodup := (List.nodup_cons.1 hLND).2
    obtain ⟨hhead, hORDrest⟩ := List.pairwise_cons.1 hORD
    obtain ⟨pX, hpXs, hpXid⟩ := hPRES sid (List.mem_cons_self sid rest)
    cases hpf : findShapePathById u sid with
    | none =>
      exfalso
      unfold findShapePathById at hpf
      rw [List.find?_eq_none] at hpf
      have hm := (mem_findAllShapePaths u pX).2 hpXs
      have hc := hpf pX hm
      rw [hpXid] at hc
      exact hc (beq_self_eq_true sid)
    | some pf =>
    obtain ⟨hpfs, hpfid⟩ := findShapePathById_some hpf
    unfold pruneLoop at hok
    rw [hpf] at hok
    dsimp only at hok
    by_cases hvis : checkForVisibleContent u pf = true
    · rw [if_pos hvis] at hok
      refine ih u t' removed hLND2 hW1 hINJ hCINJ ?_ ?_
        (fun s hm => hPRES s (List.mem_cons_of_mem _ hm)) hORDrest hok
      · intro p hp hnotin
        by_cases hps : shapeIdAt u p = sid
        · have hppf : p = pf := hINJ p pf hp hpfs (by rw [hps, hpfid])
          rw [hppf]
          exact hvis
        · apply hK p hp
          intro hmem
          rcases List.mem_cons.1 hmem with h | h
          · exact hps h
          · exact hnotin h
      · intro p q hp hq hpnot hqmem
        by_cases hps : shapeIdAt u p = sid
        · have hppf : p = pf := hINJ p pf hp hpfs (by rw [hps, hpfid])
          intro hpre
          rw [hppf] at hpre
          have hqne : q ≠ pf := by
            intro he
            rw [he, hpfid] at hqmem
            exact hsid_notin hqmem
          have hdepth : depthInShapes u pf < depthInShapes u q :=
            depth_gt_of_in_container hW1 hCINJ hpfs hq hqne hpre
          have hle := hhead (shapeIdAt u q) hqmem pf q hpfs hq hpfid rfl
          omega
        · refine hD p q hp hq ?_ (List.mem_cons_of_mem _ hqmem)
          intro hm
          rcases List.mem_cons.1 hm with h | h
          · exact hps h
          · exact hpnot h
    · rw [if_neg hvis] at hok
      obtain ⟨hdl, con, hcong, hcgrp⟩ := wfContainer_parts (hW1 pf hpfs)
      have hcont : ∀ ce, get? u pf.dropLast = some ce →
          elIsPenpotShape ce = false := by
        intro ce hce
        rw [hcong] at hce
        injection hce with h2
        rw [← h2]
        exact group_not_shape hcgrp
      rw [if_neg hdl] at hok
      revert hok
      cases hrec : pruneLoop (removeAt u pf.dropLast) rest with
      | error e =>
        intro hok
        dsimp only at hok
        exact absurd hok (by simp)
      | ok pr =>
        obtain ⟨t2, rem2⟩ := pr
        intro hok
        dsimp only at hok
        simp only [Except.ok.injEq, Prod.mk.injEq] at hok
        obtain ⟨ht2, _⟩ := hok
        subst ht2
        have hback : ∀ q', isShapeAt (removeAt u pf.dropLast) q' = true →
            isShapeAt u (unshiftRem pf.dropLast q') = true ∧
            shapeIdAt (removeAt u pf.dropLast) q' =
              shapeIdAt u (unshiftRem pf.dropLast q') ∧
            ¬(pf.dropLast <+: unshiftRem pf.dropLast q') ∧
            shiftRem pf.dropLast (unshiftRem pf.dropLast q') = q' := by
          intro q' hq'
          refine ⟨?_, shapeIdAt_removeAt _ _ _ hdl,
            not_prefix_unshiftRem _ _ hdl, shiftRem_unshiftRem _ _⟩
          rw [← isShapeAt_removeAt _ _ _ hdl]
          exact hq'
        have hnot_sid : ∀ q', isShapeAt (removeAt u pf.dropLast) q' = true →
            shapeIdAt u (unshiftRem pf.dropLast q') ≠ sid := by
          intro q' hq' hid
          obtain ⟨hqs, _, hnpre, _⟩ := hback q' hq'
          have he : unshiftRem pf.dropLast q' = pf :=
            hINJ _ pf hqs hpfs (by rw [hid, hpfid])
          apply hnpre
          rw [he]
          exact List.dropLast_prefix pf
        apply ih (removeAt u pf.dropLast) t2 rem2 hLND2 ?_ ?_ ?_ ?_ ?_ ?_ ?_ hrec
        · -- well-formed containers survive removal
          intro q' hq'
          obtain ⟨hqs, _, hqnp, hqsh⟩ := hback q' hq'
          obtain ⟨hqod, con2, hcon2, hg2⟩ := wfContainer_parts (hW1 _ hqs)
          have hcomm : unshiftRem pf.dropLast q'.dropLast =
              (unshiftRem pf.dropLast q').dropLast :=
            (unshiftRem_dropLast pf.dropLast q').symm
          have hq'd : q'.dropLast ≠ [] := by
            have h2 : 1 ≤ (unshiftRem pf.dropLast q').dropLast.length :=
              List.length_pos.2 hqod
            have h3 : (unshiftRem pf.dropLast q').dropLast.length =
                (unshiftRem pf.dropLast q').length - 1 := List.length_dropLast _
            have h4 : q'.dropLast.length = q'.length - 1 := List.length_dropLast _
            have hl := unshiftRem_length pf.dropLast q'
            intro h
            have h5 : q'.dropLast.length = 0 := by rw [h]; rfl
            omega
          have hta := tag_get?_removeAt pf.dropLast q'.dropLast u hdl
          rw [hcomm, hcon2] at hta
          cases hg1 : get? (removeAt u pf.dropLast) q'.dropLast with
          | none =>
            rw [hg1] at hta
            simp at hta
          | some gc =>
            rw [hg1] at hta
            simp only [Option.map, Option.some.injEq] at hta
            apply wfContainer_intro hq'd hg1
            unfold elIsGroup at hg2 ⊢
            rw [hta]
            exact hg2
        · -- id-injectivity survives removal
          intro p' q' hp' hq' hideq
          obtain ⟨hps, hpid, hpnp, hpsh⟩ := hback p' hp'
          obtain ⟨hqs, hqid, hqnp, hqsh⟩ := hback q' hq'
          have he : unshiftRem pf.dropLast p' = unshiftRem pf.dropLast q' :=
            hINJ _ _ hps hqs (by rw [← hpid, ← hqid]; exact hideq)
          rw [← hpsh, ← hqsh, he]
        · -- container-injectivity survives removal
          intro p' q' hp' hq' hdleq
          obtain ⟨hps, hpid, hpnp, hpsh⟩ := hback p' hp'
          obtain ⟨hqs, hqid, hqnp, hqsh⟩ := hback q' hq'
          have e1 : (unshiftRem pf.dropLast p').dropLast =
              (unshiftRem pf.dropLast q').dropLast := by
            rw [unshiftRem_dropLast, unshiftRem_dropLast, hdleq]
          have he := hCINJ _ _ hps hqs e1
          rw [← hpsh, ← hqsh, he]
        · -- shapes with non-pending ids are still content-visible
          intro q' hq' hnotin
          obtain ⟨hqs, hqid, hqnp, hqsh⟩ := hback q' hq'
          have hnid : shapeIdAt u (unshiftRem pf.dropLast q') ∉ sid :: rest := by
            intro hm
            rcases List.mem_cons.1 hm with h | h
            · exact hnot_sid q' hq' h
            · rw [← hqid] at h
              exact hnotin h
          have hvq := hK _ hqs hnid
          have hDqo : ¬((unshiftRem pf.dropLast q').dropLast <+: pf) :=
            hD _ pf hqs hpfs hnid (by rw [hpfid]; exact List.mem_cons_self _ _)
          have hDqo2 : ¬((unshiftRem pf.dropLast q').dropLast <+: pf.dropLast) :=
            fun h => hDqo (h.trans (List.dropLast_prefix pf))
          obtain ⟨hqod, gcon, hgcon, hggrp⟩ := wfContainer_parts (hW1 _ hqs)
          have hqo_ne : unshiftRem pf.dropLast q' ≠ [] := by
            intro h
            apply hqod
            rw [h]
            rfl
          obtain ⟨j, hjdec⟩ : ∃ j, unshiftRem pf.dropLast q' =
              (unshiftRem pf.dropLast q').dropLast ++ [j] :=
            ⟨(unshiftRem pf.dropLast q').getLast hqo_ne,
              (List.dropLast_append_getLast hqo_ne).symm⟩
          have hshape_app : shiftRem pf.dropLast
                ((unshiftRem pf.dropLast q').dropLast ++ [j]) =
              shiftRem pf.dropLast ((unshiftRem pf.dropLast q').dropLast) ++ [j] := by
            apply shiftRem_append_last
            · rw [← hjdec]
              exact hqnp
            · intro h
              exact hDqo2 (h.trans (List.dropLast_prefix _))
          have hq'app : q' = shiftRem pf.dropLast
              ((unshiftRem pf.dropLast q').dropLast) ++ [j] := by
            rw [hjdec] at hqsh
            rw [hshape_app] at hqsh
            exact hqsh.symm
          have hnc : ¬(pf.dropLast <+: (unshiftRem pf.dropLast q').dropLast) :=
            fun h => hqnp (h.trans (List.dropLast_prefix _))
          have hnsp : ¬(shiftRem pf.dropLast ((unshiftRem pf.dropLast q').dropLast)
              <+: pf.dropLast.dropLast) := by
            intro h
            have hlen := h.length_le
            rw [shiftRem_length] at hlen
            have hid := shiftRem_of_length_le pf.dropLast _ hlen
            rw [hid] at h
            exact hDqo2 (h.trans (List.dropLast_prefix _))
          have hg1 : get? (removeAt u pf.dropLast)
                (shiftRem pf.dropLast ((unshiftRem pf.dropLast q').dropLast)) =
              some gcon := by
            rw [get?_removeAt_not_spine _ _ _ hdl hnsp]
            rw [unshiftRem_shiftRem _ _ hnc]
            exact hgcon
          have hb1ne : shiftRem pf.dropLast
              ((unshiftRem pf.dropLast q').dropLast) ≠ [] := by
            intro h
            have hl := shiftRem_length pf.dropLast
              ((unshiftRem pf.dropLast q').dropLast)
            rw [h] at hl
            exact hqod (List.length_eq_zero.1 hl.symm)
          have capp := checkForVisibleContent_append
            (cvMeasure (removeAt u pf.dropLast)
              (shiftRem pf.dropLast ((unshiftRem pf.dropLast q').dropLast) ++ [j]))
            (removeAt u pf.dropLast) u gcon
            (shiftRem pf.dropLast ((unshiftRem pf.dropLast q').dropLast))
            ((unshiftRem pf.dropLast q').dropLast)
            hb1ne hqod hg1 hgcon [j] (by simp) (le_refl _)
          rw [hq'app, capp, ← hjdec]
          exact hvq
        · -- no processed container sits above a pending shape
          intro p' q' hp' hq' hpnot hqmem
          obtain ⟨hps, hpid, hpnp, hpsh⟩ := hback p' hp'
          obtain ⟨hqs, hqid, hqnp, hqsh⟩ := hback q' hq'
          have hpnotL : shapeIdAt u (unshiftRem pf.dropLast p') ∉ sid :: rest := by
            intro hm
            rcases List.mem_cons.1 hm with h | h
            · exact hnot_sid p' hp' h
            · rw [← hpid] at h
              exact hpnot h
          have hDo := hD _ _ hps hqs hpnotL
            (by rw [← hqid]; exact List.mem_cons_of_mem _ hqmem)
          intro hpre
          apply hDo
          have h1 := unshiftRem_prefix_mono pf.dropLast _ _ hpre
          rw [← unshiftRem_dropLast] at h1
          exact h1
        · -- every pending id still has a shape
          intro s2 hm2
          obtain ⟨q, hqs, hqid⟩ := hPRES s2 (List.mem_cons_of_mem _ hm2)
          have hqnpf : ¬(pf.dropLast <+: q) := by
            intro hpre
            have hqnepf : q ≠ pf := by
              intro he
              rw [he, hpfid] at hqid
              rw [← hqid] at hm2
              exact hsid_notin hm2
            have hdepth := depth_gt_of_in_container hW1 hCINJ hpfs hqs hqnepf hpre
            have hle := hhead s2 hm2 pf q hpfs hqs hpfid hqid
            omega
          refine ⟨shiftRem pf.dropLast q, ?_, ?_⟩
          · rw [isShapeAt_removeAt _ _ _ hdl, unshiftRem_shiftRem _ _ hqnpf]
            exact hqs
          · rw [shapeIdAt_removeAt _ _ _ hdl, unshiftRem_shiftRem _ _ hqnpf]
            exact hqid
        · -- depth order is preserved
          refine List.Pairwise.imp ?_ hORDrest
          intro s1 s2 hrel p' q' hp' hq' hpid1 hqid2
          obtain ⟨hps, hpid, hpnp, hpsh⟩ := hback p' hp'
          obtain ⟨hqs, hqid, hqnp, hqsh⟩ := hback q' hq'
          have hdp : depthInShapes (removeAt u pf.dropLast) p' =
              depthInShapes u (unshiftRem pf.dropLast p') := by
            conv_lhs => rw [← hpsh]
            exact depthInShapes_removeAt _ _ hdl hcont _ hpnp
          have hdq : depthInShapes (removeAt u pf.dropLast) q' =
              depthInShapes u (unshiftRem pf.dropLast q') := by
            conv_lhs => rw [← hqsh]
            exact depthInShapes_removeAt _ _ hdl hcont _ hqnp
          rw [hdp, hdq]
          exact hrel _ _ hps hqs (by rw [← hpid]; exact hpid1)
            (by rw [← hqid]; exact hqid2)

/-- C4: after `remove_elements_with_no_visible_content` completes on a
structurally well-formed page (every shape marker inside an `svg:g` container
below the document root, globally unique shape ids, distinct shapes in
distinct containers), every shape remaining in the rebuilt index passes
`check_for_visible_content`, no remaining shape's `get_parent_shape` resolves
to a shape whose id was removed, and the removal order is the page's shapes
sorted by descending `depth_in_shapes` (deepest first). -/
theorem C4_prune_invisible (t t' : XElem) (removed : List (Option String))
    (hW1 : ∀ p ∈ findAllShapePaths t, wfContainerAt t p = true)
    (hINJ : ∀ p ∈ findAllShapePaths t, ∀ q ∈ findAllShapePaths t,
      shapeIdAt t p = shapeIdAt t q → p = q)
    (hCINJ : ∀ p ∈ findAllShapePaths t, ∀ q ∈ findAllShapePaths t,
      p.dropLast = q.dropLast → p = q)
    (hrun : removeElementsWithNoVisibleContent t = .ok (t', removed)) :
    (∀ p, isShapeAt t' p = true → checkForVisibleContent t' p = true) ∧
    (∀ p r, getParentShape t' p = some r → shapeIdAt t' r ∉ removed) ∧
    (pruneOrder t).Pairwise (fun p q => depthInShapes t q ≤ depthInShapes t p) ∧
    (pruneOrder t).Perm (findAllShapePaths t) := by
  have hW1s : ∀ p, isShapeAt t p = true → wfContainerAt t p = true :=
    fun p hp => hW1 p ((mem_findAllShapePaths t p).2 hp)
  have hINJs : ∀ p q, isShapeAt t p = true → isShapeAt t q = true →
      shapeIdAt t p = shapeIdAt t q → p = q :=
    fun p q hp hq => hINJ p ((mem_findAllShapePaths t p).2 hp)
      q ((mem_findAllShapePaths t q).2 hq)
  have hCINJs : ∀ p q, isShapeAt t p = true → isShapeAt t q = true →
      p.dropLast = q.dropLast → p = q :=
    fun p q hp hq => hCINJ p ((mem_findAllShapePaths t p).2 hp)
      q ((mem_findAllShapePaths t q).2 hq)
  unfold removeElementsWithNoVisibleContent at hrun
  revert hrun
  cases hloop : pruneLoop t ((pruneOrder t).map (fun p => shapeIdAt t p)) with
  | error e =>
    intro hrun
    dsimp only at hrun
    exact absurd hrun (by simp)
  | ok pr =>
    obtain ⟨t1, rem1⟩ := pr
    intro hrun
    dsimp only at hrun
    revert hrun
    cases hpost : prunePostCheckLoop t1 rem1 with
    | error e =>
      intro hrun
      dsimp only at hrun
      exact absurd hrun (by simp)
    | ok w =>
      intro hrun
      dsimp only at hrun
      simp only [Except.ok.injEq, Prod.mk.injEq] at hrun
      obtain ⟨ht1, hrem1⟩ := hrun
      subst ht1
      subst hrem1
      have hmemPO : ∀ p, p ∈ pruneOrder t ↔ isShapeAt t p = true := by
        intro p
        rw [(pruneOrder_perm t).mem_iff]
        exact mem_findAllShapePaths t p
      have hLmem : ∀ p, isShapeAt t p = true →
          shapeIdAt t p ∈ (pruneOrder t).map (fun p => shapeIdAt t p) :=
        fun p hp => List.mem_map.2 ⟨p, (hmemPO p).2 hp, rfl⟩
      have hLND : ((pruneOrder t).map (fun p => shapeIdAt t p)).Nodup := by
        apply List.Nodup.map_on
        · intro x hx y hy hxy
          exact hINJs x y ((hmemPO x).1 hx) ((hmemPO y).1 hy) hxy
        · exact ((pruneOrder_perm t).nodup_iff).2 (nodup_findAllShapePaths t)
      have ha : ∀ p, isShapeAt t1 p = true → checkForVisibleContent t1 p = true := by
        refine pruneLoop_visible _ t t1 rem1 hLND hW1s hINJs hCINJs
          (fun p hp hnot => absurd (hLmem p hp) hnot)
          (fun p q hp hq hpnot _ => absurd (hLmem p hp) hpnot)
          ?_ ?_ hloop
        · intro s hs
          obtain ⟨p, hpmem, hpid⟩ := List.mem_map.1 hs
          exact ⟨p, (hmemPO p).1 hpmem, hpid⟩
        · refine List.pairwise_map.2 ?_
          refine List.Pairwise.imp_of_mem ?_ (pruneOrder_sorted t)
          intro a b hamem hbmem hdep p q hp hq hpid hqid
          have hpa : p = a := hINJs p a hp ((hmemPO a).1 hamem) hpid
          have hqb : q = b := hINJs q b hq ((hmemPO b).1 hbmem) hqid
          rw [hpa, hqb]
          exact hdep
      refine ⟨ha, ?_, pruneOrder_sorted t, pruneOrder_perm t⟩
      intro p r hpar hmem
      exact prunePostCheckLoop_absent rem1 t1 w hpost _ hmem r
        (isShapeAt_of_getParentShape hpar) rfl

theorem C4_prune_invisible_witness :
    (∀ p, isShapeAt sampleDocNoPathD p = true →
      checkForVisibleContent sampleDocNoPathD p = true) ∧
    (∀ p r, getParentShape sampleDocNoPathD p = some r →
      shapeIdAt sampleDocNoPathD r ∉ [some "shape-pathD"]) ∧
    (pruneOrder sampleDoc).Pairwise
      (fun p q => depthInShapes sampleDoc q ≤ depthInShapes sampleDoc p) ∧
    (pruneOrder sampleDoc).Perm (findAllShapePaths sampleDoc) :=
  C4_prune_invisible sampleDoc sampleDocNoPathD [some "shape-pathD"]
    (by decide) (by decide) (by decide) (by rfl)

end Penai
